import Mathlib

/-!
memdb: word-count store, leader / follower replication.

A shallow embedding of `pkg/db` and `pkg/server`.  Go strings are byte
sequences, Go `int` is a 64-bit two's complement integer (arithmetic wraps),
a Go `map[string]int` is a finite association with distinct keys, and a nil
map is `none`; a call that panics returns `none`.  The library functions the
code relies on (`strings.Fields`, `unicode/utf8`, `encoding/json` on
`map[string]int`) are embedded at the level of bytes; of `net/http`, the
dispatch of `ServeMux` on the registered paths and the status 200 of a
handler that writes no header.  The locks serialise
the methods of a store, so each method is one atomic step; the file system
and the network are the arguments and results of the steps.

The definitions come first, then the lemmas and the theorems about them.
-/

namespace Memdb

/-! ## Go values -/

/-- One byte of a Go string. -/
abbrev Byte := Fin 256

/-- A Go `string`: an arbitrary byte sequence, not necessarily valid UTF-8. -/
abbrev GoString := List Byte

/-- The value a Go `int` (64 bit, two's complement) holds after an arithmetic
result `x`: the representative of `x` modulo `2^64` in `[-2^63, 2^63)`. -/
def wrapInt64 (x : Int) : Int := (x + 2 ^ 63) % 2 ^ 64 - 2 ^ 63

/-- Whether `x` is a value of Go's `int`. -/
def InInt64 (x : Int) : Prop := -(2 ^ 63) ≤ x ∧ x < 2 ^ 63

instance (x : Int) : Decidable (InInt64 x) := by unfold InInt64; infer_instance

/-- A value of Go's `int`. -/
abbrev GoInt := { x : Int // InInt64 x }

/-- The Go `int` an arithmetic result `x` is stored as. -/
def GoInt.wrap (x : Int) : GoInt :=
  ⟨wrapInt64 x, by unfold wrapInt64 InInt64; omega⟩

/-- The zero value of `int`. -/
def GoInt.zero : GoInt := ⟨0, by decide⟩

/-- Go's `a + b` on `int`. -/
def GoInt.add (a b : GoInt) : GoInt := GoInt.wrap (a.val + b.val)

/-- A non-nil Go `map[string]int`: association list with distinct keys. -/
abbrev Table := AList (fun _ : GoString => GoInt)

/-- A Go `map[string]int` variable: `none` is the nil map. -/
abbrev GoMap := Option Table

/-- The Go expression `make(map[string]int)`. -/
def makeMap : Table := ∅

/-- The Go expression `m[k]` on a non-nil map: the zero value when absent. -/
def Table.get (m : Table) (k : GoString) : GoInt := (m.lookup k).getD GoInt.zero

/-- The Go expression `m[k]`: reading a nil map yields the zero value. -/
def GoMap.get (m : GoMap) (k : GoString) : GoInt :=
  match m with
  | none => GoInt.zero
  | some t => Table.get t k

/-- The Go statement `v, ok := m[k]`. -/
def GoMap.getOk (m : GoMap) (k : GoString) : GoInt × Bool :=
  match m with
  | none => (GoInt.zero, false)
  | some t =>
    match t.lookup k with
    | some v => (v, true)
    | none => (GoInt.zero, false)

/-- The Go statement `m[k] += c` on a non-nil map. -/
def Table.add (m : Table) (k : GoString) (c : GoInt) : Table :=
  m.insert k (GoInt.add (Table.get m k) c)

/-- The Go statement `m[k] += c`; a write to a nil map panics (`none`). -/
def GoMap.add (m : GoMap) (k : GoString) (c : GoInt) : Option GoMap :=
  match m with
  | none => none
  | some t => some (some (Table.add t k c))

/-! ## `unicode/utf8`, `unicode.IsSpace`, `strings.Fields` -/

/-- The constant `utf8.RuneError`. -/
def RuneError : Nat := 0xFFFD

/-- The table `utf8.first` for a lead byte of a multi-byte sequence: the
sequence length and the accepted range of the second byte; `none` for an
invalid lead byte. -/
def leadInfo (b : Nat) : Option (Nat × Nat × Nat) :=
  if b < 0xC2 then none
  else if b < 0xE0 then some (2, 0x80, 0xBF)
  else if b = 0xE0 then some (3, 0xA0, 0xBF)
  else if b = 0xED then some (3, 0x80, 0x9F)
  else if b < 0xF0 then some (3, 0x80, 0xBF)
  else if b = 0xF0 then some (4, 0x90, 0xBF)
  else if b < 0xF4 then some (4, 0x80, 0xBF)
  else if b = 0xF4 then some (4, 0x80, 0x8F)
  else none

/-- Whether `b` is a UTF-8 continuation byte (`locb <= b <= hicb`). -/
def isCont (b : Nat) : Bool := 0x80 ≤ b && b ≤ 0xBF

/-- The function `utf8.DecodeRuneInString`: the first rune of `s` and its
width in bytes; `(RuneError, 1)` for an invalid encoding and `(RuneError, 0)`
for the empty string. -/
def DecodeRune : GoString → Nat × Nat
  | [] => (RuneError, 0)
  | s0 :: rest =>
    if s0.val < 0x80 then (s0.val, 1)
    else
      match leadInfo s0.val with
      | none => (RuneError, 1)
      | some (sz, lo, hi) =>
        match rest with
        | [] => (RuneError, 1)
        | s1 :: r1 =>
          if s1.val < lo ∨ hi < s1.val then (RuneError, 1)
          else if sz = 2 then ((s0.val % 32) * 64 + s1.val % 64, 2)
          else
            match r1 with
            | [] => (RuneError, 1)
            | s2 :: r2 =>
              if !isCont s2.val then (RuneError, 1)
              else if sz = 3 then
                ((s0.val % 16) * 4096 + (s1.val % 64) * 64 + s2.val % 64, 3)
              else
                match r2 with
                | [] => (RuneError, 1)
                | s3 :: _ =>
                  if !isCont s3.val then (RuneError, 1)
                  else
                    ((s0.val % 8) * 262144 + (s1.val % 64) * 4096
                      + (s2.val % 64) * 64 + s3.val % 64, 4)

/-- The function `unicode.IsSpace`. -/
def IsSpace (r : Nat) : Bool :=
  if r ≤ 0xFF then
    r = 0x09 || r = 0x0A || r = 0x0B || r = 0x0C || r = 0x0D || r = 0x20
      || r = 0x85 || r = 0xA0
  else
    r = 0x1680 || (0x2000 ≤ r && r ≤ 0x200A) || r = 0x2028 || r = 0x2029
      || r = 0x202F || r = 0x205F || r = 0x3000

/-- The table `asciiSpace` of package `strings`. -/
def asciiSpace (b : Byte) : Bool :=
  b.val = 0x09 || b.val = 0x0A || b.val = 0x0B || b.val = 0x0C || b.val = 0x0D
    || b.val = 0x20

/-- The ASCII fast path of `strings.Fields`: `cur` is the field being read. -/
def fieldsASCII : GoString → Option GoString → List GoString
  | [], none => []
  | [], some c => [c]
  | b :: rest, cur =>
    if asciiSpace b then
      match cur with
      | none => fieldsASCII rest none
      | some c => c :: fieldsASCII rest none
    else fieldsASCII rest (some (cur.getD [] ++ [b]))

/-- The loop of `strings.FieldsFunc`, rune by rune; `cur` is the field being
read (`start >= 0`) and the first argument bounds the number of runes. -/
def fieldsFuncLoop (f : Nat → Bool) : Nat → GoString → Option GoString → List GoString
  | 0, _, none => []
  | 0, _, some c => [c]
  | _ + 1, [], none => []
  | _ + 1, [], some c => [c]
  | n + 1, b :: rest, cur =>
    let w := (DecodeRune (b :: rest)).2
    if f (DecodeRune (b :: rest)).1 then
      match cur with
      | none => fieldsFuncLoop f n ((b :: rest).drop w) none
      | some c => c :: fieldsFuncLoop f n ((b :: rest).drop w) none
    else
      fieldsFuncLoop f n ((b :: rest).drop w) (some (cur.getD [] ++ (b :: rest).take w))

/-- The function `strings.FieldsFunc`. -/
def FieldsFunc (s : GoString) (f : Nat → Bool) : List GoString :=
  fieldsFuncLoop f s.length s none

/-- The function `strings.Fields`: the maximal runs of non-space runes of
`s`, in order. -/
def Fields (s : GoString) : List GoString :=
  if s.all (fun b => b.val < 0x80) then fieldsASCII s none
  else FieldsFunc s IsSpace

/-- The bytes of an ASCII text. -/
def ascii (s : String) : GoString := s.toList.map (fun c => Fin.ofNat c.toNat)

/-! ## `encoding/json`, as used on `map[string]int` -/

/-- A JSON text as the scanner of `encoding/json` reads it; a string keeps
the bytes between its quotes, a number its literal. -/
inductive JValue where
  | null : JValue
  | bool (b : Bool) : JValue
  | number (lit : GoString) : JValue
  | string (raw : GoString) : JValue
  | array (items : List JValue) : JValue
  | object (members : List (GoString × JValue)) : JValue

/-- The scanner's `isSpace`: space, tab, carriage return, line feed. -/
def isJsonSpace (b : Byte) : Bool :=
  b.val = 0x20 || b.val = 0x09 || b.val = 0x0D || b.val = 0x0A

/-- Drop leading JSON white space. -/
def skipSpace : GoString → GoString
  | [] => []
  | b :: rest => if isJsonSpace b then skipSpace rest else b :: rest

/-- Whether `b` is an ASCII decimal digit. -/
def isDigit (b : Byte) : Bool := 0x30 ≤ b.val && b.val ≤ 0x39

/-- Whether `b` is a hexadecimal digit. -/
def isHex (b : Byte) : Bool :=
  isDigit b || (0x61 ≤ b.val && b.val ≤ 0x66) || (0x41 ≤ b.val && b.val ≤ 0x46)

/-- The scanner states inside a string literal: `stateInString`,
`stateInStringEsc`, and `stateInStringEscU` with the number of hexadecimal
digits still expected. -/
inductive StrState where
  | normal : StrState
  | esc : StrState
  | hex (k : Nat) : StrState

/-- Scan a string literal after its opening quote: the bytes up to the
closing quote and the input after it; `none` on a syntax error. -/
def scanString : StrState → GoString → Option (GoString × GoString)
  | _, [] => none
  | .normal, c :: rest =>
    if c.val = 0x22 then some ([], rest)
    else if c.val = 0x5C then (scanString .esc rest).map fun p => (c :: p.1, p.2)
    else if c.val < 0x20 then none
    else (scanString .normal rest).map fun p => (c :: p.1, p.2)
  | .esc, c :: rest =>
    if c.val = 0x62 || c.val = 0x66 || c.val = 0x6E || c.val = 0x72 || c.val = 0x74
        || c.val = 0x5C || c.val = 0x2F || c.val = 0x22 then
      (scanString .normal rest).map fun p => (c :: p.1, p.2)
    else if c.val = 0x75 then (scanString (.hex 4) rest).map fun p => (c :: p.1, p.2)
    else none
  | .hex k, c :: rest =>
    if isHex c then
      (scanString (if k ≤ 1 then .normal else .hex (k - 1)) rest).map fun p => (c :: p.1, p.2)
    else none

/-- The digits at the head of the input, and what follows them. -/
def spanDigits : GoString → GoString × GoString
  | [] => ([], [])
  | c :: rest =>
    if isDigit c then ((c :: (spanDigits rest).1), (spanDigits rest).2) else ([], c :: rest)

/-- Scan the exponent of a number literal, if there is one. -/
def scanExp (s : GoString) : Option (GoString × GoString) :=
  match s with
  | e :: r =>
    if e.val = 0x65 || e.val = 0x45 then
      match r with
      | sg :: r1 =>
        if sg.val = 0x2B || sg.val = 0x2D then
          if (spanDigits r1).1 = [] then none
          else some (e :: sg :: (spanDigits r1).1, (spanDigits r1).2)
        else if (spanDigits r).1 = [] then none
        else some (e :: (spanDigits r).1, (spanDigits r).2)
      | [] => none
    else some ([], s)
  | [] => some ([], s)

/-- Scan the fraction of a number literal, if there is one. -/
def scanFrac (s : GoString) : Option (GoString × GoString) :=
  match s with
  | d :: r =>
    if d.val = 0x2E then
      if (spanDigits r).1 = [] then none else some (d :: (spanDigits r).1, (spanDigits r).2)
    else some ([], s)
  | [] => some ([], s)

/-- Scan the integer part of a number literal: `0` or a digit `1-9` followed
by digits. -/
def scanIntPart (s : GoString) : Option (GoString × GoString) :=
  match s with
  | c :: r =>
    if c.val = 0x30 then some ([c], r)
    else if isDigit c then some (c :: (spanDigits r).1, (spanDigits r).2)
    else none
  | [] => none

/-- Scan a number literal: the literal and the input after it. -/
def scanNumber (s : GoString) : Option (GoString × GoString) :=
  let sign : GoString × GoString :=
    match s with
    | c :: r => if c.val = 0x2D then ([c], r) else ([], s)
    | [] => ([], s)
  match scanIntPart sign.2 with
  | none => none
  | some (ip, r1) =>
    match scanFrac r1 with
    | none => none
    | some (fp, r2) =>
      match scanExp r2 with
      | none => none
      | some (ep, r3) => some (sign.1 ++ ip ++ fp ++ ep, r3)

/-- Remove the prefix `p` from the input, when it is one. -/
def stripPrefix : GoString → GoString → Option GoString
  | [], s => some s
  | _ :: _, [] => none
  | p :: ps, c :: cs => if p = c then stripPrefix ps cs else none

/-- The constant `maxNestingDepth` of the scanner. -/
def maxNestingDepth : Nat := 10000

mutual
/-- Parse one JSON value at the head of the input (white space already
skipped); the first argument bounds the number of recursive calls, `depth` is
the number of arrays and objects the value lies in. -/
def parseValue : Nat → Nat → GoString → Option (JValue × GoString)
  | 0, _, _ => none
  | _ + 1, _, [] => none
  | n + 1, depth, c :: rest =>
    if c.val = 0x7B then
      if maxNestingDepth ≤ depth then none
      else
        match skipSpace rest with
        | [] => none
        | d :: r => if d.val = 0x7D then some (.object [], r)
                    else (parseMembers n (depth + 1) (d :: r)).map fun p => (.object p.1, p.2)
    else if c.val = 0x5B then
      if maxNestingDepth ≤ depth then none
      else
        match skipSpace rest with
        | [] => none
        | d :: r => if d.val = 0x5D then some (.array [], r)
                    else (parseItems n (depth + 1) (d :: r)).map fun p => (.array p.1, p.2)
    else if c.val = 0x22 then (scanString .normal rest).map fun p => (.string p.1, p.2)
    else if c.val = 0x74 then (stripPrefix [0x72, 0x75, 0x65] rest).map fun r => (.bool true, r)
    else if c.val = 0x66 then
      (stripPrefix [0x61, 0x6C, 0x73, 0x65] rest).map fun r => (.bool false, r)
    else if c.val = 0x6E then (stripPrefix [0x75, 0x6C, 0x6C] rest).map fun r => (.null, r)
    else (scanNumber (c :: rest)).map fun p => (.number p.1, p.2)
/-- Parse the members of an object up to its closing brace; the input starts
at the first key. -/
def parseMembers : Nat → Nat → GoString → Option (List (GoString × JValue) × GoString)
  | 0, _, _ => none
  | _ + 1, _, [] => none
  | n + 1, depth, q :: rest =>
    if q.val = 0x22 then
      match scanString .normal rest with
      | none => none
      | some (key, r1) =>
        match skipSpace r1 with
        | [] => none
        | col :: r2 =>
          if col.val = 0x3A then
            match parseValue n depth (skipSpace r2) with
            | none => none
            | some (v, r3) =>
              match skipSpace r3 with
              | [] => none
              | e :: r4 =>
                if e.val = 0x7D then some ([(key, v)], r4)
                else if e.val = 0x2C then
                  (parseMembers n depth (skipSpace r4)).map fun p => ((key, v) :: p.1, p.2)
                else none
          else none
    else none
/-- Parse the items of an array up to its closing bracket; the input starts
at the first item. -/
def parseItems : Nat → Nat → GoString → Option (List JValue × GoString)
  | 0, _, _ => none
  | n + 1, depth, s =>
    match parseValue n depth s with
    | none => none
    | some (v, r1) =>
      match skipSpace r1 with
      | [] => none
      | e :: r2 =>
        if e.val = 0x5D then some ([v], r2)
        else if e.val = 0x2C then
          (parseItems n depth (skipSpace r2)).map fun p => (v :: p.1, p.2)
        else none
end

/-- The first JSON value of a stream, as `Decoder.Decode` reads it: leading
white space is skipped and what follows the value is left unread. -/
def readValue (data : GoString) : Option (JValue × GoString) :=
  parseValue (2 * data.length + 2) 0 (skipSpace data)

/-- The check `checkValid` of `json.Unmarshal`: the whole input is one JSON
value with white space around it. -/
def parseDocument (data : GoString) : Option JValue :=
  match readValue data with
  | none => none
  | some (v, rest) => if skipSpace rest = [] then some v else none

/-- The byte with value `n % 256`. -/
def byteOf (n : Nat) : Byte := Fin.ofNat n

/-- The function `utf8.EncodeRune` (appended to nothing): surrogates and
values above `U+10FFFF` are written as `RuneError`. -/
def EncodeRune (r : Nat) : GoString :=
  if r ≤ 0x7F then [byteOf r]
  else if r ≤ 0x7FF then [byteOf (0xC0 + r / 64), byteOf (0x80 + r % 64)]
  else if 0x10FFFF < r ∨ (0xD800 ≤ r ∧ r ≤ 0xDFFF) then [0xEF, 0xBF, 0xBD]
  else if r ≤ 0xFFFF then
    [byteOf (0xE0 + r / 4096), byteOf (0x80 + r / 64 % 64), byteOf (0x80 + r % 64)]
  else
    [byteOf (0xF0 + r / 262144), byteOf (0x80 + r / 4096 % 64),
      byteOf (0x80 + r / 64 % 64), byteOf (0x80 + r % 64)]

/-- The value of a hexadecimal digit. -/
def hexVal (b : Byte) : Nat :=
  if isDigit b then b.val - 0x30
  else if 0x61 ≤ b.val then b.val - 0x61 + 10
  else b.val - 0x41 + 10

/-- The function `getu4`: the value of a leading `\uXXXX`, if there is one. -/
def getu4 : GoString → Option Nat
  | b :: u :: h1 :: h2 :: h3 :: h4 :: _ =>
    if b.val = 0x5C ∧ u.val = 0x75 ∧ isHex h1 ∧ isHex h2 ∧ isHex h3 ∧ isHex h4 then
      some (hexVal h1 * 4096 + hexVal h2 * 256 + hexVal h3 * 16 + hexVal h4)
    else none
  | _ => none

/-- The function `utf16.DecodeRune` on a first surrogate half `r1` and what
`getu4` found next. -/
def decodeSurrogates (r1 : Nat) (next : Option Nat) : Nat :=
  match next with
  | none => RuneError
  | some r2 =>
    if 0xD800 ≤ r1 ∧ r1 < 0xDC00 ∧ 0xDC00 ≤ r2 ∧ r2 < 0xE000 then
      (r1 - 0xD800) * 1024 + (r2 - 0xDC00) + 0x10000
    else RuneError

/-- The byte an escape letter of a JSON string stands for. -/
def escapeByte (e : Byte) : Option Byte :=
  if e.val = 0x22 ∨ e.val = 0x5C ∨ e.val = 0x2F ∨ e.val = 0x27 then some e
  else if e.val = 0x62 then some 0x08
  else if e.val = 0x66 then some 0x0C
  else if e.val = 0x6E then some 0x0A
  else if e.val = 0x72 then some 0x0D
  else if e.val = 0x74 then some 0x09
  else none

/-- The loop of `unquoteBytes` on the bytes between the quotes of a scanned
string literal: escapes are resolved and invalid UTF-8 is replaced by
`U+FFFD`.  The first argument bounds the number of steps. -/
def unquoteLoop : Nat → GoString → GoString
  | 0, _ => []
  | _ + 1, [] => []
  | n + 1, c :: rest =>
    if c.val = 0x5C then
      match rest with
      | [] => []
      | e :: rest1 =>
        if e.val = 0x75 then
          match getu4 (c :: rest) with
          | none => []
          | some rr =>
            if 0xD800 ≤ rr ∧ rr < 0xE000 then
              if decodeSurrogates rr (getu4 (rest.drop 5)) ≠ RuneError then
                EncodeRune (decodeSurrogates rr (getu4 (rest.drop 5)))
                  ++ unquoteLoop n (rest.drop 11)
              else EncodeRune RuneError ++ unquoteLoop n (rest.drop 5)
            else EncodeRune rr ++ unquoteLoop n (rest.drop 5)
        else
          match escapeByte e with
          | none => []
          | some b => b :: unquoteLoop n rest1
    else if c.val < 0x80 then c :: unquoteLoop n rest
    else
      EncodeRune (DecodeRune (c :: rest)).1
        ++ unquoteLoop n ((c :: rest).drop (DecodeRune (c :: rest)).2)

/-- The function `unquoteBytes` on the content of a scanned string literal. -/
def unquote (raw : GoString) : GoString := unquoteLoop raw.length raw

/-- The value of a run of decimal digits. -/
def digitsVal (ds : GoString) : Nat := ds.foldl (fun acc d => acc * 10 + (d.val - 0x30)) 0

/-- The call `strconv.ParseInt(lit, 10, 64)` on a JSON number literal: the
value when the literal is an optional minus sign and digits and fits an
`int64`, `none` (an error) otherwise. -/
def parseInt (lit : GoString) : Option GoInt :=
  match lit with
  | [] => none
  | c :: rest =>
    if c.val = 0x2D then
      if h : rest ≠ [] ∧ rest.all isDigit ∧ digitsVal rest ≤ 2 ^ 63 then
        some ⟨-(digitsVal rest : Int), by unfold InInt64; omega⟩
      else none
    else if h : (c :: rest).all isDigit ∧ digitsVal (c :: rest) < 2 ^ 63 then
      some ⟨(digitsVal (c :: rest) : Int), by unfold InInt64; omega⟩
    else none

/-- Store a JSON value into an `int` map element (`literalStore`, `array`,
`object` of the decoder): the element and whether an `UnmarshalTypeError` was
saved.  `null` leaves the zero value without error. -/
def storeInt : JValue → GoInt × Bool
  | .null => (GoInt.zero, false)
  | .number lit =>
    match parseInt lit with
    | some n => (n, false)
    | none => (GoInt.zero, true)
  | _ => (GoInt.zero, true)

/-- The member loop of the decoder's `object` on a `map[string]int`: every
member sets its key (a later duplicate overwrites), also when its value was
of the wrong type; the flag tells whether an error was saved. -/
def storeMembers : List (GoString × JValue) → Table → Bool → Table × Bool
  | [], t, err => (t, err)
  | (k, v) :: rest, t, err =>
    storeMembers rest (t.insert (unquote k) (storeInt v).1) (err || (storeInt v).2)

/-- Decode a JSON value into a `map[string]int` variable (`d.value` on
`&m`): `null` sets the map to nil, an object is merged into the map
(allocated if nil), anything else saves a type error and leaves the map. -/
def decodeMap (v : JValue) (m : GoMap) : GoMap × Bool :=
  match v with
  | .null => (none, false)
  | .object members =>
    ((storeMembers members (m.getD makeMap) false).1,
      (storeMembers members (m.getD makeMap) false).2)
  | _ => (m, true)

/-- The call `json.Unmarshal(data, &m)`: the map afterwards and whether an
error is returned.  A syntax error leaves the map untouched. -/
def Unmarshal (data : GoString) (m : GoMap) : GoMap × Bool :=
  match parseDocument data with
  | none => (m, true)
  | some v => decodeMap v m

/-- The call `json.NewDecoder(body).Decode(&m)`. -/
def Decode (body : GoString) (m : GoMap) : GoMap × Bool :=
  match readValue body with
  | none => (m, true)
  | some (v, _) => decodeMap v m

/-- A lower-case hexadecimal digit. -/
def hexDigit (n : Nat) : Byte := if n < 10 then byteOf (0x30 + n) else byteOf (0x61 + n - 10)

/-- The table `htmlSafeSet`: the ASCII bytes written as they are. -/
def htmlSafe (b : Byte) : Bool :=
  0x20 ≤ b.val && b.val < 0x80 && b.val ≠ 0x22 && b.val ≠ 0x5C && b.val ≠ 0x3C
    && b.val ≠ 0x3E && b.val ≠ 0x26

/-- The escape written for an ASCII byte outside `htmlSafeSet`. -/
def escapeASCII (b : Byte) : GoString :=
  if b.val = 0x5C ∨ b.val = 0x22 then [0x5C, b]
  else if b.val = 0x08 then [0x5C, 0x62]
  else if b.val = 0x0C then [0x5C, 0x66]
  else if b.val = 0x0A then [0x5C, 0x6E]
  else if b.val = 0x0D then [0x5C, 0x72]
  else if b.val = 0x09 then [0x5C, 0x74]
  else [0x5C, 0x75, 0x30, 0x30, hexDigit (b.val / 16), hexDigit (b.val % 16)]

/-- The loop of `appendString` (with `escapeHTML`): the body of the JSON
string written for `src`.  An invalid UTF-8 byte is written as the
six bytes of the escape for `U+FFFD`. -/
def appendStringLoop : Nat → GoString → GoString
  | 0, _ => []
  | _ + 1, [] => []
  | n + 1, b :: rest =>
    if b.val < 0x80 then
      (if htmlSafe b then [b] else escapeASCII b) ++ appendStringLoop n rest
    else if DecodeRune (b :: rest) = (RuneError, 1) then
      [0x5C, 0x75, 0x66, 0x66, 0x66, 0x64] ++ appendStringLoop n rest
    else if (DecodeRune (b :: rest)).1 = 0x2028 ∨ (DecodeRune (b :: rest)).1 = 0x2029 then
      [0x5C, 0x75, 0x32, 0x30, 0x32, hexDigit ((DecodeRune (b :: rest)).1 % 16)]
        ++ appendStringLoop n ((b :: rest).drop (DecodeRune (b :: rest)).2)
    else
      (b :: rest).take (DecodeRune (b :: rest)).2
        ++ appendStringLoop n ((b :: rest).drop (DecodeRune (b :: rest)).2)

/-- The function `appendString`: `src` as a quoted JSON string. -/
def appendString (src : GoString) : GoString :=
  [0x22] ++ appendStringLoop src.length src ++ [0x22]

/-- The decimal digits of `n`, most significant first; the first argument
bounds the number of digits. -/
def natDigits : Nat → Nat → GoString
  | 0, _ => []
  | f + 1, n => if n < 10 then [byteOf (0x30 + n)] else natDigits f (n / 10) ++ [byteOf (0x30 + n % 10)]

/-- The function `strconv.AppendInt(nil, i, 10)`. -/
def appendInt (i : GoInt) : GoString :=
  if i.val < 0 then [0x2D] ++ natDigits 20 i.val.natAbs else natDigits 20 i.val.natAbs

/-- Byte-wise order of strings (`strings.Compare(a, b) <= 0`). -/
def strLe : GoString → GoString → Bool
  | [], _ => true
  | _ :: _, [] => false
  | a :: as, b :: bs => a.val < b.val || (a.val = b.val && strLe as bs)

/-- The members of a marshalled object, separated by commas. -/
def marshalMembers : List (Sigma fun _ : GoString => GoInt) → GoString
  | [] => []
  | [e] => appendString e.1 ++ [0x3A] ++ appendInt e.2
  | e :: rest => appendString e.1 ++ [0x3A] ++ appendInt e.2 ++ [0x2C] ++ marshalMembers rest

/-- The call `json.Marshal(m)` on a `map[string]int` (it never fails): `null`
for the nil map, otherwise the object with the keys in byte-wise order. -/
def Marshal (m : GoMap) : GoString :=
  match m with
  | none => [0x6E, 0x75, 0x6C, 0x6C]
  | some t =>
    [0x7B] ++ marshalMembers (t.entries.insertionSort fun a b => strLe a.1 b.1) ++ [0x7D]

/-! ## `pkg/db`: the leader store -/

/-- The content of the snapshot file `wordcounts.db` as `os.ReadFile` sees it:
`none` when the read fails (the file is missing or unreadable). -/
abbrev SnapshotFile := Option GoString

/-- The outcome of `os.WriteFile`: success, or a failure that leaves the file
in some state. -/
inductive WriteOutcome where
  | ok : WriteOutcome
  | fail (after : SnapshotFile) : WriteOutcome

/-- The struct `BaseLeader`: the table and the dirty flag (the lock, the
directory name and the logger carry no state of the table). -/
structure BaseLeader where
  wordCount : GoMap
  needsBackup : Bool

/-- The loop of `CountWords`: `db.wordCount[word]++` and
`wordsCounts[word]++` for every word; `none` is the panic of a write to a nil
`db.wordCount`. -/
def countLoop : List GoString → GoMap → Table → Option (GoMap × Table)
  | [], wc, d => some (wc, d)
  | w :: ws, wc, d =>
    match GoMap.add wc w (GoInt.wrap 1) with
    | none => none
    | some wc1 => countLoop ws wc1 (Table.add d w (GoInt.wrap 1))

/-- The method `BaseLeader.CountWords`: the store afterwards and the returned
delta; `none` when the call panics. -/
def BaseLeader.CountWords (db : BaseLeader) (text : GoString) : Option (BaseLeader × Table) :=
  match countLoop (Fields text) db.wordCount makeMap with
  | none => none
  | some (wc, d) => some ({ wordCount := wc, needsBackup := true }, d)

/-- The method `BaseLeader.GetWordCount`. -/
def BaseLeader.GetWordCount (db : BaseLeader) (word : GoString) : GoInt :=
  if !(GoMap.getOk db.wordCount word).2 then GoInt.zero else (GoMap.getOk db.wordCount word).1

/-- The loop `for k, v := range src { dst[k] = v }`. -/
def copyEntries : List (Sigma fun _ : GoString => GoInt) → Table → Table
  | [], dst => dst
  | e :: rest, dst => copyEntries rest (dst.insert e.1 e.2)

/-- The entries a `range` loop over the map visits (none for the nil map);
Go visits them in an unspecified order, the model in the order of the list. -/
def GoMap.range (m : GoMap) : List (Sigma fun _ : GoString => GoInt) :=
  match m with
  | none => []
  | some t => t.entries

/-- The method `BaseLeader.GetWordsCounts`: a fresh copy of the table. -/
def BaseLeader.GetWordsCounts (db : BaseLeader) : Table :=
  copyEntries (GoMap.range db.wordCount) makeMap

/-- The method `BaseLeader.backup`: the store, the snapshot file and whether
an error is returned. -/
def BaseLeader.backup (db : BaseLeader) (w : WriteOutcome) :
    BaseLeader × SnapshotFile × Bool :=
  match w with
  | .ok => ({ db with needsBackup := false }, some (Marshal db.wordCount), false)
  | .fail after => (db, after, true)

/-- One turn of the loop of `BaseLeader.runBackup`. -/
def BaseLeader.runBackupTick (db : BaseLeader) (file : SnapshotFile) (w : WriteOutcome) :
    BaseLeader × SnapshotFile :=
  if db.needsBackup then ((db.backup w).1, (db.backup w).2.1) else (db, file)

/-- The method `BaseLeader.restore`: the store afterwards and whether an
error is returned. -/
def BaseLeader.restore (db : BaseLeader) (file : SnapshotFile) : BaseLeader × Bool :=
  match file with
  | none => (db, true)
  | some data => ({ db with wordCount := (Unmarshal data db.wordCount).1 },
      (Unmarshal data db.wordCount).2)

/-- The constructor `NewLeader`, started on a directory whose snapshot file
is `file`. -/
def NewLeader (file : SnapshotFile) : BaseLeader :=
  (BaseLeader.restore { wordCount := some makeMap, needsBackup := false } file).1

/-- Ingest texts one after the other with `CountWords`; `none` when a call
panics. -/
def ingestAll : List GoString → BaseLeader → Option BaseLeader
  | [], db => some db
  | t :: ts, db =>
    match db.CountWords t with
    | none => none
    | some (db1, _) => ingestAll ts db1

/-! ## `pkg/db`: the networked follower store -/

/-- The struct `BaseReplica`. -/
structure BaseReplica where
  wordCount : GoMap

/-- The constructor `NewReplica`. -/
def NewReplica : BaseReplica := { wordCount := some makeMap }

/-- The method `BaseReplica.GetWordCount`. -/
def BaseReplica.GetWordCount (db : BaseReplica) (word : GoString) : GoInt :=
  GoMap.get db.wordCount word

/-- The method `BaseReplica.AddWordCount`; `none` when it panics. -/
def BaseReplica.AddWordCount (db : BaseReplica) (word : GoString) (count : GoInt) :
    Option BaseReplica :=
  match GoMap.add db.wordCount word count with
  | none => none
  | some m => some { wordCount := m }

/-- The method `BaseReplica.SetWordsCounts`. -/
def BaseReplica.SetWordsCounts (_db : BaseReplica) (wordCounts : GoMap) : BaseReplica :=
  { wordCount := wordCounts }

/-! ## `pkg/server`: handlers of the leader and of the networked follower -/

/-- The loop `for key, val := range updates { sv.db.AddWordCount(key, val) }`
of the follower's update handler. -/
def applyUpdates : List (Sigma fun _ : GoString => GoInt) → BaseReplica → Option BaseReplica
  | [], db => some db
  | e :: rest, db =>
    match db.AddWordCount e.1 e.2 with
    | none => none
    | some db1 => applyUpdates rest db1

/-- The loop of the update handler on a delta held as a map. -/
def applyDelta (d : GoMap) (db : BaseReplica) : Option BaseReplica :=
  applyUpdates (GoMap.range d) db

/-- The handler `ReplicaServer.updateHandler` on a request body: the store
afterwards and the status code; `none` when the handler panics. -/
def updateHandler (db : BaseReplica) (body : GoString) : Option (BaseReplica × Nat) :=
  if (Decode body (some makeMap)).2 then some (db, 400)
  else
    match applyDelta (Decode body (some makeMap)).1 db with
    | none => none
    | some db1 => some (db1, 202)

/-- The handler `LeaderServer.syncReplicaHandler`: status and body. -/
def syncReplicaHandler (db : BaseLeader) : Nat × GoString :=
  (200, Marshal (some db.GetWordsCounts))

/-- The method `ReplicaServer.requestLeaderSync` once the leader answers its
health probe, on the outcome of `GET /sync` (`none`: the request failed):
the store afterwards and whether an error is returned. -/
def requestLeaderSync (db : BaseReplica) (resp : Option (Nat × GoString)) : BaseReplica × Bool :=
  match resp with
  | none => (db, true)
  | some (status, body) =>
    if status ≠ 200 then (db, true)
    else if (Decode body (some makeMap)).2 then (db, true)
    else (db.SetWordsCounts (Decode body (some makeMap)).1, false)

/-- The method `LeaderServer.replicate`: the body pushed to every registered
follower, `none` when the delta is empty and nothing is sent. -/
def replicate (updateBuffer : Table) : Option GoString :=
  if updateBuffer.entries.length > 0 then some (Marshal (some updateBuffer)) else none

/-- The number of occurrences of `w` among the fields of the texts. -/
def occurrences (w : GoString) (texts : List GoString) : Nat :=
  (texts.map fun t => (Fields t).count w).sum

/-- The sum of the increments the entries `es` carry for the word `w`. -/
def sumFor (w : GoString) (es : List (Sigma fun _ : GoString => GoInt)) : Int :=
  ((es.filter fun e => e.1 = w).map fun e => e.2.val).sum

/-- Apply each delta of a list to the follower, in the order of the list, the
way the update handler applies one. -/
def applyDeltas : List Table → BaseReplica → Option BaseReplica
  | [], db => some db
  | d :: ds, db =>
    match applyDelta (some d) db with
    | none => none
    | some db1 => applyDeltas ds db1

/-- Ingest texts one after the other with `CountWords`, collecting the deltas
returned, in order. -/
def ingestDeltas : List GoString → BaseLeader → Option (BaseLeader × List Table)
  | [], db => some (db, [])
  | t :: ts, db =>
    match db.CountWords t with
    | none => none
    | some (db1, d) =>
      match ingestDeltas ts db1 with
      | none => none
      | some (db2, ds) => some (db2, d :: ds)

/-! ## The steps of the replication system -/

/-- The steps of the system of a leader and one networked follower: the
leader ingests a text (`countWordsHandler`: `CountWords`, then `replicate`
pushes the delta when it is not empty); the follower does its full resync
(`requestLeaderSync`); one body in flight reaches the follower's update
handler, either one pushed since the follower's last resync (`deliver`) or
one pushed before it (`deliverStale`). -/
inductive Action where
  | ingest (text : GoString) : Action
  | resync : Action
  | deliver (i : Nat) : Action
  | deliverStale (i : Nat) : Action

/-- Whether ingesting `text` keeps every count of the leader below `2^63`
(no `int` overflow). -/
def ingestFits (db : BaseLeader) (text : GoString) : Bool :=
  (Fields text).all fun w =>
    decide ((db.GetWordCount w).val + ((Fields text).count w : Nat) < 2 ^ 63)

/-- The sum of the increments the deltas `ds` carry for the word `w`. -/
def sumGet (w : GoString) (ds : List Table) : Int :=
  (ds.map fun d => (Table.get d w).val).sum

/-- The loop of `utf8.ValidString`: every rune of `s` decodes without
`(RuneError, 1)`; the first argument bounds the number of runes. -/
def validLoop : Nat → GoString → Bool
  | _, [] => true
  | 0, _ :: _ => false
  | n + 1, b :: rest =>
    decide (DecodeRune (b :: rest) ≠ (RuneError, 1))
      && validLoop n ((b :: rest).drop (DecodeRune (b :: rest)).2)

/-- The function `utf8.ValidString`. -/
def ValidString (s : GoString) : Bool := validLoop s.length s

/-- The sequence at the head of `s` is well formed for the codec: it is at
least 2 bytes long and inside `s`, all its bytes are at least `0x80`,
encoding the decoded rune gives the sequence back, and the decoding does not
depend on what follows the sequence. -/
def WellFormedHead (s : GoString) : Prop :=
  2 ≤ (DecodeRune s).2
    ∧ (DecodeRune s).2 ≤ s.length
    ∧ (∀ x ∈ s.take (DecodeRune s).2, 0x80 ≤ x.val)
    ∧ EncodeRune (DecodeRune s).1 = s.take (DecodeRune s).2
    ∧ ∀ tail, DecodeRune (s.take (DecodeRune s).2 ++ tail) = DecodeRune s

/-- What one turn of `appendString` wrote (`chunk`) for the bytes it consumed:
the scanner reads it inside a string literal, `unquoteBytes` gives the bytes
consumed back, and it is not shorter than them. -/
def ChunkOK (chunk consumed : GoString) : Prop :=
  (∀ ys, scanString .normal (chunk ++ ys)
      = (scanString .normal ys).map fun p => (chunk ++ p.1, p.2))
    ∧ (∀ f ys, unquoteLoop (f + 1) (chunk ++ ys) = consumed ++ unquoteLoop f ys)
    ∧ consumed.length ≤ chunk.length

/-- What ends a number in a marshalled object: a comma or a closing brace. -/
def EndsNumber (c : Byte) : Prop := c.val = 0x2C ∨ c.val = 0x7D

/-- The members the scanner reads from a marshalled object: for each entry the
body of the key literal and the number literal. -/
def encMembers (es : List (Sigma fun _ : GoString => GoInt)) : List (GoString × JValue) :=
  es.map fun e => (appendStringLoop e.1.length e.1, JValue.number (appendInt e.2))

/-! ## The leader's ingest handler, and the system over the wire -/

/-- The constant `maxTextLength`. -/
def maxTextLength : Nat := 65535

/-- The function `validateInput`: whether an error is returned. -/
def validateInput (text : GoString) : Bool :=
  if text = [] then true
  else if text.length > maxTextLength then true
  else false

/-- The handler `LeaderServer.countWordsHandler` on the form value `text`:
the store afterwards, the body `replicate` pushes to the followers (if any)
and the status code; `none` when the handler panics. -/
def countWordsHandler (db : BaseLeader) (text : GoString) :
    Option (BaseLeader × Option GoString × Nat) :=
  if validateInput text then some (db, none, 400)
  else
    match db.CountWords text with
    | none => none
    | some (db1, d) => some (db1, replicate d, 202)

/-- A leader, one networked follower, and the bodies the leader has pushed to
it that are still in flight: `fresh` were pushed since the follower's last
resync (or since the start), `stale` before it. -/
structure Net where
  leader : BaseLeader
  follower : BaseReplica
  fresh : List GoString
  stale : List GoString

/-- One step of the system over the wire; `none` when the code panics.  An
ingest is a `POST /post`, a resync is `requestLeaderSync` against the leader's
`/sync`, a delivery hands one body in flight to the follower's `/update`
(each body at most once; a body never delivered stays in flight).  Delivering
at an index where nothing is in flight changes nothing. -/
def Net.step (s : Net) : Action → Option Net
  | .ingest text =>
    match countWordsHandler s.leader text with
    | none => none
    | some (l1, none, _) => some { s with leader := l1 }
    | some (l1, some body, _) => some { s with leader := l1, fresh := body :: s.fresh }
  | .resync =>
    some { s with
      follower := (requestLeaderSync s.follower (some (syncReplicaHandler s.leader))).1,
      fresh := [], stale := s.fresh ++ s.stale }
  | .deliver i =>
    match s.fresh.get? i with
    | none => some s
    | some body =>
      match updateHandler s.follower body with
      | none => none
      | some (f1, _) => some { s with follower := f1, fresh := s.fresh.eraseIdx i }
  | .deliverStale i =>
    match s.stale.get? i with
    | none => some s
    | some body =>
      match updateHandler s.follower body with
      | none => none
      | some (f1, _) => some { s with follower := f1, stale := s.stale.eraseIdx i }

/-- Run a sequence of steps over the wire. -/
def Net.run : List Action → Net → Option Net
  | [], s => some s
  | a :: as, s =>
    match Net.step s a with
    | none => none
    | some s1 => Net.run as s1

/-- The initial state: a leader started without snapshot file, a new
follower, nothing in flight. -/
def Net.init : Net :=
  { leader := NewLeader none, follower := NewReplica, fresh := [], stale := [] }

/-- Whether a run from `s` ingests only valid UTF-8 texts, has no `int`
overflow on the leader and delivers no body that was pushed before the
follower's last resync. -/
def Net.admissible : List Action → Net → Bool
  | [], _ => true
  | a :: as, s =>
    (match a with
      | .ingest text => ValidString text && ingestFits s.leader text
      | .deliverStale _ => false
      | _ => true)
    && (match Net.step s a with
      | none => false
      | some s1 => Net.admissible as s1)

/-- The invariant of the admissible runs over the wire: both tables are
non-nil, every word of the leader is valid UTF-8, the bodies in flight since
the resync are the marshalled deltas `ds`, whose words are valid UTF-8; no
count or increment is negative, and for every word the follower's count plus
the increments in flight is at most the leader's count. -/
def Net.Inv (s : Net) : Prop :=
  ∃ L nb F ds, s.leader = { wordCount := some L, needsBackup := nb }
    ∧ s.follower = { wordCount := some F }
    ∧ (∀ k ∈ L.keys, ValidString k = true)
    ∧ (∀ d ∈ ds, ∀ k ∈ AList.keys d, ValidString k = true)
    ∧ s.fresh = ds.map (fun d => Marshal (some d))
    ∧ ∀ w, 0 ≤ (Table.get F w).val
        ∧ (∀ d ∈ ds, 0 ≤ (Table.get d w).val)
        ∧ (Table.get F w).val + sumGet w ds ≤ (Table.get L w).val

/-- Hand each body of a list to the follower's update handler, in the order
of the list; `none` when a call panics. -/
def pushAll : List GoString → BaseReplica → Option BaseReplica
  | [], db => some db
  | body :: rest, db =>
    match updateHandler db body with
    | none => none
    | some (db1, _) => pushAll rest db1

/-! ## `pkg/db`: the local follower store -/

/-- The struct `BaseLocalReplica`. -/
structure BaseLocalReplica where
  wordCount : GoMap

/-- The constructor `NewLocalReplica`. -/
def NewLocalReplica : BaseLocalReplica := { wordCount := some makeMap }

/-- The method `BaseLocalReplica.GetWordCount`. -/
def BaseLocalReplica.GetWordCount (db : BaseLocalReplica) (word : GoString) : GoInt :=
  GoMap.get db.wordCount word

/-- The method `BaseLocalReplica.getWordsCount` called with `v = &m`: the map
`m` afterwards and whether an error is returned (`file = none`: `os.ReadFile`
failed). -/
def BaseLocalReplica.getWordsCount (_db : BaseLocalReplica) (file : SnapshotFile) (m : GoMap) :
    GoMap × Bool :=
  match file with
  | none => (m, true)
  | some data => Unmarshal data m

/-- The method `BaseLocalReplica.Update`: the store afterwards and whether an
error is returned.  The local `var m map[string]int` starts as the nil map and
is assigned to the table only when `getWordsCount` returned no error. -/
def BaseLocalReplica.Update (db : BaseLocalReplica) (file : SnapshotFile) :
    BaseLocalReplica × Bool :=
  if (db.getWordsCount file none).2 then (db, true)
  else ({ wordCount := (db.getWordsCount file none).1 }, false)

/-! ## `pkg/server`: routing, the read handlers and the local follower -/

/-- A request as the handlers look at it: the (clean) path of the URL, the
values `r.URL.Query().Get("word")` and `r.FormValue("text")` (each the empty
string when the parameter is missing) and the body. -/
structure Request where
  path : GoString
  word : GoString
  text : GoString
  body : GoString

/-- The handlers the three servers are built from. -/
inductive Handler where
  | health : Handler
  | countWords : Handler
  | syncReplica : Handler
  | get : Handler
  | update : Handler

/-- The routes `LeaderServer.RunServer` registers. -/
def LeaderServer.routes : List (GoString × Handler) :=
  [(ascii "/health", .health), (ascii "/post", .countWords), (ascii "/sync", .syncReplica)]

/-- The routes `ReplicaServer.RunServer` registers. -/
def ReplicaServer.routes : List (GoString × Handler) :=
  [(ascii "/health", .health), (ascii "/wordcount", .get), (ascii "/update", .update)]

/-- The routes `LocalReplica.RunServer` registers. -/
def LocalReplica.routes : List (GoString × Handler) :=
  [(ascii "/wordcount", .get), (ascii "/health", .health), (ascii "/update", .update)]

/-- The dispatch of `http.ServeMux` on a clean path: the patterns registered
here name no host, no method and no wildcard and end in no slash, so a pattern
matches exactly the path equal to it; `none` is the not-found handler. -/
def ServeMux.handler : List (GoString × Handler) → GoString → Option Handler
  | [], _ => none
  | (p, h) :: rest, path => if p = path then some h else ServeMux.handler rest path

/-- The answer of `http.NotFound`: status and body. -/
def notFound : Nat × GoString := (404, ascii "404 page not found\n")

/-- The handler `ReplicaServer.getHandler` on the query value `word`: status
and body (`json.Marshal` of a `map[string]int` returns no error). -/
def ReplicaServer.getHandler (db : BaseReplica) (word : GoString) : Nat × GoString :=
  if word = [] then (400, [])
  else (200, Marshal (some (AList.insert word (db.GetWordCount word) makeMap)))

/-- The handler `LocalReplica.getHandler` on the query value `word`: status
and body. -/
def LocalReplica.getHandler (db : BaseLocalReplica) (word : GoString) : Nat × GoString :=
  if word = [] then (400, [])
  else (200, Marshal (some (AList.insert word (db.GetWordCount word) makeMap)))

/-- The handler `LocalReplica.updateHandler`, run while the snapshot file is
`file`: the store afterwards and the status code.  The handler writes the
header 500 when `Update` returns an error and writes nothing otherwise, and
`net/http` answers a handler that wrote nothing with status 200. -/
def LocalReplica.updateHandler (db : BaseLocalReplica) (file : SnapshotFile) :
    BaseLocalReplica × Nat :=
  if (db.Update file).2 then ((db.Update file).1, 500) else ((db.Update file).1, 200)

/-- The leader's server on one request: the store afterwards, the body pushed
to the followers (if any), the status code and the response body; `none` when
the handler panics.  Every route is registered behind `recoverMiddleware`,
which leaves the answer of a handler that returns normally as it is. -/
def LeaderServer.ServeHTTP (db : BaseLeader) (r : Request) :
    Option (BaseLeader × Option GoString × Nat × GoString) :=
  match ServeMux.handler LeaderServer.routes r.path with
  | some .health => some (db, none, 200, [])
  | some .countWords =>
    match countWordsHandler db r.text with
    | none => none
    | some (db1, push, status) =>
      some (db1, push, status, if status = 400 then ascii "No text provided\n" else [])
  | some .syncReplica => some (db, none, syncReplicaHandler db)
  | _ => some (db, none, notFound)

/-- The networked follower's server on one request: the store afterwards, the
status code and the response body; `none` when the handler panics. -/
def ReplicaServer.ServeHTTP (db : BaseReplica) (r : Request) :
    Option (BaseReplica × Nat × GoString) :=
  match ServeMux.handler ReplicaServer.routes r.path with
  | some .health => some (db, 200, [])
  | some .get => some (db, ReplicaServer.getHandler db r.word)
  | some .update =>
    match updateHandler db r.body with
    | none => none
    | some (db1, status) =>
      some (db1, status, if status = 400 then ascii "invalid sync request\n" else [])
  | _ => some (db, notFound)

/-- The local follower's server on one request, run while the snapshot file
is `file`: the store afterwards, the status code and the response body. -/
def LocalReplica.ServeHTTP (db : BaseLocalReplica) (file : SnapshotFile) (r : Request) :
    BaseLocalReplica × Nat × GoString :=
  match ServeMux.handler LocalReplica.routes r.path with
  | some .health => (db, 200, [])
  | some .get => (db, LocalReplica.getHandler db r.word)
  | some .update =>
    ((LocalReplica.updateHandler db file).1, (LocalReplica.updateHandler db file).2, [])
  | _ => (db, notFound)

/-! ## Arithmetic of `int` -/

theorem wrapInt64_of_inRange {x : Int} (h : InInt64 x) : wrapInt64 x = x := by
  unfold wrapInt64; unfold InInt64 at h; omega

theorem wrapInt64_wrap_add (a b : Int) : wrapInt64 (wrapInt64 a + b) = wrapInt64 (a + b) := by
  unfold wrapInt64; omega

theorem wrapInt64_val (a : GoInt) : wrapInt64 a.val = a.val :=
  wrapInt64_of_inRange a.property

theorem GoInt.add_val (a b : GoInt) : (GoInt.add a b).val = wrapInt64 (a.val + b.val) := rfl

theorem GoInt.wrap_val (x : Int) : (GoInt.wrap x).val = wrapInt64 x := rfl

theorem GoInt.zero_val : GoInt.zero.val = 0 := rfl

theorem GoInt.one_val : (GoInt.wrap 1).val = 1 := by decide

/-! ## Reading and writing a map -/

theorem Table.lookup_add (m : Table) (k k1 : GoString) (c : GoInt) :
    (Table.add m k c).lookup k1
      = if k1 = k then some (GoInt.add (Table.get m k) c) else m.lookup k1 := by
  unfold Table.add
  by_cases h : k1 = k
  · subst h; simp
  · simp [h, AList.lookup_insert_ne h]

theorem Table.get_add_self (m : Table) (k : GoString) (c : GoInt) :
    Table.get (Table.add m k c) k = GoInt.add (Table.get m k) c := by
  simp [Table.get, Table.lookup_add]

theorem Table.get_add_ne (m : Table) {k k1 : GoString} (c : GoInt) (h : k1 ≠ k) :
    Table.get (Table.add m k c) k1 = Table.get m k1 := by
  simp [Table.get, Table.lookup_add, h]

theorem Table.mem_keys_add (m : Table) (k k1 : GoString) (c : GoInt) :
    k1 ∈ (Table.add m k c).keys ↔ k1 = k ∨ k1 ∈ m.keys := by
  unfold Table.add
  rw [← AList.mem_keys, AList.mem_insert, AList.mem_keys]

theorem Table.get_eq_zero_of_not_mem (m : Table) (k : GoString) (h : k ∉ m.keys) :
    Table.get m k = GoInt.zero := by
  have : m.lookup k = none := by
    rw [AList.lookup_eq_none, AList.mem_keys]; exact h
  simp [Table.get, this]

/-! ## The loop of `CountWords` -/

theorem countLoop_some (ws : List GoString) (t d : Table) :
    ∃ t1 d1, countLoop ws (some t) d = some (some t1, d1)
      ∧ (∀ w, (Table.get t1 w).val = wrapInt64 ((Table.get t w).val + ws.count w))
      ∧ (∀ w, (Table.get d1 w).val = wrapInt64 ((Table.get d w).val + ws.count w))
      ∧ (∀ w, w ∈ t1.keys ↔ w ∈ t.keys ∨ w ∈ ws)
      ∧ (∀ w, w ∈ d1.keys ↔ w ∈ d.keys ∨ w ∈ ws) := by
  induction ws generalizing t d with
  | nil =>
    refine ⟨t, d, rfl, ?_, ?_, ?_, ?_⟩ <;> intro w <;> simp [wrapInt64_val]
  | cons x xs ih =>
    obtain ⟨t1, d1, hrun, ht, hd, hkt, hkd⟩ := ih (Table.add t x (GoInt.wrap 1)) (Table.add d x (GoInt.wrap 1))
    refine ⟨t1, d1, ?_, ?_, ?_, ?_, ?_⟩
    · simp only [countLoop, GoMap.add]; exact hrun
    · intro w
      rw [ht w]
      by_cases h : w = x
      · subst h
        rw [Table.get_add_self, GoInt.add_val, GoInt.one_val, wrapInt64_wrap_add]
        simp only [List.count_cons_self]; push_cast; congr 1; ring
      · rw [Table.get_add_ne _ _ h, List.count_cons_of_ne h]
    · intro w
      rw [hd w]
      by_cases h : w = x
      · subst h
        rw [Table.get_add_self, GoInt.add_val, GoInt.one_val, wrapInt64_wrap_add]
        simp only [List.count_cons_self]; push_cast; congr 1; ring
      · rw [Table.get_add_ne _ _ h, List.count_cons_of_ne h]
    · intro w
      rw [hkt w, Table.mem_keys_add, List.mem_cons]; tauto
    · intro w
      rw [hkd w, Table.mem_keys_add, List.mem_cons]; tauto

theorem CountWords_some (t : Table) (nb : Bool) (text : GoString) :
    ∃ t1 d, BaseLeader.CountWords { wordCount := some t, needsBackup := nb } text
        = some ({ wordCount := some t1, needsBackup := true }, d)
      ∧ (∀ w, (Table.get t1 w).val = wrapInt64 ((Table.get t w).val + (Fields text).count w))
      ∧ (∀ w, (Table.get d w).val = wrapInt64 (((Fields text).count w : Nat) : Int))
      ∧ (∀ w, w ∈ t1.keys ↔ w ∈ t.keys ∨ w ∈ Fields text)
      ∧ (∀ w, w ∈ d.keys ↔ w ∈ Fields text) := by
  obtain ⟨t1, d1, hrun, ht, hd, hkt, hkd⟩ := countLoop_some (Fields text) t makeMap
  refine ⟨t1, d1, ?_, ht, ?_, hkt, ?_⟩
  · simp only [BaseLeader.CountWords, hrun]
  · intro w
    rw [hd w, Table.get_eq_zero_of_not_mem makeMap w (by simp [makeMap])]
    simp [GoInt.zero_val]
  · intro w
    rw [hkd w]; simp [makeMap]

theorem GetWordCount_eq_get (m : GoMap) (nb : Bool) (w : GoString) :
    BaseLeader.GetWordCount { wordCount := m, needsBackup := nb } w = GoMap.get m w := by
  unfold BaseLeader.GetWordCount GoMap.getOk GoMap.get
  cases m with
  | none => rfl
  | some t =>
    simp only [Table.get]
    cases h : t.lookup w <;> simp

theorem ingestAll_some (texts : List GoString) (t : Table) (nb : Bool) :
    ∃ t1 nb1, ingestAll texts { wordCount := some t, needsBackup := nb }
        = some { wordCount := some t1, needsBackup := nb1 }
      ∧ (∀ w, (Table.get t1 w).val = wrapInt64 ((Table.get t w).val + occurrences w texts))
      ∧ (∀ w, w ∈ t1.keys ↔ w ∈ t.keys ∨ ∃ x ∈ texts, w ∈ Fields x) := by
  induction texts generalizing t nb with
  | nil =>
    refine ⟨t, nb, rfl, ?_, ?_⟩ <;> intro w <;> simp [occurrences, wrapInt64_val]
  | cons x xs ih =>
    obtain ⟨t1, d, hrun, ht, -, hkt, -⟩ := CountWords_some t nb x
    obtain ⟨t2, nb2, hrun2, ht2, hkt2⟩ := ih t1 true
    refine ⟨t2, nb2, ?_, ?_, ?_⟩
    · simp only [ingestAll, hrun]; exact hrun2
    · intro w
      rw [ht2 w, ht w, wrapInt64_wrap_add]
      simp only [occurrences, List.map_cons, List.sum_cons]; push_cast; congr 1; ring
    · intro w
      rw [hkt2 w, hkt w]; simp only [List.mem_cons, exists_eq_or_imp]; tauto

theorem NewLeader_none : NewLeader none = { wordCount := some makeMap, needsBackup := false } := rfl

/-! ## `strings.Fields` yields at most one field per byte -/

theorem DecodeRune_width_pos (b : Byte) (rest : GoString) : 1 ≤ (DecodeRune (b :: rest)).2 := by
  unfold DecodeRune
  repeat' split
  all_goals simp_all

theorem fieldsASCII_length (s : GoString) (cur : Option GoString) :
    (fieldsASCII s cur).length ≤ s.length + (if cur.isSome then 1 else 0) := by
  induction s generalizing cur with
  | nil => cases cur <;> simp [fieldsASCII]
  | cons b rest ih =>
    unfold fieldsASCII
    split
    · cases cur with
      | none => have := ih none; simp at this ⊢; omega
      | some c => have := ih none; simp at this ⊢; omega
    · have := ih (some (cur.getD [] ++ [b])); simp at this ⊢
      split <;> omega

theorem fieldsFuncLoop_length (f : Nat → Bool) (n : Nat) (s : GoString) (cur : Option GoString) :
    (fieldsFuncLoop f n s cur).length ≤ s.length + (if cur.isSome then 1 else 0) := by
  induction n generalizing s cur with
  | zero => cases cur <;> simp [fieldsFuncLoop]
  | succ n ih =>
    cases s with
    | nil => cases cur <;> simp [fieldsFuncLoop]
    | cons b rest =>
      have hw := DecodeRune_width_pos b rest
      have hdrop : ((b :: rest).drop (DecodeRune (b :: rest)).2).length ≤ rest.length := by
        simp only [List.length_drop, List.length_cons]; omega
      unfold fieldsFuncLoop
      simp only
      split
      · cases cur with
        | none =>
          have := ih ((b :: rest).drop (DecodeRune (b :: rest)).2) none
          simp at this ⊢; omega
        | some c =>
          have := ih ((b :: rest).drop (DecodeRune (b :: rest)).2) none
          simp at this ⊢; omega
      · have := ih ((b :: rest).drop (DecodeRune (b :: rest)).2)
          (some (cur.getD [] ++ (b :: rest).take (DecodeRune (b :: rest)).2))
        simp at this ⊢
        split <;> omega

theorem Fields_length_le (s : GoString) : (Fields s).length ≤ s.length := by
  unfold Fields
  split
  · simpa using fieldsASCII_length s none
  · simpa [FieldsFunc] using fieldsFuncLoop_length IsSpace s.length s none

theorem count_Fields_le (w s : GoString) : (Fields s).count w ≤ s.length :=
  le_trans (List.count_le_length w (Fields s)) (Fields_length_le s)

/-! ## The leader's counts and deltas -/

theorem ingestAll_fresh (texts : List GoString) (w : GoString) :
    ∃ db, ingestAll texts (NewLeader none) = some db
      ∧ (db.GetWordCount w).val = wrapInt64 (occurrences w texts) := by
  obtain ⟨t1, nb1, hrun, ht, -⟩ := ingestAll_some texts makeMap false
  refine ⟨_, by rw [NewLeader_none]; exact hrun, ?_⟩
  rw [GetWordCount_eq_get]
  show (Table.get t1 w).val = _
  rw [ht w, Table.get_eq_zero_of_not_mem makeMap w (by simp [makeMap])]
  simp [GoInt.zero_val]

/-- C1: on a fresh leader (no snapshot file, empty table), after ingesting any
finite sequence of texts with `CountWords`, `GetWordCount w` is the total
number of occurrences of `w` among the `strings.Fields` tokens of the texts,
as an `int` holds it: exactly that number whenever it is below `2^63`, and
`0` for a word that never occurred. -/
theorem leader_count_eq_occurrences (texts : List GoString) (w : GoString) :
    ∃ db, ingestAll texts (NewLeader none) = some db
      ∧ (db.GetWordCount w).val = wrapInt64 (occurrences w texts)
      ∧ ((occurrences w texts : Int) < 2 ^ 63 →
          (db.GetWordCount w).val = occurrences w texts)
      ∧ (occurrences w texts = 0 → (db.GetWordCount w).val = 0) := by
  obtain ⟨db, hrun, hval⟩ := ingestAll_fresh texts w
  refine ⟨db, hrun, hval, ?_, ?_⟩
  · intro hlt
    rw [hval]
    exact wrapInt64_of_inRange ⟨by omega, hlt⟩
  · intro h0
    rw [hval, h0]; decide

/-- The test `TestGetWordCount`: after `"hello world hello"` on a fresh leader
the counts are hello 2, world 1, nonexistent 0. -/
theorem leader_count_hello_world :
    ∃ db, ingestAll [ascii "hello world hello"] (NewLeader none) = some db
      ∧ (db.GetWordCount (ascii "hello")).val = 2
      ∧ (db.GetWordCount (ascii "world")).val = 1
      ∧ (db.GetWordCount (ascii "nonexistent")).val = 0 := by
  obtain ⟨db, h, -, hx, -⟩ :=
    leader_count_eq_occurrences [ascii "hello world hello"] (ascii "hello")
  obtain ⟨db2, h2, -, hy, -⟩ :=
    leader_count_eq_occurrences [ascii "hello world hello"] (ascii "world")
  obtain ⟨db3, h3, -, -, hz⟩ :=
    leader_count_eq_occurrences [ascii "hello world hello"] (ascii "nonexistent")
  have e2 : db2 = db := Option.some.inj (h2.symm.trans h)
  have e3 : db3 = db := Option.some.inj (h3.symm.trans h)
  subst e2; subst e3
  refine ⟨_, h, ?_, ?_, hz (by decide)⟩
  · rw [hx (by decide)]; decide
  · rw [hy (by decide)]; decide

/-- C2: for every (non-nil) leader table and every text (a Go string, of
length below `2^63`), `CountWords` returns a delta that maps each word of the
text to the number of times it occurs among the tokens of that text alone,
whatever the table held, and has no entry for a word that is not a token of
the text. -/
theorem CountWords_delta (t : Table) (nb : Bool) (text : GoString)
    (hlen : text.length < 2 ^ 63) :
    ∃ db1 d, BaseLeader.CountWords { wordCount := some t, needsBackup := nb } text
        = some (db1, d)
      ∧ (∀ w, w ∈ Fields text →
          ∃ v, d.lookup w = some v ∧ v.val = ((Fields text).count w : Nat))
      ∧ (∀ w, w ∉ Fields text → d.lookup w = none) := by
  obtain ⟨t1, d, hrun, -, hd, -, hkd⟩ := CountWords_some t nb text
  refine ⟨_, d, hrun, ?_, ?_⟩
  · intro w hw
    have hk : w ∈ d.keys := (hkd w).2 hw
    rw [← AList.mem_keys, ← AList.lookup_isSome] at hk
    obtain ⟨v, hv⟩ := Option.isSome_iff_exists.1 hk
    refine ⟨v, hv, ?_⟩
    have h1 := hd w
    have h2 : Table.get d w = v := by simp [Table.get, hv]
    rw [h2] at h1
    rw [h1]
    have hc := count_Fields_le w text
    exact wrapInt64_of_inRange ⟨by omega, by omega⟩
  · intro w hw
    rw [AList.lookup_eq_none, AList.mem_keys, hkd w]; exact hw

/-- The test `TestCountWords`: the delta of `"hello world hello"` is hello 2,
world 1, and nothing for a word of the table that the text lacks. -/
theorem CountWords_delta_hello_world :
    ∃ db1 d, BaseLeader.CountWords
          { wordCount := some (Table.add makeMap (ascii "hello") (GoInt.wrap 7)),
            needsBackup := false } (ascii "hello world hello") = some (db1, d)
      ∧ (d.lookup (ascii "hello")).map Subtype.val = some 2
      ∧ (d.lookup (ascii "world")).map Subtype.val = some 1
      ∧ d.lookup (ascii "nonexistent") = none := by
  obtain ⟨db1, d, h, hin, hout⟩ :=
    CountWords_delta (Table.add makeMap (ascii "hello") (GoInt.wrap 7)) false
      (ascii "hello world hello") (by decide)
  refine ⟨db1, d, h, ?_, ?_, hout _ (by decide)⟩
  · obtain ⟨v, hv, hval⟩ := hin (ascii "hello") (by decide)
    rw [hv, Option.map_some', hval]; decide
  · obtain ⟨v, hv, hval⟩ := hin (ascii "world") (by decide)
    rw [hv, Option.map_some', hval]; decide

/-! ## The follower's additive merge -/

theorem Replica_GetWordCount_some (t : Table) (w : GoString) :
    BaseReplica.GetWordCount { wordCount := some t } w = Table.get t w := rfl

/-- C4: on every (non-nil) follower table, `AddWordCount w c` succeeds and
afterwards `GetWordCount w` is the previous value plus `c` in `int`
arithmetic (exactly the sum whenever it fits an `int`; `c` when `w` was
absent), and the count of every other word is unchanged. -/
theorem AddWordCount_additive (t : Table) (w : GoString) (c : GoInt) :
    ∃ db1, BaseReplica.AddWordCount { wordCount := some t } w c = some db1
      ∧ db1.GetWordCount w
          = GoInt.add (BaseReplica.GetWordCount { wordCount := some t } w) c
      ∧ (InInt64 ((BaseReplica.GetWordCount { wordCount := some t } w).val + c.val) →
          (db1.GetWordCount w).val
            = (BaseReplica.GetWordCount { wordCount := some t } w).val + c.val)
      ∧ (w ∉ t.keys → db1.GetWordCount w = c)
      ∧ (∀ v, v ≠ w →
          db1.GetWordCount v = BaseReplica.GetWordCount { wordCount := some t } v) := by
  refine ⟨{ wordCount := some (Table.add t w c) }, rfl, ?_, ?_, ?_, ?_⟩
  · simp only [Replica_GetWordCount_some, Table.get_add_self]
  · intro h
    simp only [Replica_GetWordCount_some, Table.get_add_self, GoInt.add_val] at h ⊢
    exact wrapInt64_of_inRange h
  · intro h
    simp only [Replica_GetWordCount_some, Table.get_add_self,
      Table.get_eq_zero_of_not_mem t w h]
    apply Subtype.ext
    rw [GoInt.add_val, GoInt.zero_val, zero_add, wrapInt64_val]
  · intro v hv
    simp only [Replica_GetWordCount_some, Table.get_add_ne _ _ hv]

/-- The test `TestAddWordCount`: adding 3 and then 2 to `"test"` on a new
follower gives 3 and then 5. -/
theorem AddWordCount_three_then_two :
    ∃ db1 db2, NewReplica.AddWordCount (ascii "test") (GoInt.wrap 3) = some db1
      ∧ (db1.GetWordCount (ascii "test")).val = 3
      ∧ db1.AddWordCount (ascii "test") (GoInt.wrap 2) = some db2
      ∧ (db2.GetWordCount (ascii "test")).val = 5 := by
  obtain ⟨db1, h1, -, -, hc, -⟩ :=
    AddWordCount_additive makeMap (ascii "test") (GoInt.wrap 3)
  refine ⟨db1, { wordCount := some (Table.add (Table.add makeMap (ascii "test") (GoInt.wrap 3))
      (ascii "test") (GoInt.wrap 2)) }, h1, ?_, ?_, by decide⟩
  · rw [hc (by decide)]; decide
  · have e : db1 = { wordCount := some (Table.add makeMap (ascii "test") (GoInt.wrap 3)) } :=
      Option.some.inj (h1.symm.trans rfl)
    rw [e]; rfl

/-! ## Applying deltas on the follower -/

theorem sumFor_nil (w : GoString) : sumFor w [] = 0 := rfl

theorem sumFor_cons (w : GoString) (e : Sigma fun _ : GoString => GoInt)
    (es : List (Sigma fun _ : GoString => GoInt)) :
    sumFor w (e :: es) = (if e.1 = w then e.2.val else 0) + sumFor w es := by
  unfold sumFor
  by_cases h : e.1 = w <;> simp [List.filter_cons, h]

theorem sumFor_append (w : GoString) (a b : List (Sigma fun _ : GoString => GoInt)) :
    sumFor w (a ++ b) = sumFor w a + sumFor w b := by
  unfold sumFor; simp

theorem sumFor_perm (w : GoString) {a b : List (Sigma fun _ : GoString => GoInt)}
    (h : a.Perm b) : sumFor w a = sumFor w b := by
  unfold sumFor
  exact ((h.filter _).map _).sum_eq

theorem sumFor_of_not_mem_keys (w : GoString) (es : List (Sigma fun _ : GoString => GoInt))
    (h : w ∉ es.keys) : sumFor w es = 0 := by
  induction es with
  | nil => rfl
  | cons e es ih =>
    rw [List.keys_cons, List.mem_cons, not_or] at h
    rw [sumFor_cons, ih h.2, if_neg (Ne.symm h.1)]; rfl

theorem sumFor_entries (d : Table) (w : GoString) :
    sumFor w d.entries = (Table.get d w).val := by
  obtain ⟨es, nd⟩ := d
  unfold Table.get AList.lookup
  simp only
  induction es with
  | nil => rfl
  | cons e es ih =>
    obtain ⟨k, v⟩ := e
    rw [List.nodupKeys_cons] at nd
    rw [sumFor_cons]
    by_cases h : k = w
    · subst h
      rw [List.dlookup_cons_eq, sumFor_of_not_mem_keys _ _ nd.1]
      simp
    · rw [List.dlookup_cons_ne _ _ (Ne.symm h), ih nd.2]
      simp [h]

theorem applyUpdates_some (es : List (Sigma fun _ : GoString => GoInt)) (t : Table) :
    ∃ t1, applyUpdates es { wordCount := some t } = some { wordCount := some t1 }
      ∧ (∀ w, (Table.get t1 w).val = wrapInt64 ((Table.get t w).val + sumFor w es))
      ∧ (∀ w, w ∈ t1.keys ↔ w ∈ t.keys ∨ w ∈ es.keys) := by
  induction es generalizing t with
  | nil =>
    refine ⟨t, rfl, ?_, ?_⟩ <;> intro w <;> simp [sumFor_nil, wrapInt64_val]
  | cons e es ih =>
    obtain ⟨t1, hrun, hg, hk⟩ := ih (Table.add t e.1 e.2)
    refine ⟨t1, ?_, ?_, ?_⟩
    · simp only [applyUpdates, BaseReplica.AddWordCount, GoMap.add]; exact hrun
    · intro w
      rw [hg w, sumFor_cons]
      by_cases h : e.1 = w
      · subst h
        rw [Table.get_add_self, GoInt.add_val, wrapInt64_wrap_add, if_pos rfl, add_assoc]
      · rw [Table.get_add_ne _ _ (Ne.symm h), if_neg h, zero_add]
    · intro w
      rw [hk w, Table.mem_keys_add, List.keys_cons, List.mem_cons]; tauto

theorem applyUpdates_append (a b : List (Sigma fun _ : GoString => GoInt)) (db : BaseReplica) :
    applyUpdates (a ++ b) db = (applyUpdates a db).bind (applyUpdates b) := by
  induction a generalizing db with
  | nil => rfl
  | cons e a ih =>
    simp only [List.cons_append, applyUpdates]
    cases db.AddWordCount e.1 e.2 with
    | none => rfl
    | some db1 => exact ih db1

theorem applyDeltas_eq (ds : List Table) (db : BaseReplica) :
    applyDeltas ds db = applyUpdates (ds.map fun d => d.entries).flatten db := by
  induction ds generalizing db with
  | nil => rfl
  | cons d ds ih =>
    simp only [applyDeltas, List.map_cons, List.flatten_cons, applyUpdates_append, applyDelta,
      GoMap.range]
    cases applyUpdates d.entries db with
    | none => rfl
    | some db1 => exact ih db1

theorem Table.lookup_eq_of_keys_get {t1 t2 : Table}
    (hk : ∀ w, w ∈ t1.keys ↔ w ∈ t2.keys) (hg : ∀ w, Table.get t1 w = Table.get t2 w)
    (w : GoString) : t1.lookup w = t2.lookup w := by
  have h1 := @AList.lookup_isSome _ _ _ w t1
  have h2 := @AList.lookup_isSome _ _ _ w t2
  rw [AList.mem_keys] at h1 h2
  have hg' := hg w
  unfold Table.get at hg'
  cases e1 : t1.lookup w with
  | none =>
    cases e2 : t2.lookup w with
    | none => rfl
    | some v2 =>
      rw [e1] at h1; rw [e2] at h2
      exact absurd ((hk w).2 (h2.1 rfl)) (fun h => by simpa using h1.2 h)
  | some v1 =>
    cases e2 : t2.lookup w with
    | none =>
      rw [e1] at h1; rw [e2] at h2
      exact absurd ((hk w).1 (h1.1 rfl)) (fun h => by simpa using h2.2 h)
    | some v2 =>
      rw [e1, e2] at hg'
      simpa using hg'

theorem sumFor_flatten (w : GoString) (ls : List (List (Sigma fun _ : GoString => GoInt))) :
    sumFor w ls.flatten = (ls.map (sumFor w)).sum := by
  induction ls with
  | nil => rfl
  | cons l ls ih => rw [List.flatten_cons, sumFor_append, ih, List.map_cons, List.sum_cons]

theorem mem_keys_flatten (w : GoString) (ls : List (List (Sigma fun _ : GoString => GoInt))) :
    w ∈ ls.flatten.keys ↔ ∃ l ∈ ls, w ∈ l.keys := by
  induction ls with
  | nil => simp [List.keys]
  | cons l ls ih =>
    have : (l ++ ls.flatten).keys = l.keys ++ ls.flatten.keys := by simp [List.keys]
    rw [List.flatten_cons, this, List.mem_append, ih]
    simp

theorem applyDeltas_some (ds : List Table) (t : Table) :
    ∃ t1, applyDeltas ds { wordCount := some t } = some { wordCount := some t1 }
      ∧ (∀ w, (Table.get t1 w).val
          = wrapInt64 ((Table.get t w).val + (ds.map fun d => (Table.get d w).val).sum))
      ∧ (∀ w, w ∈ t1.keys ↔ w ∈ t.keys ∨ ∃ d ∈ ds, w ∈ d.keys) := by
  obtain ⟨t1, hrun, hg, hk⟩ := applyUpdates_some (ds.map fun d => d.entries).flatten t
  refine ⟨t1, by rw [applyDeltas_eq]; exact hrun, ?_, ?_⟩
  · intro w
    rw [hg w, sumFor_flatten, List.map_map]
    congr 3
    apply List.map_congr_left
    intro d _
    exact sumFor_entries d w
  · intro w
    rw [hk w, mem_keys_flatten]
    simp only [List.mem_map, exists_exists_and_eq_and]
    rfl

theorem wrapInt64_add_wrap (a b : Int) : wrapInt64 (a + wrapInt64 b) = wrapInt64 (a + b) := by
  unfold wrapInt64; omega

theorem ingestDeltas_some (texts : List GoString) (L : Table) (nb : Bool) :
    ∃ t1 nb1 ds, ingestDeltas texts { wordCount := some L, needsBackup := nb }
        = some ({ wordCount := some t1, needsBackup := nb1 }, ds)
      ∧ (∀ w, (Table.get t1 w).val
          = wrapInt64 ((Table.get L w).val + (ds.map fun d => (Table.get d w).val).sum))
      ∧ (∀ w, w ∈ t1.keys ↔ w ∈ L.keys ∨ ∃ d ∈ ds, w ∈ d.keys)
      ∧ ingestAll texts { wordCount := some L, needsBackup := nb }
        = some { wordCount := some t1, needsBackup := nb1 }
      ∧ (∀ d ∈ ds, ∃ x ∈ texts, ∀ k ∈ AList.keys d, k ∈ Fields x) := by
  induction texts generalizing L nb with
  | nil =>
    refine ⟨L, nb, [], rfl, ?_, ?_, rfl, ?_⟩ <;> intro w <;> simp [wrapInt64_val]
  | cons x xs ih =>
    obtain ⟨t1, d, hrun, ht, hd, hkt, hkd⟩ := CountWords_some L nb x
    obtain ⟨t2, nb2, ds, hrun2, ht2, hkt2, hall, hsrc⟩ := ih t1 true
    refine ⟨t2, nb2, d :: ds, ?_, ?_, ?_, ?_, ?_⟩
    · simp only [ingestDeltas, hrun, hrun2]
    · intro w
      rw [ht2 w, ht w, wrapInt64_wrap_add, List.map_cons, List.sum_cons, hd w]
      rw [show (Table.get L w).val + (wrapInt64 ((List.count w (Fields x) : Nat) : Int)
            + (ds.map fun d => (Table.get d w).val).sum)
          = ((Table.get L w).val + (ds.map fun d => (Table.get d w).val).sum)
            + wrapInt64 ((List.count w (Fields x) : Nat) : Int) by ring, wrapInt64_add_wrap]
      congr 1; ring
    · intro w
      rw [hkt2 w, hkt w]
      simp only [List.mem_cons, exists_eq_or_imp, ← hkd w]; tauto
    · simp only [ingestAll, hrun]; exact hall
    · intro y hy
      rcases List.mem_cons.1 hy with rfl | hy
      · exact ⟨x, List.mem_cons_self _ _, fun k hk => (hkd k).1 hk⟩
      · obtain ⟨z, hz, hzk⟩ := hsrc y hy
        exact ⟨z, List.mem_cons_of_mem _ hz, hzk⟩

/-! ## Applying one delta, resync -/

theorem applyDelta_some (d t : Table) :
    ∃ t1, applyDelta (some d) { wordCount := some t } = some { wordCount := some t1 }
      ∧ (∀ w, (Table.get t1 w).val = wrapInt64 ((Table.get t w).val + (Table.get d w).val))
      ∧ (∀ w, w ∈ t1.keys ↔ w ∈ t.keys ∨ w ∈ d.keys) := by
  obtain ⟨t1, hrun, hg, hk⟩ := applyUpdates_some d.entries t
  refine ⟨t1, hrun, ?_, hk⟩
  intro w
  rw [hg w, sumFor_entries]

theorem wrapInt64_add_ne (a : Int) {b : Int} (hb : InInt64 b) (h0 : b ≠ 0) :
    wrapInt64 (a + b) ≠ wrapInt64 a := by
  unfold wrapInt64; unfold InInt64 at hb; omega

/-- C6: `SetWordsCounts m` replaces the follower's table wholesale: whatever
the table held before, afterwards the table is `m`, so `GetWordCount w` is
`m[w]` when `w` is a key of `m` and `0` otherwise; and a `requestLeaderSync`
whose `GET /sync` answers 200 with a body that decodes without error does
exactly `SetWordsCounts` of the decoded mapping. -/
theorem SetWordsCounts_replaces (prev : BaseReplica) (m : GoMap) (w : GoString) :
    (prev.SetWordsCounts m).wordCount = m
      ∧ (∀ t v, m = some t → t.lookup w = some v → (prev.SetWordsCounts m).GetWordCount w = v)
      ∧ ((∀ t, m = some t → w ∉ t.keys) → (prev.SetWordsCounts m).GetWordCount w = GoInt.zero)
      ∧ (∀ body, (Decode body (some makeMap)).2 = false →
          requestLeaderSync prev (some (200, body))
            = (prev.SetWordsCounts (Decode body (some makeMap)).1, false)) := by
  refine ⟨rfl, ?_, ?_, ?_⟩
  · intro t v hm hv
    subst hm
    simp [BaseReplica.SetWordsCounts, BaseReplica.GetWordCount, GoMap.get, Table.get, hv]
  · intro h
    cases m with
    | none => rfl
    | some t => exact Table.get_eq_zero_of_not_mem t w (h t rfl)
  · intro body hb
    simp [requestLeaderSync, hb]

/-- The scenario of a follower started against a leader whose snapshot holds
`a: 3`: the startup resync succeeds and the follower reports 3 for `a`; and
`TestSetWordsCounts`: setting `hello: 1, world: 2` gives 1 and 2, nothing of a
previous `old: 9` remaining. -/
theorem resync_a_three :
    (requestLeaderSync NewReplica
        (some (syncReplicaHandler (NewLeader (some (ascii "\x7b\"a\":3\x7d")))))).2 = false
      ∧ ((requestLeaderSync NewReplica
        (some (syncReplicaHandler (NewLeader (some (ascii "\x7b\"a\":3\x7d")))))).1.GetWordCount
          (ascii "a")).val = 3
      ∧ ((BaseReplica.SetWordsCounts
            { wordCount := some (Table.add makeMap (ascii "old") (GoInt.wrap 9)) }
            (some (Table.add (Table.add makeMap (ascii "hello") (GoInt.wrap 1))
              (ascii "world") (GoInt.wrap 2)))).GetWordCount (ascii "old")) = GoInt.zero := by
  have h := (SetWordsCounts_replaces NewReplica none (ascii "a")).2.2.2
    (syncReplicaHandler (NewLeader (some (ascii "\x7b\"a\":3\x7d")))).2 (by decide)
  have e : syncReplicaHandler (NewLeader (some (ascii "\x7b\"a\":3\x7d")))
      = (200, (syncReplicaHandler (NewLeader (some (ascii "\x7b\"a\":3\x7d")))).2) := rfl
  rw [e, h]
  refine ⟨rfl, by decide, ?_⟩
  exact (SetWordsCounts_replaces _ _ (ascii "old")).2.2.1 (by
    intro t ht
    have : t = Table.add (Table.add makeMap (ascii "hello") (GoInt.wrap 1))
        (ascii "world") (GoInt.wrap 2) := (Option.some.inj ht).symm
    subst this; decide)

/-! ## Snapshot round trip -/

/-- C7, evaluated at the failing input: a fresh leader ingests the one-byte
text `0xFF` (not valid UTF-8) and counts that word once; `backup` succeeds,
and a fresh leader restoring the written file has count 0 for the word
`0xFF` and count 1 for the three bytes of `U+FFFD` instead. -/
theorem snapshot_loses_invalid_utf8 :
    ∃ db, ingestAll [[0xFF]] (NewLeader none) = some db
      ∧ (db.GetWordCount [0xFF]).val = 1
      ∧ (db.backup WriteOutcome.ok).2.2 = false
      ∧ (db.backup WriteOutcome.ok).2.1 = some (ascii "\x7b\"\\ufffd\":1\x7d")
      ∧ (BaseLeader.restore (NewLeader none) (db.backup WriteOutcome.ok).2.1).2 = false
      ∧ ((NewLeader (db.backup WriteOutcome.ok).2.1).GetWordCount [0xFF]).val = 0
      ∧ ((NewLeader (db.backup WriteOutcome.ok).2.1).GetWordCount [0xEF, 0xBF, 0xBD]).val = 1 :=
  ⟨_, rfl, by decide, by decide, by decide, by decide, by decide, by decide⟩

/-- Two distinct words that are not valid UTF-8 are merged by the round trip:
after ingesting `0xFF 0xFE 0xFE` (counts 1 and 2) the restored table has the
single word `U+FFFD` with count 1. -/
theorem snapshot_merges_invalid_utf8 :
    ∃ db, ingestAll [[0xFF, 0x20, 0xFE, 0x20, 0xFE]] (NewLeader none) = some db
      ∧ (db.GetWordCount [0xFF]).val = 1
      ∧ (db.GetWordCount [0xFE]).val = 2
      ∧ ((NewLeader (db.backup WriteOutcome.ok).2.1).GetWordCount [0xFF]).val = 0
      ∧ ((NewLeader (db.backup WriteOutcome.ok).2.1).GetWordCount [0xFE]).val = 0
      ∧ ((NewLeader (db.backup WriteOutcome.ok).2.1).GetWordCount [0xEF, 0xBF, 0xBD]).val = 1 :=
  ⟨_, rfl, by decide, by decide, by decide, by decide, by decide⟩

/-- C10, the claim as stated fails on the follower: the body `{"a":-1}` is
accepted with 202 and takes the count of `a` from 0 to -1; and the body
`{"a":9223372036854775807}` applied twice takes it from `2^63 - 1` to -2. -/
theorem update_can_decrease :
    (∃ db1, updateHandler NewReplica (ascii "\x7b\"a\":-1\x7d") = some (db1, 202)
        ∧ (NewReplica.GetWordCount (ascii "a")).val = 0
        ∧ (db1.GetWordCount (ascii "a")).val = -1)
      ∧ (∃ db1 db2,
          updateHandler NewReplica (ascii "\x7b\"a\":9223372036854775807\x7d") = some (db1, 202)
          ∧ updateHandler db1 (ascii "\x7b\"a\":9223372036854775807\x7d") = some (db2, 202)
          ∧ (db1.GetWordCount (ascii "a")).val = 9223372036854775807
          ∧ (db2.GetWordCount (ascii "a")).val = -2) :=
  ⟨⟨_, rfl, by decide, by decide⟩, ⟨_, _, rfl, rfl, by decide, by decide⟩⟩

/-! ## Copying a table, sums of increments -/

theorem copyEntries_lookup (es : List (Sigma fun _ : GoString => GoInt)) (nd : es.NodupKeys)
    (dst : Table) (w : GoString) :
    (copyEntries es dst).lookup w = (es.dlookup w).orElse fun _ => dst.lookup w := by
  induction es generalizing dst with
  | nil => simp [copyEntries]
  | cons e es ih =>
    obtain ⟨k, v⟩ := e
    rw [List.nodupKeys_cons] at nd
    simp only [copyEntries]
    rw [ih nd.2]
    by_cases h : w = k
    · subst h
      rw [List.dlookup_cons_eq, List.dlookup_eq_none.2 nd.1]
      simp
    · rw [List.dlookup_cons_ne _ _ h, AList.lookup_insert_ne h]

theorem GetWordsCounts_lookup (L : Table) (nb : Bool) (w : GoString) :
    (BaseLeader.GetWordsCounts { wordCount := some L, needsBackup := nb }).lookup w
      = L.lookup w := by
  unfold BaseLeader.GetWordsCounts GoMap.range
  simp only
  rw [copyEntries_lookup _ L.nodupKeys]
  show (L.lookup w).orElse _ = _
  cases L.lookup w <;> simp [makeMap]

theorem GetWordsCounts_get (L : Table) (nb : Bool) (w : GoString) :
    Table.get (BaseLeader.GetWordsCounts { wordCount := some L, needsBackup := nb }) w
      = Table.get L w := by
  unfold Table.get; rw [GetWordsCounts_lookup]

theorem sumGet_cons (w : GoString) (d : Table) (ds : List Table) :
    sumGet w (d :: ds) = (Table.get d w).val + sumGet w ds := by
  simp [sumGet]

theorem sumGet_nonneg (w : GoString) (ds : List Table)
    (h : ∀ d ∈ ds, 0 ≤ (Table.get d w).val) : 0 ≤ sumGet w ds := by
  induction ds with
  | nil => simp [sumGet]
  | cons d ds ih =>
    rw [sumGet_cons]
    have h1 := h d (List.mem_cons_self _ _)
    have h2 := ih (fun x hx => h x (List.mem_cons_of_mem _ hx))
    omega

theorem sumGet_eraseIdx (w : GoString) (ds : List Table) (i : Nat) (d : Table)
    (h : ds.get? i = some d) :
    sumGet w (ds.eraseIdx i) = sumGet w ds - (Table.get d w).val := by
  induction ds generalizing i with
  | nil => simp at h
  | cons x xs ih =>
    cases i with
    | zero =>
      simp at h; subst h
      simp [List.eraseIdx, sumGet_cons]
    | succ j =>
      simp at h
      simp only [List.eraseIdx, sumGet_cons]
      rw [ih j (by simpa using h)]; ring

theorem mem_of_get? {ds : List Table} {i : Nat} {d : Table} (h : ds.get? i = some d) :
    d ∈ ds :=
  List.get?_mem h

theorem Table.get_of_entries_nil (d : Table) (h : ¬ d.entries.length > 0) (w : GoString) :
    Table.get d w = GoInt.zero := by
  apply Table.get_eq_zero_of_not_mem
  have : d.entries = [] := List.length_eq_zero.1 (by omega)
  simp [AList.keys, this]

theorem ingestFits_spec (L : Table) (nb : Bool) (text w : GoString)
    (h : ingestFits { wordCount := some L, needsBackup := nb } text = true) :
    (Table.get L w).val + ((Fields text).count w : Nat) < 2 ^ 63 := by
  by_cases hw : w ∈ Fields text
  · unfold ingestFits at h
    rw [List.all_eq_true] at h
    have := h w hw
    rw [GetWordCount_eq_get] at this
    simpa using this
  · rw [List.count_eq_zero_of_not_mem hw]
    have := (Table.get L w).property.2
    simpa using this

/-! ## Counts do not decrease -/

theorem applyDelta_goMap_some (d : GoMap) (t : Table) :
    ∃ t1, applyDelta d { wordCount := some t } = some { wordCount := some t1 }
      ∧ (∀ w, (Table.get t1 w).val = wrapInt64 ((Table.get t w).val + (GoMap.get d w).val))
      ∧ (∀ w, w ∈ t.keys → w ∈ t1.keys) := by
  cases d with
  | none =>
    refine ⟨t, rfl, ?_, fun _ h => h⟩
    intro w
    simp [GoMap.get, GoInt.zero_val, wrapInt64_val]
  | some d =>
    obtain ⟨t1, h, hg, hk⟩ := applyDelta_some d t
    exact ⟨t1, h, hg, fun w hw => (hk w).2 (Or.inl hw)⟩

theorem updateHandler_of_decode (db : BaseReplica) (body : GoString) (d : GoMap)
    (h : Decode body (some makeMap) = (d, false)) :
    updateHandler db body = (applyDelta d db).map fun db1 => (db1, 202) := by
  unfold updateHandler
  rw [h]
  simp only [Bool.false_eq_true, if_false]
  cases applyDelta d db <;> rfl

/-- C10, as amended: as long as no count leaves the range of `int`, counts
only grow and keys stay.  `CountWords` on a (non-nil) leader table keeps
every key and does not decrease a count whose new value is below `2^63`; the
update handler, on a body that decodes without error, answers 202, keeps
every key of a (non-nil) follower table and does not decrease the count of a
word whose increment is not negative and whose new value is below `2^63`;
and starting from the empty table the counts reached this way are not
negative, on the leader after any texts and on the follower after any deltas
with non-negative increments. -/
theorem counts_nondecreasing (t : Table) (nb : Bool) (text body : GoString) (d : GoMap) :
    (∃ t1 dl, BaseLeader.CountWords { wordCount := some t, needsBackup := nb } text
          = some ({ wordCount := some t1, needsBackup := true }, dl)
        ∧ (∀ w, w ∈ t.keys → w ∈ t1.keys)
        ∧ ∀ w, (Table.get t w).val + ((Fields text).count w : Nat) < 2 ^ 63 →
            (Table.get t w).val ≤ (Table.get t1 w).val)
      ∧ (Decode body (some makeMap) = (d, false) →
          ∃ t1, updateHandler { wordCount := some t } body
              = some ({ wordCount := some t1 }, 202)
            ∧ (∀ w, w ∈ t.keys → w ∈ t1.keys)
            ∧ ∀ w, 0 ≤ (GoMap.get d w).val →
                (Table.get t w).val + (GoMap.get d w).val < 2 ^ 63 →
                (Table.get t w).val ≤ (Table.get t1 w).val)
      ∧ (∀ texts w, (occurrences w texts : Int) < 2 ^ 63 →
          ∃ db, ingestAll texts (NewLeader none) = some db
            ∧ 0 ≤ (db.GetWordCount w).val)
      ∧ (∀ ds w, (∀ x ∈ ds, 0 ≤ (Table.get x w).val) → sumGet w ds < 2 ^ 63 →
          ∃ f, applyDeltas ds NewReplica = some f ∧ 0 ≤ (f.GetWordCount w).val) := by
  refine ⟨?_, ?_, ?_, ?_⟩
  · obtain ⟨t1, dl, hrun, ht, -, hkt, -⟩ := CountWords_some t nb text
    refine ⟨t1, dl, hrun, fun w hw => (hkt w).2 (Or.inl hw), ?_⟩
    intro w hlt
    have hlo := (Table.get t w).property.1
    rw [ht w, wrapInt64_of_inRange ⟨by omega, hlt⟩]
    omega
  · intro hdec
    obtain ⟨t1, hrun, hg, hk⟩ := applyDelta_goMap_some d t
    refine ⟨t1, ?_, hk, ?_⟩
    · rw [updateHandler_of_decode _ _ _ hdec, hrun]; rfl
    · intro w h0 hlt
      have hlo := (Table.get t w).property.1
      rw [hg w, wrapInt64_of_inRange ⟨by omega, hlt⟩]
      omega
  · intro texts w hlt
    obtain ⟨db, hrun, hval⟩ := ingestAll_fresh texts w
    exact ⟨db, hrun, by rw [hval, wrapInt64_of_inRange ⟨by omega, hlt⟩]; omega⟩
  · intro ds w hnn hlt
    obtain ⟨t1, hrun, hg, -⟩ := applyDeltas_some ds makeMap
    refine ⟨_, hrun, ?_⟩
    show 0 ≤ (Table.get t1 w).val
    have hs := sumGet_nonneg w ds hnn
    have hz : (Table.get makeMap w).val = 0 := rfl
    rw [hg w, hz, zero_add]
    unfold sumGet at hs hlt
    rw [wrapInt64_of_inRange ⟨by omega, hlt⟩]
    exact hs

/-- The body `{"a":2}` on a follower holding `a: 1, b: 5`: 202, both keys
stay, `a` grows to 3 and `b` keeps 5. -/
theorem counts_nondecreasing_a_two :
    ∃ t1, updateHandler
        { wordCount := some (Table.add (Table.add makeMap (ascii "a") (GoInt.wrap 1))
            (ascii "b") (GoInt.wrap 5)) } (ascii "\x7b\"a\":2\x7d")
        = some ({ wordCount := some t1 }, 202)
      ∧ ascii "a" ∈ t1.keys ∧ ascii "b" ∈ t1.keys
      ∧ 1 ≤ (Table.get t1 (ascii "a")).val ∧ 5 ≤ (Table.get t1 (ascii "b")).val := by
  obtain ⟨t1, h, hk, hle⟩ :=
    (counts_nondecreasing (Table.add (Table.add makeMap (ascii "a") (GoInt.wrap 1))
      (ascii "b") (GoInt.wrap 5)) false [] (ascii "\x7b\"a\":2\x7d")
      (some (Table.add makeMap (ascii "a") (GoInt.wrap 2)))).2.1 rfl
  exact ⟨t1, h, hk _ (by decide), hk _ (by decide),
    hle (ascii "a") (by decide) (by decide), hle (ascii "b") (by decide) (by decide)⟩

/-! ## UTF-8: decoding a valid sequence and encoding it again -/

theorem DecodeRune_of_leadInfo_none (b : Byte) (rest : GoString) (hb : ¬ b.val < 0x80)
    (hl : leadInfo b.val = none) : DecodeRune (b :: rest) = (RuneError, 1) := by
  simp [DecodeRune, hb, hl]

theorem DecodeRune_two (b : Byte) (rest : GoString) (lo hi : Nat) (hb : ¬ b.val < 0x80)
    (hl : leadInfo b.val = some (2, lo, hi))
    (hv : DecodeRune (b :: rest) ≠ (RuneError, 1)) :
    ∃ s1 tl, rest = s1 :: tl ∧ lo ≤ s1.val ∧ s1.val ≤ hi
      ∧ DecodeRune (b :: rest) = ((b.val % 32) * 64 + s1.val % 64, 2) := by
  rcases rest with _ | ⟨s1, tl⟩
  · simp [DecodeRune, hb, hl] at hv
  · simp only [DecodeRune, hb, hl, if_false] at hv ⊢
    by_cases hr : s1.val < lo ∨ hi < s1.val
    · simp [hr] at hv
    · refine ⟨s1, tl, rfl, by omega, by omega, ?_⟩
      simp [hr]

theorem DecodeRune_three (b : Byte) (rest : GoString) (lo hi : Nat) (hb : ¬ b.val < 0x80)
    (hl : leadInfo b.val = some (3, lo, hi))
    (hv : DecodeRune (b :: rest) ≠ (RuneError, 1)) :
    ∃ s1 s2 tl, rest = s1 :: s2 :: tl ∧ lo ≤ s1.val ∧ s1.val ≤ hi
      ∧ 0x80 ≤ s2.val ∧ s2.val ≤ 0xBF
      ∧ DecodeRune (b :: rest)
          = ((b.val % 16) * 4096 + (s1.val % 64) * 64 + s2.val % 64, 3) := by
  rcases rest with _ | ⟨s1, _ | ⟨s2, tl⟩⟩
  · simp [DecodeRune, hb, hl] at hv
  · simp only [DecodeRune, hb, hl, if_false] at hv
    by_cases hr : s1.val < lo ∨ hi < s1.val
    · simp [hr] at hv
    · simp [hr] at hv
  · simp only [DecodeRune, hb, hl, if_false] at hv ⊢
    by_cases hr : s1.val < lo ∨ hi < s1.val
    · simp [hr] at hv
    · by_cases hc : isCont s2.val = true
      · have hc2 : 0x80 ≤ s2.val ∧ s2.val ≤ 0xBF := by
          simpa [isCont] using hc
        refine ⟨s1, s2, tl, rfl, by omega, by omega, hc2.1, hc2.2, ?_⟩
        simp [hr, hc]
      · simp [hr, hc] at hv

theorem DecodeRune_four (b : Byte) (rest : GoString) (lo hi : Nat) (hb : ¬ b.val < 0x80)
    (hl : leadInfo b.val = some (4, lo, hi))
    (hv : DecodeRune (b :: rest) ≠ (RuneError, 1)) :
    ∃ s1 s2 s3 tl, rest = s1 :: s2 :: s3 :: tl ∧ lo ≤ s1.val ∧ s1.val ≤ hi
      ∧ 0x80 ≤ s2.val ∧ s2.val ≤ 0xBF ∧ 0x80 ≤ s3.val ∧ s3.val ≤ 0xBF
      ∧ DecodeRune (b :: rest)
          = ((b.val % 8) * 262144 + (s1.val % 64) * 4096 + (s2.val % 64) * 64
              + s3.val % 64, 4) := by
  rcases rest with _ | ⟨s1, _ | ⟨s2, _ | ⟨s3, tl⟩⟩⟩
  · simp [DecodeRune, hb, hl] at hv
  · simp only [DecodeRune, hb, hl, if_false] at hv
    by_cases hr : s1.val < lo ∨ hi < s1.val
    · simp [hr] at hv
    · simp [hr] at hv
  · simp only [DecodeRune, hb, hl, if_false] at hv
    by_cases hr : s1.val < lo ∨ hi < s1.val
    · simp [hr] at hv
    · by_cases hc : isCont s2.val = true
      · simp [hr, hc] at hv
      · simp [hr, hc] at hv
  · simp only [DecodeRune, hb, hl, if_false] at hv ⊢
    by_cases hr : s1.val < lo ∨ hi < s1.val
    · simp [hr] at hv
    · by_cases hc : isCont s2.val = true
      · by_cases hd : isCont s3.val = true
        · have hc2 : 0x80 ≤ s2.val ∧ s2.val ≤ 0xBF := by
            simpa [isCont] using hc
          have hd2 : 0x80 ≤ s3.val ∧ s3.val ≤ 0xBF := by
            simpa [isCont] using hd
          refine ⟨s1, s2, s3, tl, rfl, by omega, by omega, hc2.1, hc2.2, hd2.1, hd2.2, ?_⟩
          simp [hr, hc, hd]
        · simp [hr, hc, hd] at hv
      · simp [hr, hc] at hv

/-- The entries of the table `utf8.first` for the lead bytes. -/
theorem leadInfo_cases (b : Nat) :
    (leadInfo b = none ∧ (b < 0xC2 ∨ 0xF4 < b))
      ∨ (leadInfo b = some (2, 0x80, 0xBF) ∧ 0xC2 ≤ b ∧ b ≤ 0xDF)
      ∨ (leadInfo b = some (3, 0xA0, 0xBF) ∧ b = 0xE0)
      ∨ (leadInfo b = some (3, 0x80, 0x9F) ∧ b = 0xED)
      ∨ (leadInfo b = some (3, 0x80, 0xBF) ∧ 0xE1 ≤ b ∧ b ≤ 0xEF ∧ b ≠ 0xED)
      ∨ (leadInfo b = some (4, 0x90, 0xBF) ∧ b = 0xF0)
      ∨ (leadInfo b = some (4, 0x80, 0xBF) ∧ 0xF1 ≤ b ∧ b ≤ 0xF3)
      ∨ (leadInfo b = some (4, 0x80, 0x8F) ∧ b = 0xF4) := by
  unfold leadInfo
  split_ifs <;> simp <;> omega

theorem byteOf_val (n : Nat) : (byteOf n).val = n % 256 := rfl

theorem byteOf_eq (n : Nat) (x : Byte) (h : n = x.val) : byteOf n = x := by
  apply Fin.ext
  rw [byteOf_val, h]
  exact Nat.mod_eq_of_lt x.isLt

/-- A rune decoded from a well-formed multi-byte sequence at the head of
`b :: rest`: the sequence is 2 to 4 bytes, all of them at least `0x80`,
encoding the rune gives the sequence back, and the decoding does not depend
on what follows the sequence. -/
theorem DecodeRune_valid (b : Byte) (rest : GoString) (hb : ¬ b.val < 0x80)
    (hv : DecodeRune (b :: rest) ≠ (RuneError, 1)) :
    WellFormedHead (b :: rest) := by
  have hb255 := b.isLt
  have hb80 : 0x80 ≤ b.val := by omega
  have two : ∀ lo hi, leadInfo b.val = some (2, lo, hi) → 0x80 ≤ lo → hi ≤ 0xBF →
      0xC2 ≤ b.val → b.val ≤ 0xDF → WellFormedHead (b :: rest) := fun lo hi hl hlo hhi h1 h2 => by
    obtain ⟨s1, tl, rfl, h3, h4, hd⟩ := DecodeRune_two b rest lo hi hb hl hv
    unfold WellFormedHead
    rw [hd]
    refine ⟨by omega, by simp, ?_, ?_, ?_⟩
    · intro x hx
      simp only [List.take_succ_cons, List.take_zero, List.mem_cons, List.mem_nil_iff,
        or_false] at hx
      rcases hx with rfl | rfl <;> omega
    · simp only [List.take_succ_cons, List.take_zero]
      unfold EncodeRune
      rw [if_neg (by omega), if_pos (by omega)]
      rw [byteOf_eq _ b (by omega), byteOf_eq _ s1 (by omega)]
    · intro tail
      simp only [List.take_succ_cons, List.take_zero, List.cons_append, List.nil_append]
      simp only [DecodeRune, hb, hl, if_false]
      rw [if_neg (by omega)]; simp
  have three : ∀ lo hi, leadInfo b.val = some (3, lo, hi) → 0x80 ≤ lo → hi ≤ 0xBF →
      0xE0 ≤ b.val → b.val ≤ 0xEF → (b.val = 0xE0 → 0xA0 ≤ lo) → (b.val = 0xED → hi ≤ 0x9F) →
      WellFormedHead (b :: rest) := fun lo hi hl hlo hhi h1 h2 hE0 hED => by
    obtain ⟨s1, s2, tl, rfl, h3, h4, h5, h6, hd⟩ := DecodeRune_three b rest lo hi hb hl hv
    have hE0' := hE0
    have hED' := hED
    unfold WellFormedHead
    rw [hd]
    refine ⟨by omega, by simp, ?_, ?_, ?_⟩
    · intro x hx
      simp only [List.take_succ_cons, List.take_zero, List.mem_cons, List.mem_nil_iff,
        or_false] at hx
      rcases hx with rfl | rfl | rfl <;> omega
    · simp only [List.take_succ_cons, List.take_zero]
      unfold EncodeRune
      rw [if_neg (by omega), if_neg (by omega), if_neg (by omega), if_pos (by omega)]
      rw [byteOf_eq _ b (by omega), byteOf_eq _ s1 (by omega), byteOf_eq _ s2 (by omega)]
    · intro tail
      simp only [List.take_succ_cons, List.take_zero, List.cons_append, List.nil_append]
      simp only [DecodeRune, hb, hl, if_false]
      rw [if_neg (by omega)]
      have : isCont s2.val = true := by simp [isCont]; omega
      simp [this]
  have four : ∀ lo hi, leadInfo b.val = some (4, lo, hi) → 0x80 ≤ lo → hi ≤ 0xBF →
      0xF0 ≤ b.val → b.val ≤ 0xF4 → (b.val = 0xF0 → 0x90 ≤ lo) → (b.val = 0xF4 → hi ≤ 0x8F) →
      WellFormedHead (b :: rest) := fun lo hi hl hlo hhi h1 h2 hF0 hF4 => by
    obtain ⟨s1, s2, s3, tl, rfl, h3, h4, h5, h6, h7, h8, hd⟩ :=
      DecodeRune_four b rest lo hi hb hl hv
    have hF0' := hF0
    have hF4' := hF4
    unfold WellFormedHead
    rw [hd]
    refine ⟨by omega, by simp, ?_, ?_, ?_⟩
    · intro x hx
      simp only [List.take_succ_cons, List.take_zero, List.mem_cons, List.mem_nil_iff,
        or_false] at hx
      rcases hx with rfl | rfl | rfl | rfl <;> omega
    · simp only [List.take_succ_cons, List.take_zero]
      unfold EncodeRune
      rw [if_neg (by omega), if_neg (by omega), if_neg (by omega), if_neg (by omega)]
      rw [byteOf_eq _ b (by omega), byteOf_eq _ s1 (by omega), byteOf_eq _ s2 (by omega),
        byteOf_eq _ s3 (by omega)]
    · intro tail
      simp only [List.take_succ_cons, List.take_zero, List.cons_append, List.nil_append]
      simp only [DecodeRune, hb, hl, if_false]
      rw [if_neg (by omega)]
      have e2 : isCont s2.val = true := by simp [isCont]; omega
      have e3 : isCont s3.val = true := by simp [isCont]; omega
      simp [e2, e3]
  rcases leadInfo_cases b.val with h | h | h | h | h | h | h | h
  · exact absurd (DecodeRune_of_leadInfo_none b rest hb h.1) hv
  · exact two _ _ h.1 (by omega) (by omega) h.2.1 h.2.2
  · exact three _ _ h.1 (by omega) (by omega) (by omega) (by omega) (by omega) (by omega)
  · exact three _ _ h.1 (by omega) (by omega) (by omega) (by omega) (by omega) (by omega)
  · exact three _ _ h.1 (by omega) (by omega) (by omega) (by omega) (by omega) (by omega)
  · exact four _ _ h.1 (by omega) (by omega) (by omega) (by omega) (by omega) (by omega)
  · exact four _ _ h.1 (by omega) (by omega) (by omega) (by omega) (by omega) (by omega)
  · exact four _ _ h.1 (by omega) (by omega) (by omega) (by omega) (by omega) (by omega)

/-! ## A marshalled string scans as one string literal -/

theorem scan_plain_cons (c : Byte) (ys : GoString) (h22 : c.val ≠ 0x22) (h5c : c.val ≠ 0x5C)
    (h20 : ¬ c.val < 0x20) :
    scanString .normal (c :: ys) = (scanString .normal ys).map fun p => (c :: p.1, p.2) := by
  simp [scanString, h22, h5c, h20]

theorem scan_plain (xs ys : GoString) (h : ∀ x ∈ xs, 0x80 ≤ x.val) :
    scanString .normal (xs ++ ys)
      = (scanString .normal ys).map fun p => (xs ++ p.1, p.2) := by
  induction xs with
  | nil => simp
  | cons x xs ih =>
    have hx := h x (List.mem_cons_self _ _)
    rw [List.cons_append, scan_plain_cons x _ (by omega) (by omega) (by omega),
      ih (fun y hy => h y (List.mem_cons_of_mem _ hy))]
    cases scanString .normal ys <;> simp

theorem scan_backslash (c : Byte) (ys : GoString) (h : c.val = 0x5C) :
    scanString .normal (c :: ys) = (scanString .esc ys).map fun p => (c :: p.1, p.2) := by
  simp [scanString, h]

theorem scan_esc_letter (e : Byte) (ys : GoString)
    (he : e.val = 0x62 ∨ e.val = 0x66 ∨ e.val = 0x6E ∨ e.val = 0x72 ∨ e.val = 0x74
      ∨ e.val = 0x5C ∨ e.val = 0x2F ∨ e.val = 0x22) :
    scanString .esc (e :: ys) = (scanString .normal ys).map fun p => (e :: p.1, p.2) := by
  have hc : (e.val = 0x62 || e.val = 0x66 || e.val = 0x6E || e.val = 0x72 || e.val = 0x74
        || e.val = 0x5C || e.val = 0x2F || e.val = 0x22) = true := by
    simp only [Bool.or_eq_true, decide_eq_true_eq]; omega
  rw [scanString, if_pos hc]

theorem scan_esc_u (e : Byte) (ys : GoString) (he : e.val = 0x75) :
    scanString .esc (e :: ys) = (scanString (.hex 4) ys).map fun p => (e :: p.1, p.2) := by
  have hc : ¬ (e.val = 0x62 || e.val = 0x66 || e.val = 0x6E || e.val = 0x72 || e.val = 0x74
        || e.val = 0x5C || e.val = 0x2F || e.val = 0x22) = true := by
    simp only [Bool.or_eq_true, decide_eq_true_eq]; omega
  rw [scanString, if_neg hc, if_pos he]

theorem scan_hex (k : Nat) (c : Byte) (ys : GoString) (hc : isHex c = true) :
    scanString (.hex k) (c :: ys)
      = (scanString (if k ≤ 1 then .normal else .hex (k - 1)) ys).map
          fun p => (c :: p.1, p.2) := by
  rw [scanString, if_pos hc]

theorem scan_escape2 (c e : Byte) (ys : GoString) (hc : c.val = 0x5C)
    (he : e.val = 0x62 ∨ e.val = 0x66 ∨ e.val = 0x6E ∨ e.val = 0x72 ∨ e.val = 0x74
      ∨ e.val = 0x5C ∨ e.val = 0x2F ∨ e.val = 0x22) :
    scanString .normal (c :: e :: ys)
      = (scanString .normal ys).map fun p => (c :: e :: p.1, p.2) := by
  rw [scan_backslash c _ hc, scan_esc_letter e _ he]
  cases scanString .normal ys <;> rfl

theorem scan_escapeU (c u h1 h2 h3 h4 : Byte) (ys : GoString) (hc : c.val = 0x5C)
    (hu : u.val = 0x75) (e1 : isHex h1 = true)
    (e2 : isHex h2 = true) (e3 : isHex h3 = true) (e4 : isHex h4 = true) :
    scanString .normal (c :: u :: h1 :: h2 :: h3 :: h4 :: ys)
      = (scanString .normal ys).map
          fun p => (c :: u :: h1 :: h2 :: h3 :: h4 :: p.1, p.2) := by
  rw [scan_backslash c _ hc, scan_esc_u u _ hu, scan_hex 4 h1 _ e1]
  simp only [show ¬ (4 ≤ 1) by omega, if_false, show 4 - 1 = 3 by rfl]
  rw [scan_hex 3 h2 _ e2]
  simp only [show ¬ (3 ≤ 1) by omega, if_false, show 3 - 1 = 2 by rfl]
  rw [scan_hex 2 h3 _ e3]
  simp only [show ¬ (2 ≤ 1) by omega, if_false, show 2 - 1 = 1 by rfl]
  rw [scan_hex 1 h4 _ e4]
  simp only [show (1 ≤ 1) by omega, if_true]
  cases scanString .normal ys <;> rfl

theorem hexDigit_spec (k : Nat) (hk : k < 16) :
    isHex (hexDigit k) = true ∧ hexVal (hexDigit k) = k := by
  interval_cases k <;> decide

theorem scan_quote (c : Byte) (ys : GoString) (h : c.val = 0x22) :
    scanString .normal (c :: ys) = some ([], ys) := by
  simp [scanString, h]

/-! ## Unquoting what `appendString` wrote -/

theorem unq_ascii (c : Byte) (ys : GoString) (f : Nat) (h : c.val < 0x80)
    (h5c : c.val ≠ 0x5C) :
    unquoteLoop (f + 1) (c :: ys) = c :: unquoteLoop f ys := by
  rw [unquoteLoop.eq_def]
  simp only [if_neg h5c, if_pos h]

theorem unq_escape2 (c e b : Byte) (ys : GoString) (f : Nat) (hc : c.val = 0x5C)
    (he : e.val ≠ 0x75) (hb : escapeByte e = some b) :
    unquoteLoop (f + 1) (c :: e :: ys) = b :: unquoteLoop f ys := by
  rw [unquoteLoop.eq_def]
  simp only [if_pos hc, if_neg he, hb]

theorem unq_escapeU (c u h1 h2 h3 h4 : Byte) (ys : GoString) (f : Nat) (hc : c.val = 0x5C)
    (hu : u.val = 0x75) (e1 : isHex h1 = true) (e2 : isHex h2 = true)
    (e3 : isHex h3 = true) (e4 : isHex h4 = true)
    (hns : ¬ (0xD800 ≤ hexVal h1 * 4096 + hexVal h2 * 256 + hexVal h3 * 16 + hexVal h4
      ∧ hexVal h1 * 4096 + hexVal h2 * 256 + hexVal h3 * 16 + hexVal h4 < 0xE000)) :
    unquoteLoop (f + 1) (c :: u :: h1 :: h2 :: h3 :: h4 :: ys)
      = EncodeRune (hexVal h1 * 4096 + hexVal h2 * 256 + hexVal h3 * 16 + hexVal h4)
          ++ unquoteLoop f ys := by
  have hg : getu4 (c :: u :: h1 :: h2 :: h3 :: h4 :: ys)
      = some (hexVal h1 * 4096 + hexVal h2 * 256 + hexVal h3 * 16 + hexVal h4) := by
    simp [getu4, hc, hu, e1, e2, e3, e4]
  rw [unquoteLoop.eq_def]
  simp only [if_pos hc, if_pos hu, hg, if_neg hns, List.drop_succ_cons, List.drop_zero]

theorem unq_raw (c : Byte) (ys : GoString) (f : Nat) (h : ¬ c.val < 0x80) :
    unquoteLoop (f + 1) (c :: ys)
      = EncodeRune (DecodeRune (c :: ys)).1
          ++ unquoteLoop f ((c :: ys).drop (DecodeRune (c :: ys)).2) := by
  rw [unquoteLoop.eq_def]
  simp only [if_neg (show ¬ c.val = 0x5C by omega), if_neg h]

theorem DecodeRune_ascii (b : Byte) (tl : GoString) (h : b.val < 0x80) :
    DecodeRune (b :: tl) = (b.val, 1) := by
  simp [DecodeRune, h]

theorem ChunkOK_safe (b : Byte) (h : b.val < 0x80) (hs : htmlSafe b = true) :
    ChunkOK [b] [b] := by
  have hs' : 0x20 ≤ b.val ∧ b.val ≠ 0x22 ∧ b.val ≠ 0x5C := by
    simp [htmlSafe] at hs; omega
  refine ⟨fun ys => ?_, fun f ys => ?_, le_refl _⟩
  · exact scan_plain_cons b ys hs'.2.1 hs'.2.2 (by omega)
  · exact unq_ascii b ys f h hs'.2.2

theorem ChunkOK_escape2 (b e : Byte)
    (he : e.val = 0x62 ∨ e.val = 0x66 ∨ e.val = 0x6E ∨ e.val = 0x72 ∨ e.val = 0x74
      ∨ e.val = 0x5C ∨ e.val = 0x2F ∨ e.val = 0x22)
    (hb : escapeByte e = some b) : ChunkOK [0x5C, e] [b] := by
  refine ⟨fun ys => ?_, fun f ys => ?_, by simp⟩
  · exact scan_escape2 0x5C e ys rfl he
  · exact unq_escape2 0x5C e b ys f rfl (by omega) hb

theorem ChunkOK_escapeU (h1 h2 h3 h4 : Byte) (consumed : GoString) (e1 : isHex h1 = true)
    (e2 : isHex h2 = true) (e3 : isHex h3 = true) (e4 : isHex h4 = true)
    (hns : ¬ (0xD800 ≤ hexVal h1 * 4096 + hexVal h2 * 256 + hexVal h3 * 16 + hexVal h4
      ∧ hexVal h1 * 4096 + hexVal h2 * 256 + hexVal h3 * 16 + hexVal h4 < 0xE000))
    (henc : EncodeRune (hexVal h1 * 4096 + hexVal h2 * 256 + hexVal h3 * 16 + hexVal h4)
      = consumed)
    (hlen : consumed.length ≤ 6) :
    ChunkOK [0x5C, 0x75, h1, h2, h3, h4] consumed := by
  refine ⟨fun ys => ?_, fun f ys => ?_, by simpa using hlen⟩
  · exact scan_escapeU 0x5C 0x75 h1 h2 h3 h4 ys rfl rfl e1 e2 e3 e4
  · rw [← henc]
    exact unq_escapeU 0x5C 0x75 h1 h2 h3 h4 ys f rfl rfl e1 e2 e3 e4 hns

theorem ChunkOK_escapeASCII (b : Byte) (h : b.val < 0x80) (hs : htmlSafe b = false) :
    ChunkOK (escapeASCII b) [b] := by
  unfold escapeASCII
  split_ifs with c1 c2 c3 c4 c5 c6
  · refine ChunkOK_escape2 b b (by omega) ?_
    unfold escapeByte; rw [if_pos (by omega)]
  · have : b = 0x08 := Fin.ext c2
    subst this; exact ChunkOK_escape2 _ _ (by decide) (by decide)
  · have : b = 0x0C := Fin.ext c3
    subst this; exact ChunkOK_escape2 _ _ (by decide) (by decide)
  · have : b = 0x0A := Fin.ext c4
    subst this; exact ChunkOK_escape2 _ _ (by decide) (by decide)
  · have : b = 0x0D := Fin.ext c5
    subst this; exact ChunkOK_escape2 _ _ (by decide) (by decide)
  · have : b = 0x09 := Fin.ext c6
    subst this; exact ChunkOK_escape2 _ _ (by decide) (by decide)
  · have hhi := hexDigit_spec (b.val / 16) (by omega)
    have hlo := hexDigit_spec (b.val % 16) (by omega)
    have h30 : isHex (0x30 : Byte) = true ∧ hexVal (0x30 : Byte) = 0 := by decide
    have hval : hexVal (0x30 : Byte) * 4096 + hexVal (0x30 : Byte) * 256
        + hexVal (hexDigit (b.val / 16)) * 16 + hexVal (hexDigit (b.val % 16)) = b.val := by
      rw [h30.2, hhi.2, hlo.2]; omega
    refine ChunkOK_escapeU _ _ _ _ [b] h30.1 h30.1 hhi.1 hlo.1 ?_ ?_ (by simp)
    · rw [hval]; omega
    · rw [hval]
      unfold EncodeRune
      rw [if_pos (by omega), byteOf_eq _ b rfl]

theorem ChunkOK_raw (b : Byte) (tl : GoString) (hb : ¬ b.val < 0x80)
    (hv : DecodeRune (b :: tl) ≠ (RuneError, 1)) :
    ChunkOK ((b :: tl).take (DecodeRune (b :: tl)).2) ((b :: tl).take (DecodeRune (b :: tl)).2) := by
  obtain ⟨h2, hlen, hall, henc, hdec⟩ := DecodeRune_valid b tl hb hv
  refine ⟨fun ys => scan_plain _ ys hall, fun f ys => ?_, le_refl _⟩
  obtain ⟨w, hw⟩ : ∃ w, (DecodeRune (b :: tl)).2 = w + 1 := ⟨(DecodeRune (b :: tl)).2 - 1, by omega⟩
  have htake : (b :: tl).take (DecodeRune (b :: tl)).2 = b :: tl.take w := by
    rw [hw, List.take_succ_cons]
  have hd := hdec ys
  rw [htake] at hd henc ⊢
  rw [List.cons_append] at hd
  rw [List.cons_append, unq_raw b _ f hb, hd, henc]
  congr 1
  have hl : (b :: tl.take w).length = (DecodeRune (b :: tl)).2 := by
    rw [← htake, List.length_take]; omega
  rw [← List.cons_append, List.drop_left' hl]

theorem ChunkOK_linesep (b : Byte) (tl : GoString) (hb : ¬ b.val < 0x80)
    (hv : DecodeRune (b :: tl) ≠ (RuneError, 1))
    (hr : (DecodeRune (b :: tl)).1 = 0x2028 ∨ (DecodeRune (b :: tl)).1 = 0x2029) :
    ChunkOK [0x5C, 0x75, 0x32, 0x30, 0x32, hexDigit ((DecodeRune (b :: tl)).1 % 16)]
      ((b :: tl).take (DecodeRune (b :: tl)).2) := by
  obtain ⟨h2, hlen, hall, henc, hdec⟩ := DecodeRune_valid b tl hb hv
  have hlo := hexDigit_spec ((DecodeRune (b :: tl)).1 % 16) (by omega)
  have h32 : isHex (0x32 : Byte) = true ∧ hexVal (0x32 : Byte) = 2 := by decide
  have h30 : isHex (0x30 : Byte) = true ∧ hexVal (0x30 : Byte) = 0 := by decide
  have hval : hexVal (0x32 : Byte) * 4096 + hexVal (0x30 : Byte) * 256
      + hexVal (0x32 : Byte) * 16 + hexVal (hexDigit ((DecodeRune (b :: tl)).1 % 16))
      = (DecodeRune (b :: tl)).1 := by
    rw [h32.2, h30.2, hlo.2]; omega
  refine ChunkOK_escapeU _ _ _ _ _ h32.1 h30.1 h32.1 hlo.1 ?_ ?_ ?_
  · rw [hval]; omega
  · rw [hval]; exact henc
  · rw [← henc]
    rcases hr with hr | hr <;> rw [hr] <;> decide

/-- One turn of the loop of `appendString` on a string whose first rune is
well formed: it writes a chunk for the bytes of that rune. -/
theorem appendStringLoop_step (n : Nat) (b : Byte) (tl : GoString)
    (hv : DecodeRune (b :: tl) ≠ (RuneError, 1)) :
    ∃ chunk, appendStringLoop (n + 1) (b :: tl)
        = chunk ++ appendStringLoop n ((b :: tl).drop (DecodeRune (b :: tl)).2)
      ∧ ChunkOK chunk ((b :: tl).take (DecodeRune (b :: tl)).2) := by
  by_cases hb : b.val < 0x80
  · have hd := DecodeRune_ascii b tl hb
    rw [hd]
    simp only [List.take_succ_cons, List.take_zero, List.drop_succ_cons, List.drop_zero]
    by_cases hs : htmlSafe b = true
    · exact ⟨[b], by rw [appendStringLoop, if_pos hb, if_pos hs], ChunkOK_safe b hb hs⟩
    · exact ⟨escapeASCII b, by rw [appendStringLoop, if_pos hb, if_neg hs],
        ChunkOK_escapeASCII b hb (by simpa using hs)⟩
  · by_cases hr : (DecodeRune (b :: tl)).1 = 0x2028 ∨ (DecodeRune (b :: tl)).1 = 0x2029
    · exact ⟨_, by rw [appendStringLoop, if_neg hb, if_neg hv, if_pos hr],
        ChunkOK_linesep b tl hb hv hr⟩
    · exact ⟨_, by rw [appendStringLoop, if_neg hb, if_neg hv, if_neg hr],
        ChunkOK_raw b tl hb hv⟩

theorem appendStringLoop_nil (n : Nat) : appendStringLoop n [] = [] := by
  cases n <;> rfl

theorem unquoteLoop_nil (f : Nat) : unquoteLoop f [] = [] := by
  cases f <;> rfl

theorem validLoop_cons {n : Nat} {b : Byte} {tl : GoString}
    (hv : validLoop (n + 1) (b :: tl) = true) :
    DecodeRune (b :: tl) ≠ (RuneError, 1)
      ∧ validLoop n ((b :: tl).drop (DecodeRune (b :: tl)).2) = true := by
  simpa [validLoop] using hv

/-- The body `appendString` writes for a valid UTF-8 string is read by the
scanner as the content of one string literal. -/
theorem scan_appendStringLoop (n : Nat) (s rest : GoString) (hv : validLoop n s = true) :
    scanString .normal (appendStringLoop n s ++ 0x22 :: rest)
      = some (appendStringLoop n s, rest) := by
  induction n generalizing s with
  | zero =>
    cases s with
    | nil => exact scan_quote _ _ rfl
    | cons b tl => simp [validLoop] at hv
  | succ n ih =>
    cases s with
    | nil => exact scan_quote _ _ rfl
    | cons b tl =>
      obtain ⟨hd, hrest⟩ := validLoop_cons hv
      obtain ⟨chunk, hstep, hscan, -, -⟩ := appendStringLoop_step n b tl hd
      rw [hstep, List.append_assoc, hscan, ih _ hrest]
      rfl

/-- The function `unquoteBytes` gives a valid UTF-8 string back from the body
`appendString` wrote for it. -/
theorem unquoteLoop_appendStringLoop (n : Nat) (s : GoString) (f : Nat)
    (hv : validLoop n s = true) (hf : n ≤ f) :
    unquoteLoop f (appendStringLoop n s) = s := by
  induction n generalizing s f with
  | zero =>
    cases s with
    | nil => exact unquoteLoop_nil f
    | cons b tl => simp [validLoop] at hv
  | succ n ih =>
    cases s with
    | nil => rw [appendStringLoop_nil]; exact unquoteLoop_nil f
    | cons b tl =>
      obtain ⟨hd, hrest⟩ := validLoop_cons hv
      obtain ⟨chunk, hstep, -, hunq, -⟩ := appendStringLoop_step n b tl hd
      obtain ⟨f1, rfl⟩ : ∃ f1, f = f1 + 1 := ⟨f - 1, by omega⟩
      rw [hstep, hunq, ih _ f1 hrest (by omega), List.take_append_drop]

theorem length_le_appendStringLoop (n : Nat) (s : GoString) (hv : validLoop n s = true) :
    s.length ≤ (appendStringLoop n s).length := by
  induction n generalizing s with
  | zero =>
    cases s with
    | nil => simp
    | cons b tl => simp [validLoop] at hv
  | succ n ih =>
    cases s with
    | nil => simp
    | cons b tl =>
      obtain ⟨hd, hrest⟩ := validLoop_cons hv
      obtain ⟨chunk, hstep, -, -, hlen⟩ := appendStringLoop_step n b tl hd
      have h1 := ih _ hrest
      have h2 : (b :: tl).length
          = ((b :: tl).take (DecodeRune (b :: tl)).2).length
            + ((b :: tl).drop (DecodeRune (b :: tl)).2).length := by
        rw [← List.length_append, List.take_append_drop]
      rw [hstep, List.length_append, h2]
      omega

theorem validLoop_mono (n m : Nat) (s : GoString) (hv : validLoop n s = true) (h : n ≤ m) :
    validLoop m s = true := by
  induction n generalizing s m with
  | zero =>
    cases s with
    | nil => cases m <;> rfl
    | cons b tl => simp [validLoop] at hv
  | succ n ih =>
    cases s with
    | nil => cases m <;> rfl
    | cons b tl =>
      obtain ⟨m1, rfl⟩ : ∃ m1, m = m1 + 1 := ⟨m - 1, by omega⟩
      obtain ⟨hd, hrest⟩ := validLoop_cons hv
      simp only [validLoop, Bool.and_eq_true, decide_eq_true_eq]
      exact ⟨hd, ih _ _ hrest (by omega)⟩

/-- A valid UTF-8 key survives `appendString` followed by the scanner and
`unquoteBytes`. -/
theorem unquote_appendString (s : GoString) (hv : ValidString s = true) :
    unquote (appendStringLoop s.length s) = s := by
  unfold unquote
  exact unquoteLoop_appendStringLoop s.length s _ hv (length_le_appendStringLoop _ _ hv)

/-! ## A marshalled integer scans and parses back -/

theorem isDigit_iff (d : Byte) : isDigit d = true ↔ 0x30 ≤ d.val ∧ d.val ≤ 0x39 := by
  simp [isDigit]

theorem digitsVal_append_single (xs : GoString) (d : Byte) :
    digitsVal (xs ++ [d]) = digitsVal xs * 10 + (d.val - 0x30) := by
  simp [digitsVal, List.foldl_append]

theorem byteOf_digit (k : Nat) (hk : k < 10) :
    isDigit (byteOf (0x30 + k)) = true ∧ (byteOf (0x30 + k)).val - 0x30 = k
      ∧ ((byteOf (0x30 + k)).val = 0x30 → k = 0) := by
  have hv : (byteOf (0x30 + k)).val = 0x30 + k := by
    rw [byteOf_val]; omega
  refine ⟨?_, by omega, by omega⟩
  rw [isDigit_iff]; omega

/-- The digits `strconv` writes for `n`: not empty, all decimal digits, with
value `n`, and without a leading zero unless `n` is zero. -/
theorem natDigits_spec (f n : Nat) (hf : 0 < f) (hn : n < 10 ^ f) :
    (∀ d ∈ natDigits f n, isDigit d = true)
      ∧ digitsVal (natDigits f n) = n
      ∧ ((natDigits f n = [0x30] ∧ n = 0)
        ∨ ∃ d tl, natDigits f n = d :: tl ∧ d.val ≠ 0x30 ∧ 0 < n) := by
  induction f generalizing n with
  | zero => omega
  | succ f ih =>
    unfold natDigits
    by_cases h10 : n < 10
    · rw [if_pos h10]
      obtain ⟨h1, h2, h3⟩ := byteOf_digit n h10
      refine ⟨?_, ?_, ?_⟩
      · intro d hd
        rw [List.mem_singleton] at hd; subst hd; exact h1
      · simp [digitsVal, h2]
      · by_cases h0 : n = 0
        · subst h0; exact Or.inl ⟨rfl, rfl⟩
        · exact Or.inr ⟨_, [], rfl, fun h => h0 (h3 h), by omega⟩
    · rw [if_neg h10]
      have hf1 : 0 < f := by
        rcases Nat.eq_zero_or_pos f with h | h
        · subst h; simp at hn; omega
        · exact h
      have hdiv : n / 10 < 10 ^ f := by
        rw [pow_succ] at hn
        exact Nat.div_lt_of_lt_mul (by rw [Nat.mul_comm]; exact hn)
      obtain ⟨i1, i2, i3⟩ := ih (n / 10) hf1 hdiv
      obtain ⟨h1, h2, -⟩ := byteOf_digit (n % 10) (Nat.mod_lt _ (by omega))
      refine ⟨?_, ?_, ?_⟩
      · intro d hd
        rw [List.mem_append, List.mem_singleton] at hd
        rcases hd with hd | hd
        · exact i1 d hd
        · subst hd; exact h1
      · rw [digitsVal_append_single, i2, h2]; omega
      · rcases i3 with ⟨-, h0⟩ | ⟨d, tl, hd, hne, -⟩
        · omega
        · exact Or.inr ⟨d, tl ++ [byteOf (0x30 + n % 10)], by rw [hd]; rfl, hne, by omega⟩

theorem spanDigits_append (ds : GoString) (c : Byte) (rest : GoString)
    (hds : ∀ d ∈ ds, isDigit d = true) (hc : isDigit c = false) :
    spanDigits (ds ++ c :: rest) = (ds, c :: rest) := by
  induction ds with
  | nil => simp [spanDigits, hc]
  | cons d ds ih =>
    have hd := hds d (List.mem_cons_self _ _)
    have := ih (fun x hx => hds x (List.mem_cons_of_mem _ hx))
    simp [spanDigits, hd, this]

theorem natAbs_lt (v : GoInt) : v.val.natAbs < 10 ^ 20 := by
  have h := v.property
  unfold InInt64 at h
  omega

/-- The scanner reads the digits of a number whose integer part they are, up
to a byte that ends the number. -/
theorem scanIntPart_digits (n : Nat) (c : Byte) (rest : GoString) (hn : n < 10 ^ 20)
    (hc : isDigit c = false) :
    scanIntPart (natDigits 20 n ++ c :: rest) = some (natDigits 20 n, c :: rest) := by
  obtain ⟨hall, -, h0 | ⟨d, tl, hd, hne, -⟩⟩ := natDigits_spec 20 n (by omega) hn
  · rw [h0.1]; rfl
  · have hdig := hall d (by rw [hd]; exact List.mem_cons_self _ _)
    have htl : ∀ x ∈ tl, isDigit x = true :=
      fun x hx => hall x (by rw [hd]; exact List.mem_cons_of_mem _ hx)
    rw [hd, List.cons_append]
    unfold scanIntPart
    simp only [if_neg hne, hdig, if_true, spanDigits_append tl c rest htl hc]

theorem scanFrac_end (c : Byte) (rest : GoString) (hc : c.val ≠ 0x2E) :
    scanFrac (c :: rest) = some ([], c :: rest) := by
  simp [scanFrac, hc]

theorem scanExp_end (c : Byte) (rest : GoString) (hc : c.val ≠ 0x65 ∧ c.val ≠ 0x45) :
    scanExp (c :: rest) = some ([], c :: rest) := by
  simp [scanExp, hc.1, hc.2]

theorem appendInt_cases (v : GoInt) :
    (0 ≤ v.val ∧ appendInt v = natDigits 20 v.val.natAbs)
      ∨ (v.val < 0 ∧ appendInt v = 0x2D :: natDigits 20 v.val.natAbs) := by
  unfold appendInt
  by_cases h : v.val < 0
  · right; exact ⟨h, by rw [if_pos h]; rfl⟩
  · left; exact ⟨by omega, by rw [if_neg h]⟩

theorem natDigits_head (n : Nat) (hn : n < 10 ^ 20) :
    ∃ d tl, natDigits 20 n = d :: tl ∧ isDigit d = true := by
  obtain ⟨hall, -, h0 | ⟨d, tl, hd, -, -⟩⟩ := natDigits_spec 20 n (by omega) hn
  · exact ⟨0x30, [], h0.1, by decide⟩
  · exact ⟨d, tl, hd, hall d (by rw [hd]; exact List.mem_cons_self _ _)⟩

/-- The scanner reads a marshalled integer as one number literal. -/
theorem scanNumber_appendInt (v : GoInt) (c : Byte) (rest : GoString) (hc : EndsNumber c) :
    scanNumber (appendInt v ++ c :: rest) = some (appendInt v, c :: rest) := by
  have hcd : isDigit c = false := by
    unfold EndsNumber at hc
    rw [← Bool.not_eq_true, isDigit_iff]; omega
  have hint := scanIntPart_digits v.val.natAbs c rest (natAbs_lt v) hcd
  have hfr := scanFrac_end c rest (by unfold EndsNumber at hc; omega)
  have hex := scanExp_end c rest (by unfold EndsNumber at hc; omega)
  rcases appendInt_cases v with ⟨-, h⟩ | ⟨-, h⟩
  · obtain ⟨d, tl, hd, hdig⟩ := natDigits_head v.val.natAbs (natAbs_lt v)
    have hd2D : d.val ≠ 0x2D := by rw [isDigit_iff] at hdig; omega
    rw [h]
    unfold scanNumber
    have hs : (natDigits 20 v.val.natAbs ++ c :: rest) = d :: (tl ++ c :: rest) := by
      rw [hd]; rfl
    rw [hs]
    simp only [if_neg hd2D]
    rw [← hs, hint]
    simp only [hfr, hex, List.nil_append, List.append_nil]
  · rw [h]
    unfold scanNumber
    simp only [List.cons_append, show ((0x2D : Byte).val = 0x2D) from rfl, if_true, hint, hfr,
      hex, List.append_nil, List.singleton_append, List.nil_append]

/-- `strconv.ParseInt` gives a marshalled integer back. -/
theorem parseInt_appendInt (v : GoInt) : parseInt (appendInt v) = some v := by
  obtain ⟨hall, hval, -⟩ := natDigits_spec 20 v.val.natAbs (by omega) (natAbs_lt v)
  have hall' : (natDigits 20 v.val.natAbs).all isDigit = true := by
    rw [List.all_eq_true]; exact hall
  have hp := v.property
  unfold InInt64 at hp
  rcases appendInt_cases v with ⟨h0, h⟩ | ⟨h0, h⟩
  · obtain ⟨d, tl, hd, hdig⟩ := natDigits_head v.val.natAbs (natAbs_lt v)
    have hd2D : d.val ≠ 0x2D := by rw [isDigit_iff] at hdig; omega
    rw [h, hd]
    rw [hd] at hall' hval
    unfold parseInt
    simp only [if_neg hd2D]
    have hcond : (d :: tl).all isDigit = true ∧ digitsVal (d :: tl) < 2 ^ 63 :=
      ⟨hall', by rw [hval]; omega⟩
    rw [dif_pos hcond]
    congr 1
    apply Subtype.ext
    simp only [hval]
    omega
  · rw [h]
    unfold parseInt
    simp only [show ((0x2D : Byte).val = 0x2D) from rfl, if_true]
    have hne : natDigits 20 v.val.natAbs ≠ [] := by
      obtain ⟨d, tl, hd, -⟩ := natDigits_head v.val.natAbs (natAbs_lt v)
      rw [hd]; exact List.cons_ne_nil _ _
    have hcond : natDigits 20 v.val.natAbs ≠ []
        ∧ (natDigits 20 v.val.natAbs).all isDigit = true
        ∧ digitsVal (natDigits 20 v.val.natAbs) ≤ 2 ^ 63 := ⟨hne, hall', by rw [hval]; omega⟩
    rw [dif_pos hcond]
    congr 1
    apply Subtype.ext
    simp only [hval]
    omega

/-- A marshalled integer starts with a minus sign or a digit. -/
theorem appendInt_head (v : GoInt) :
    ∃ d tl, appendInt v = d :: tl ∧ (d.val = 0x2D ∨ isDigit d = true) := by
  rcases appendInt_cases v with ⟨-, h⟩ | ⟨-, h⟩
  · obtain ⟨d, tl, hd, hdig⟩ := natDigits_head v.val.natAbs (natAbs_lt v)
    exact ⟨d, tl, by rw [h, hd], Or.inr hdig⟩
  · exact ⟨0x2D, _, h, Or.inl rfl⟩

/-! ## A marshalled object parses back -/

theorem skipSpace_cons (c : Byte) (rest : GoString) (h : isJsonSpace c = false) :
    skipSpace (c :: rest) = c :: rest := by
  simp [skipSpace, h]

theorem isJsonSpace_false (c : Byte)
    (h : c.val ≠ 0x20 ∧ c.val ≠ 0x09 ∧ c.val ≠ 0x0D ∧ c.val ≠ 0x0A) :
    isJsonSpace c = false := by
  simp [isJsonSpace, h.1, h.2.1, h.2.2.1, h.2.2.2]

theorem parseValue_number (n depth : Nat) (v : GoInt) (c : Byte) (Y : GoString)
    (hc : EndsNumber c) :
    parseValue (n + 1) depth (appendInt v ++ c :: Y)
      = some (JValue.number (appendInt v), c :: Y) := by
  have hscan := scanNumber_appendInt v c Y hc
  obtain ⟨d, tl, hd, hhead⟩ := appendInt_head v
  have hdv : d.val = 0x2D ∨ (0x30 ≤ d.val ∧ d.val ≤ 0x39) := by
    rcases hhead with h | h
    · exact Or.inl h
    · exact Or.inr ((isDigit_iff d).1 h)
  rw [hd, List.cons_append] at hscan ⊢
  rw [parseValue]
  rw [if_neg (by omega), if_neg (by omega), if_neg (by omega), if_neg (by omega),
    if_neg (by omega), if_neg (by omega), hscan]
  rfl

theorem skipSpace_appendInt (v : GoInt) (rest : GoString) :
    skipSpace (appendInt v ++ rest) = appendInt v ++ rest := by
  obtain ⟨d, tl, hd, hhead⟩ := appendInt_head v
  have hdv : d.val = 0x2D ∨ (0x30 ≤ d.val ∧ d.val ≤ 0x39) := by
    rcases hhead with h | h
    · exact Or.inl h
    · exact Or.inr ((isDigit_iff d).1 h)
  rw [hd, List.cons_append]
  exact skipSpace_cons _ _ (isJsonSpace_false _ (by omega))

/-- One member of a marshalled object, followed by a comma or the closing
brace, as the scanner reads it. -/
theorem parseMembers_member (n depth : Nat) (key : GoString) (v : GoInt) (c : Byte)
    (Y : GoString) (hkey : ValidString key = true) (hc : EndsNumber c) :
    parseMembers (n + 2) depth (appendString key ++ [0x3A] ++ appendInt v ++ c :: Y)
      = if c.val = 0x7D then
          some ([(appendStringLoop key.length key, JValue.number (appendInt v))], Y)
        else
          (parseMembers (n + 1) depth (skipSpace Y)).map fun p =>
            ((appendStringLoop key.length key, JValue.number (appendInt v)) :: p.1, p.2) := by
  have hshape : appendString key ++ [0x3A] ++ appendInt v ++ c :: Y
      = 0x22 :: (appendStringLoop key.length key ++ 0x22 :: (0x3A :: (appendInt v ++ c :: Y))) := by
    simp [appendString]
  have hscan := scan_appendStringLoop key.length key (0x3A :: (appendInt v ++ c :: Y)) hkey
  have hcs : isJsonSpace c = false := by
    unfold EndsNumber at hc
    exact isJsonSpace_false _ (by omega)
  have q22 : ((0x22 : Byte).val = 0x22) := rfl
  have q3A : ((0x3A : Byte).val = 0x3A) := rfl
  rw [hshape, parseMembers]
  rw [if_pos q22, hscan]
  simp only
  rw [skipSpace_cons _ _ (by decide)]
  simp only
  rw [if_pos q3A, skipSpace_appendInt, parseValue_number n depth v c Y hc]
  simp only
  rw [skipSpace_cons _ _ hcs]
  simp only
  unfold EndsNumber at hc
  by_cases h7 : c.val = 0x7D
  · rw [if_pos h7, if_pos h7]
  · rw [if_neg h7, if_neg h7, if_pos (by omega)]

theorem marshalMembers_cons_cons (e e1 : Sigma fun _ : GoString => GoInt)
    (es : List (Sigma fun _ : GoString => GoInt)) :
    marshalMembers (e :: e1 :: es)
      = appendString e.1 ++ [0x3A] ++ appendInt e.2 ++ [0x2C] ++ marshalMembers (e1 :: es) := by
  rw [marshalMembers]
  · intro h; cases h

theorem marshalMembers_head (e : Sigma fun _ : GoString => GoInt)
    (es : List (Sigma fun _ : GoString => GoInt)) :
    ∃ tl, marshalMembers (e :: es) = 0x22 :: tl := by
  cases es with
  | nil => exact ⟨_, by simp [marshalMembers, appendString]; rfl⟩
  | cons e1 es => exact ⟨_, by rw [marshalMembers_cons_cons]; simp [appendString]; rfl⟩

theorem length_le_marshalMembers (es : List (Sigma fun _ : GoString => GoInt)) :
    es.length ≤ (marshalMembers es).length := by
  induction es with
  | nil => simp
  | cons e es ih =>
    cases es with
    | nil => simp [marshalMembers]; omega
    | cons e1 es =>
      rw [marshalMembers_cons_cons]
      simp only [List.length_append, List.length_cons, List.length_nil] at ih ⊢
      omega

/-- The members of a marshalled object with valid UTF-8 keys, up to the
closing brace, as the scanner reads them. -/
theorem parseMembers_marshal (es : List (Sigma fun _ : GoString => GoInt)) (hne : es ≠ [])
    (n depth : Nat) (rest : GoString) (hn : es.length ≤ n)
    (hvalid : ∀ e ∈ es, ValidString e.1 = true) :
    parseMembers (n + 1) depth (marshalMembers es ++ 0x7D :: rest)
      = some (encMembers es, rest) := by
  induction es generalizing n with
  | nil => exact absurd rfl hne
  | cons e es ih =>
    obtain ⟨n1, rfl⟩ : ∃ n1, n = n1 + 1 := ⟨n - 1, by simp at hn; omega⟩
    have hk := hvalid e (List.mem_cons_self _ _)
    cases es with
    | nil =>
      have h := parseMembers_member n1 depth e.1 e.2 0x7D rest hk (Or.inr rfl)
      rw [if_pos (show ((0x7D : Byte).val = 0x7D) from rfl)] at h
      simpa [marshalMembers, encMembers] using h
    | cons e1 es =>
      have hrec := ih (List.cons_ne_nil _ _) n1 (by simp at hn ⊢; omega)
        (fun x hx => hvalid x (List.mem_cons_of_mem _ hx))
      obtain ⟨tl, htl⟩ := marshalMembers_head e1 es
      have hskip : skipSpace (marshalMembers (e1 :: es) ++ 0x7D :: rest)
          = marshalMembers (e1 :: es) ++ 0x7D :: rest := by
        rw [htl, List.cons_append]; exact skipSpace_cons _ _ (by decide)
      have h := parseMembers_member n1 depth e.1 e.2 0x2C
        (marshalMembers (e1 :: es) ++ 0x7D :: rest) hk (Or.inl rfl)
      rw [if_neg (by decide), hskip, hrec] at h
      rw [marshalMembers_cons_cons]
      simpa [encMembers] using h

theorem readValue_object (es : List (Sigma fun _ : GoString => GoInt))
    (hv : ∀ e ∈ es, ValidString e.1 = true) :
    readValue (0x7B :: (marshalMembers es ++ [0x7D]))
      = some (JValue.object (encMembers es), []) := by
  unfold readValue
  simp only [List.length_cons]
  rw [skipSpace_cons _ _ (by decide)]
  have hlen := length_le_marshalMembers es
  rw [show ∀ k : Nat, 2 * (k + 1) + 2 = (2 * (k + 1) + 1) + 1 from fun _ => rfl]
  rw [parseValue, if_pos (show ((0x7B : Byte).val = 0x7B) from rfl), if_neg (by decide)]
  cases es with
  | nil => rfl
  | cons e es =>
    obtain ⟨tl, htl⟩ := marshalMembers_head e es
    have hpm := parseMembers_marshal (e :: es) (List.cons_ne_nil _ _)
      (2 * ((marshalMembers (e :: es) ++ [(0x7D : Byte)]).length + 1)) (0 + 1) [] (by
        simp only [List.length_append, List.length_cons, List.length_nil] at hlen ⊢
        omega) hv
    rw [htl, List.cons_append] at hpm ⊢
    rw [skipSpace_cons _ _ (by decide)]
    simp only
    rw [if_neg (by decide), hpm]
    rfl

theorem parseDocument_Marshal (t : Table) (hvalid : ∀ e ∈ t.entries, ValidString e.1 = true) :
    readValue (Marshal (some t))
        = some (JValue.object
            (encMembers (t.entries.insertionSort fun a b => strLe a.1 b.1)), [])
      ∧ parseDocument (Marshal (some t))
        = some (JValue.object
            (encMembers (t.entries.insertionSort fun a b => strLe a.1 b.1))) := by
  have hperm := List.perm_insertionSort (fun a b : Sigma fun _ : GoString => GoInt =>
    strLe a.1 b.1 = true) t.entries
  have hv : ∀ e ∈ (t.entries.insertionSort fun a b => strLe a.1 b.1),
      ValidString e.1 = true := fun e he => hvalid e (hperm.mem_iff.1 he)
  have hread : readValue (Marshal (some t))
      = some (JValue.object
          (encMembers (t.entries.insertionSort fun a b => strLe a.1 b.1)), []) := by
    have h := readValue_object _ hv
    simpa [Marshal] using h
  refine ⟨hread, ?_⟩
  unfold parseDocument
  rw [hread]
  rfl

theorem storeMembers_encMembers (es : List (Sigma fun _ : GoString => GoInt))
    (hv : ∀ e ∈ es, ValidString e.1 = true) (t0 : Table) (err : Bool) :
    storeMembers (encMembers es) t0 err = (copyEntries es t0, err) := by
  induction es generalizing t0 err with
  | nil => rfl
  | cons e es ih =>
    have hk := hv e (List.mem_cons_self _ _)
    have hstore : storeInt (JValue.number (appendInt e.2)) = (e.2, false) := by
      simp [storeInt, parseInt_appendInt]
    simp only [encMembers, List.map_cons, storeMembers, copyEntries]
    rw [unquote_appendString e.1 hk, hstore]
    simp only [Bool.or_false]
    exact ih (fun x hx => hv x (List.mem_cons_of_mem _ hx)) _ _

/-- Decoding what `json.Marshal` wrote for a table whose words are valid
UTF-8, into an empty map, gives without error a table with the same words
and counts; this holds for `json.Unmarshal` and for `Decoder.Decode`. -/
theorem Unmarshal_Marshal (t : Table) (hvalid : ∀ k ∈ t.keys, ValidString k = true) :
    ∃ t1, Unmarshal (Marshal (some t)) (some makeMap) = (some t1, false)
      ∧ Decode (Marshal (some t)) (some makeMap) = (some t1, false)
      ∧ ∀ w, t1.lookup w = t.lookup w := by
  have hve : ∀ e ∈ t.entries, ValidString e.1 = true := by
    intro e he
    exact hvalid e.1 (List.mem_keys_of_mem he)
  have hperm := List.perm_insertionSort (fun a b : Sigma fun _ : GoString => GoInt =>
    strLe a.1 b.1 = true) t.entries
  have hv : ∀ e ∈ (t.entries.insertionSort fun a b => strLe a.1 b.1),
      ValidString e.1 = true := fun e he => hve e (hperm.mem_iff.1 he)
  have hnd : (t.entries.insertionSort fun a b => strLe a.1 b.1).NodupKeys :=
    (List.perm_nodupKeys hperm).2 t.nodupKeys
  obtain ⟨hread, hdoc⟩ := parseDocument_Marshal t hve
  have hstore := storeMembers_encMembers _ hv makeMap false
  refine ⟨copyEntries (t.entries.insertionSort fun a b => strLe a.1 b.1) makeMap, ?_, ?_, ?_⟩
  · unfold Unmarshal
    rw [hdoc]
    simp only [decodeMap, Option.getD_some, hstore]
  · unfold Decode
    rw [hread]
    simp only [decodeMap, Option.getD_some, hstore]
  · intro w
    rw [copyEntries_lookup _ hnd, List.perm_dlookup w hnd t.nodupKeys hperm]
    show (t.lookup w).orElse _ = _
    cases t.lookup w <;> simp [makeMap]

/-- The snapshot round trip on valid UTF-8: when every word of the leader's
(non-nil) table is valid UTF-8, a successful `backup` followed by `restore` on
a fresh leader reading the written file returns no error and yields a table
with the same words and the same counts. -/
theorem snapshot_round_trip_valid (t : Table) (nb : Bool)
    (hvalid : ∀ k ∈ t.keys, ValidString k = true) :
    (BaseLeader.restore (NewLeader none)
        ((BaseLeader.backup { wordCount := some t, needsBackup := nb } WriteOutcome.ok).2.1)).2
        = false
      ∧ ∀ w, (NewLeader
          ((BaseLeader.backup { wordCount := some t, needsBackup := nb } WriteOutcome.ok).2.1)
          ).GetWordCount w
        = BaseLeader.GetWordCount { wordCount := some t, needsBackup := nb } w := by
  obtain ⟨t1, hun, -, hlook⟩ := Unmarshal_Marshal t hvalid
  have hfile : (BaseLeader.backup { wordCount := some t, needsBackup := nb }
      WriteOutcome.ok).2.1 = some (Marshal (some t)) := rfl
  rw [hfile]
  constructor
  · show (Unmarshal (Marshal (some t)) (some makeMap)).2 = false
    rw [hun]
  · intro w
    have hnew : NewLeader (some (Marshal (some t)))
        = { wordCount := some t1, needsBackup := false } := by
      show BaseLeader.mk (Unmarshal (Marshal (some t)) (some makeMap)).1 false = _
      rw [hun]
    rw [hnew, GetWordCount_eq_get, GetWordCount_eq_get]
    show Table.get t1 w = Table.get t w
    unfold Table.get; rw [hlook w]

/-! ## The fields of a valid UTF-8 text are valid UTF-8 -/

/-- A rune that decodes without error spans at least one byte inside the
string, and decodes the same whatever follows its bytes. -/
theorem DecodeRune_head (b : Byte) (tl : GoString)
    (hv : DecodeRune (b :: tl) ≠ (RuneError, 1)) :
    1 ≤ (DecodeRune (b :: tl)).2 ∧ (DecodeRune (b :: tl)).2 ≤ (b :: tl).length
      ∧ ∀ tail, DecodeRune ((b :: tl).take (DecodeRune (b :: tl)).2 ++ tail)
          = DecodeRune (b :: tl) := by
  by_cases hb : b.val < 0x80
  · rw [DecodeRune_ascii b tl hb]
    refine ⟨le_refl _, by simp, fun tail => ?_⟩
    simp only [List.take_succ_cons, List.take_zero, List.cons_append, List.nil_append]
    exact DecodeRune_ascii b tail hb
  · obtain ⟨h2, hlen, -, -, hdec⟩ := DecodeRune_valid b tl hb hv
    exact ⟨by omega, hlen, hdec⟩

theorem validLoop_append (n m : Nat) (a b : GoString) (ha : validLoop n a = true)
    (hb : validLoop m b = true) : validLoop (n + m) (a ++ b) = true := by
  induction n generalizing a with
  | zero =>
    cases a with
    | nil => simpa using hb
    | cons x a1 => simp [validLoop] at ha
  | succ n ih =>
    cases a with
    | nil => exact validLoop_mono m _ b hb (by omega)
    | cons x a1 =>
      obtain ⟨hd, hrest⟩ := validLoop_cons ha
      obtain ⟨h1, hlen, hdec⟩ := DecodeRune_head x a1 hd
      have hsplit : (x :: a1) ++ b
          = (x :: a1).take (DecodeRune (x :: a1)).2
            ++ ((x :: a1).drop (DecodeRune (x :: a1)).2 ++ b) := by
        rw [← List.append_assoc, List.take_append_drop]
      have hdec2 : DecodeRune ((x :: a1) ++ b) = DecodeRune (x :: a1) := by
        rw [hsplit]; exact hdec _
      have hdrop : ((x :: a1) ++ b).drop (DecodeRune (x :: a1)).2
          = (x :: a1).drop (DecodeRune (x :: a1)).2 ++ b :=
        List.drop_append_of_le_length hlen
      have hstep := ih _ hrest
      rw [show n + 1 + m = (n + m) + 1 by omega]
      rw [List.cons_append] at hdec2 hdrop ⊢
      simp only [validLoop, Bool.and_eq_true, decide_eq_true_eq]
      rw [hdec2, hdrop]
      exact ⟨hd, hstep⟩

theorem ValidString_append (a b : GoString) (ha : ValidString a = true)
    (hb : ValidString b = true) : ValidString (a ++ b) = true := by
  unfold ValidString at *
  rw [List.length_append]
  exact validLoop_append _ _ a b ha hb

theorem ValidString_rune (b : Byte) (tl : GoString)
    (hv : DecodeRune (b :: tl) ≠ (RuneError, 1)) :
    ValidString ((b :: tl).take (DecodeRune (b :: tl)).2) = true := by
  obtain ⟨h1, hlen, hdec⟩ := DecodeRune_head b tl hv
  obtain ⟨w, hw⟩ : ∃ w, (DecodeRune (b :: tl)).2 = w + 1 :=
    ⟨(DecodeRune (b :: tl)).2 - 1, by omega⟩
  have hd := hdec []
  rw [List.append_nil] at hd
  unfold ValidString
  have hl : ((b :: tl).take (DecodeRune (b :: tl)).2).length = w + 1 := by
    rw [List.length_take]; omega
  rw [hl]
  have htake : (b :: tl).take (DecodeRune (b :: tl)).2 = b :: tl.take w := by
    rw [hw, List.take_succ_cons]
  rw [htake] at hd ⊢
  simp only [validLoop, Bool.and_eq_true, decide_eq_true_eq]
  rw [hd]
  refine ⟨hv, ?_⟩
  have : (b :: tl.take w).drop (DecodeRune (b :: tl)).2 = [] := by
    apply List.drop_eq_nil_of_le
    simp only [List.length_cons, List.length_take]; omega
  rw [this]
  cases w <;> rfl

theorem ValidString_nil : ValidString [] = true := rfl

theorem ValidString_ascii (s : GoString) (h : ∀ b ∈ s, b.val < 0x80) :
    ValidString s = true := by
  induction s with
  | nil => rfl
  | cons b tl ih =>
    have hb := h b (List.mem_cons_self _ _)
    have h1 : ValidString [b] = true := by
      have := ValidString_rune b [] (by rw [DecodeRune_ascii b [] hb]; simp [RuneError]; omega)
      rw [DecodeRune_ascii b [] hb] at this
      simpa using this
    have := ValidString_append [b] tl h1 (ih (fun x hx => h x (List.mem_cons_of_mem _ hx)))
    simpa using this

theorem fieldsASCII_bytes (s : GoString) (cur : Option GoString)
    (hs : ∀ b ∈ s, b.val < 0x80) (hc : ∀ c, cur = some c → ∀ b ∈ c, b.val < 0x80) :
    ∀ w ∈ fieldsASCII s cur, ∀ b ∈ w, b.val < 0x80 := by
  induction s generalizing cur with
  | nil =>
    cases cur with
    | none => simp [fieldsASCII]
    | some c =>
      intro w hw
      simp only [fieldsASCII, List.mem_singleton] at hw
      subst hw; exact hc w rfl
  | cons x s ih =>
    have hx := hs x (List.mem_cons_self _ _)
    have hs' : ∀ b ∈ s, b.val < 0x80 := fun b hb => hs b (List.mem_cons_of_mem _ hb)
    intro w hw
    unfold fieldsASCII at hw
    split at hw
    · cases cur with
      | none => exact ih none hs' (by simp) w hw
      | some c =>
        simp only [List.mem_cons] at hw
        rcases hw with rfl | hw
        · exact hc w rfl
        · exact ih none hs' (by simp) w hw
    · refine ih _ hs' ?_ w hw
      intro c hcur b hb
      simp only [Option.some.injEq] at hcur
      subst hcur
      rw [List.mem_append, List.mem_singleton] at hb
      rcases hb with hb | rfl
      · cases cur with
        | none => simp at hb
        | some c0 => exact hc c0 rfl b (by simpa using hb)
      · exact hx

theorem fieldsFuncLoop_valid (f : Nat → Bool) (n : Nat) (s : GoString) (cur : Option GoString)
    (hs : validLoop n s = true) (hc : ∀ c, cur = some c → ValidString c = true) :
    ∀ w ∈ fieldsFuncLoop f n s cur, ValidString w = true := by
  induction n generalizing s cur with
  | zero =>
    cases cur with
    | none => simp [fieldsFuncLoop]
    | some c =>
      intro w hw
      simp only [fieldsFuncLoop, List.mem_singleton] at hw
      subst hw; exact hc w rfl
  | succ n ih =>
    cases s with
    | nil =>
      cases cur with
      | none => simp [fieldsFuncLoop]
      | some c =>
        intro w hw
        simp only [fieldsFuncLoop, List.mem_singleton] at hw
        subst hw; exact hc w rfl
    | cons b tl =>
      obtain ⟨hd, hrest⟩ := validLoop_cons hs
      intro w hw
      unfold fieldsFuncLoop at hw
      simp only at hw
      split at hw
      · cases cur with
        | none => exact ih _ none hrest (by simp) w hw
        | some c =>
          simp only [List.mem_cons] at hw
          rcases hw with rfl | hw
          · exact hc w rfl
          · exact ih _ none hrest (by simp) w hw
      · refine ih _ _ hrest ?_ w hw
        intro c hcur
        simp only [Option.some.injEq] at hcur
        subst hcur
        apply ValidString_append
        · cases cur with
          | none => exact ValidString_nil
          | some c0 => exact hc c0 rfl
        · exact ValidString_rune b tl hd

/-- Every field `strings.Fields` cuts from a valid UTF-8 text is valid
UTF-8. -/
theorem Fields_valid (s : GoString) (hs : ValidString s = true) :
    ∀ w ∈ Fields s, ValidString w = true := by
  intro w hw
  unfold Fields at hw
  split at hw
  · rename_i hall
    rw [List.all_eq_true] at hall
    have hb : ∀ b ∈ s, b.val < 0x80 := fun b hb => by simpa using hall b hb
    exact ValidString_ascii w (fieldsASCII_bytes s none hb (by simp) w hw)
  · exact fieldsFuncLoop_valid IsSpace s.length s none hs (by simp) w hw

/-! ## Follower against leader, over the wire -/

set_option maxRecDepth 100000 in
/-- C9, the claim as stated fails: the leader ingests `"a"` (its delta is
pushed and in flight), the follower does its resync and gets `a: 1`, then the
body in flight is delivered: the follower counts 2 for `a`, the leader 1. -/
theorem follower_ahead_after_resync :
    ∃ s, Net.run [Action.ingest (ascii "a"), Action.resync, Action.deliverStale 0] Net.init
        = some s
      ∧ (s.leader.GetWordCount (ascii "a")).val = 1
      ∧ (s.follower.GetWordCount (ascii "a")).val = 2 :=
  ⟨_, rfl, by decide, by decide⟩

theorem Table.mem_keys_of_lookup_eq {t1 t2 : Table} (h : ∀ w, t1.lookup w = t2.lookup w)
    (w : GoString) : w ∈ t1.keys ↔ w ∈ t2.keys := by
  rw [← AList.mem_keys, ← AList.mem_keys, ← AList.lookup_isSome, ← AList.lookup_isSome, h w]

theorem Table.get_of_lookup_eq {t1 t2 : Table} (h : ∀ w, t1.lookup w = t2.lookup w)
    (w : GoString) : Table.get t1 w = Table.get t2 w := by
  unfold Table.get; rw [h w]

/-- The update handler on the body the leader marshals for a delta whose
words are valid UTF-8: 202, and the delta is added to the follower's table. -/
theorem updateHandler_Marshal (F d : Table) (hvalid : ∀ k ∈ d.keys, ValidString k = true) :
    ∃ F1, updateHandler { wordCount := some F } (Marshal (some d))
        = some ({ wordCount := some F1 }, 202)
      ∧ (∀ w, (Table.get F1 w).val = wrapInt64 ((Table.get F w).val + (Table.get d w).val))
      ∧ (∀ w, w ∈ F1.keys ↔ w ∈ F.keys ∨ w ∈ d.keys) := by
  obtain ⟨d1, -, hdec, hlook⟩ := Unmarshal_Marshal d hvalid
  obtain ⟨F1, hrun, hg, hk⟩ := applyDelta_some d1 F
  refine ⟨F1, ?_, ?_, ?_⟩
  · rw [updateHandler_of_decode _ _ _ hdec, hrun]; rfl
  · intro w; rw [hg w, Table.get_of_lookup_eq hlook w]
  · intro w; rw [hk w, Table.mem_keys_of_lookup_eq hlook w]

/-- The startup resync against a leader whose words are valid UTF-8: no
error, and the follower's table has the leader's words and counts. -/
theorem requestLeaderSync_sync (prev : BaseReplica) (L : Table) (nb : Bool)
    (hvalid : ∀ k ∈ L.keys, ValidString k = true) :
    ∃ F1, requestLeaderSync prev
        (some (syncReplicaHandler { wordCount := some L, needsBackup := nb }))
        = ({ wordCount := some F1 }, false)
      ∧ ∀ w, F1.lookup w = L.lookup w := by
  have hcopy := GetWordsCounts_lookup L nb
  have hv : ∀ k ∈ (BaseLeader.GetWordsCounts { wordCount := some L, needsBackup := nb }).keys,
      ValidString k = true :=
    fun k hk => hvalid k ((Table.mem_keys_of_lookup_eq hcopy k).1 hk)
  obtain ⟨F1, -, hdec, hlook⟩ := Unmarshal_Marshal _ hv
  refine ⟨F1, ?_, fun w => by rw [hlook w, hcopy w]⟩
  unfold requestLeaderSync syncReplicaHandler
  simp only [ne_eq, not_true_eq_false, if_false, hdec, Bool.false_eq_true]
  rfl

theorem eraseIdx_map {α β : Type} (g : α → β) (l : List α) (i : Nat) :
    (l.map g).eraseIdx i = (l.eraseIdx i).map g := by
  induction l generalizing i with
  | nil => rfl
  | cons x xs ih =>
    cases i with
    | zero => rfl
    | succ j => simp [List.eraseIdx, ih]

theorem get?_map_some {α β : Type} (g : α → β) (l : List α) (i : Nat) (y : β)
    (h : (l.map g).get? i = some y) : ∃ x, l.get? i = some x ∧ g x = y := by
  induction l generalizing i with
  | nil => simp at h
  | cons x xs ih =>
    cases i with
    | zero => exact ⟨x, rfl, by simpa using h⟩
    | succ j => exact ih j (by simpa using h)

theorem Net.Inv_init : Net.init.Inv := by
  refine ⟨makeMap, false, makeMap, [], rfl, rfl, ?_, ?_, rfl, ?_⟩
  · intro k hk; simp [makeMap] at hk
  · intro d hd; simp at hd
  · intro w
    refine ⟨le_refl _, ?_, ?_⟩
    · intro d hd; simp at hd
    · simp [sumGet]

theorem Net.Inv_ingest (s : Net) (text : GoString) (hinv : s.Inv)
    (hvalid : ValidString text = true) (hfit : ingestFits s.leader text = true) :
    ∃ s1, Net.step s (Action.ingest text) = some s1 ∧ s1.Inv := by
  obtain ⟨L, nb, F, ds, hl, hf, hLv, hdv, hfresh, hF⟩ := hinv
  by_cases hval : validateInput text = true
  · refine ⟨s, ?_, L, nb, F, ds, hl, hf, hLv, hdv, hfresh, hF⟩
    simp only [Net.step, countWordsHandler, hval, if_true]
  · rw [hl] at hfit
    obtain ⟨t1, d, hrun, ht, hd, hkt, hkd⟩ := CountWords_some L nb text
    have hnum : ∀ w, (Table.get d w).val = ((Fields text).count w : Nat)
        ∧ (Table.get t1 w).val = (Table.get L w).val + ((Fields text).count w : Nat)
        ∧ 0 ≤ (Table.get L w).val := by
      intro w
      obtain ⟨h0, hds, hle⟩ := hF w
      have hfitw := ingestFits_spec L nb text w hfit
      have hs := sumGet_nonneg w ds hds
      refine ⟨?_, ?_, by omega⟩
      · rw [hd w]; exact wrapInt64_of_inRange ⟨by omega, by omega⟩
      · rw [ht w]; exact wrapInt64_of_inRange ⟨by omega, by omega⟩
    have hLv1 : ∀ k ∈ t1.keys, ValidString k = true := by
      intro k hk
      rcases (hkt k).1 hk with h | h
      · exact hLv k h
      · exact Fields_valid text hvalid k h
    have hdvd : ∀ k ∈ AList.keys d, ValidString k = true :=
      fun k hk => Fields_valid text hvalid k ((hkd k).1 hk)
    by_cases hlen : d.entries.length > 0
    · refine ⟨{ s with leader := { wordCount := some t1, needsBackup := true },
                       fresh := Marshal (some d) :: s.fresh }, ?_,
        t1, true, F, d :: ds, rfl, hf, hLv1, ?_, ?_, ?_⟩
      · simp only [Net.step, countWordsHandler, hval, hl, hrun, replicate, hlen, if_true]
        rfl
      · intro x hx
        rcases List.mem_cons.1 hx with rfl | hx
        · exact hdvd
        · exact hdv x hx
      · simp only [List.map_cons, hfresh]
      · intro w
        obtain ⟨h0, hds, hle⟩ := hF w
        obtain ⟨hdw, htw, -⟩ := hnum w
        refine ⟨h0, ?_, ?_⟩
        · intro x hx
          rcases List.mem_cons.1 hx with rfl | hx
          · rw [hdw]; omega
          · exact hds x hx
        · rw [sumGet_cons, hdw, htw]; omega
    · refine ⟨{ s with leader := { wordCount := some t1, needsBackup := true } }, ?_,
        t1, true, F, ds, rfl, hf, hLv1, hdv, hfresh, ?_⟩
      · simp only [Net.step, countWordsHandler, hval, hl, hrun, replicate, hlen, if_false]
        rfl
      · intro w
        obtain ⟨h0, hds, hle⟩ := hF w
        obtain ⟨hdw, htw, -⟩ := hnum w
        have hz := Table.get_of_entries_nil d hlen w
        have : ((Fields text).count w : Int) = 0 := by
          rw [← hdw, hz]; rfl
        exact ⟨h0, hds, by rw [htw, this]; omega⟩

theorem Net.Inv_resync (s : Net) (hinv : s.Inv) :
    ∃ s1, Net.step s Action.resync = some s1 ∧ s1.Inv
      ∧ ∀ w, s1.follower.GetWordCount w = s1.leader.GetWordCount w := by
  obtain ⟨L, nb, F, ds, hl, hf, hLv, hdv, hfresh, hF⟩ := hinv
  obtain ⟨F1, hsync, hlook⟩ := requestLeaderSync_sync s.follower L nb hLv
  have hfol : (requestLeaderSync s.follower (some (syncReplicaHandler s.leader))).1
      = { wordCount := some F1 } := by
    rw [hl, hsync]
  have hget : ∀ w, Table.get F1 w = Table.get L w := Table.get_of_lookup_eq hlook
  refine ⟨{ s with follower := { wordCount := some F1 }, fresh := [],
                   stale := s.fresh ++ s.stale }, ?_, ⟨L, nb, F1, [], hl, rfl, hLv, ?_, rfl, ?_⟩, ?_⟩
  · simp only [Net.step, hfol]
  · intro d hd; simp at hd
  · intro w
    obtain ⟨h0, hds, hle⟩ := hF w
    have hs := sumGet_nonneg w ds hds
    rw [hget w]
    refine ⟨by omega, ?_, by simp [sumGet]⟩
    intro d hd; simp at hd
  · intro w
    show BaseReplica.GetWordCount { wordCount := some F1 } w = s.leader.GetWordCount w
    rw [hl, GetWordCount_eq_get]
    exact hget w

theorem Net.Inv_deliver (s : Net) (i : Nat) (hinv : s.Inv) :
    ∃ s1, Net.step s (Action.deliver i) = some s1 ∧ s1.Inv := by
  cases hget : s.fresh.get? i with
  | none => exact ⟨s, by simp only [Net.step, hget], hinv⟩
  | some body =>
    obtain ⟨L, nb, F, ds, hl, hf, hLv, hdv, hfresh, hF⟩ := hinv
    rw [hfresh] at hget
    obtain ⟨d, hd, hbody⟩ := get?_map_some _ ds i body hget
    have hdm := mem_of_get? hd
    obtain ⟨F1, hrun, hg, -⟩ := updateHandler_Marshal F d (hdv d hdm)
    refine ⟨{ s with follower := { wordCount := some F1 }, fresh := s.fresh.eraseIdx i }, ?_,
      L, nb, F1, ds.eraseIdx i, hl, rfl, hLv, ?_, ?_, ?_⟩
    · simp only [Net.step, hfresh, hget, hf, ← hbody, hrun]
    · intro x hx
      exact hdv x (List.mem_of_mem_eraseIdx hx)
    · show s.fresh.eraseIdx i = _
      rw [hfresh, eraseIdx_map]
    · intro w
      obtain ⟨h0, hds, hle⟩ := hF w
      have hd0 := hds d hdm
      have hsum := sumGet_eraseIdx w ds i d hd
      have hrest : 0 ≤ sumGet w (ds.eraseIdx i) :=
        sumGet_nonneg w _ (fun x hx => hds x (List.mem_of_mem_eraseIdx hx))
      have hLt := (Table.get L w).property.2
      have hF1 : (Table.get F1 w).val = (Table.get F w).val + (Table.get d w).val := by
        rw [hg w]; exact wrapInt64_of_inRange ⟨by omega, by omega⟩
      refine ⟨by omega, ?_, by omega⟩
      intro x hx
      exact hds x (List.mem_of_mem_eraseIdx hx)

theorem Net.Inv_run (acts : List Action) (s : Net) (hinv : s.Inv)
    (hadm : Net.admissible acts s = true) :
    ∃ s1, Net.run acts s = some s1 ∧ s1.Inv := by
  induction acts generalizing s with
  | nil => exact ⟨s, rfl, hinv⟩
  | cons a as ih =>
    simp only [Net.admissible, Bool.and_eq_true] at hadm
    obtain ⟨ha, hrest⟩ := hadm
    have hstep : ∃ s1, Net.step s a = some s1 ∧ s1.Inv := by
      cases a with
      | ingest text =>
        simp only [Bool.and_eq_true] at ha
        exact Net.Inv_ingest s text hinv ha.1 ha.2
      | resync => obtain ⟨s1, h1, h2, -⟩ := Net.Inv_resync s hinv; exact ⟨s1, h1, h2⟩
      | deliver i => exact Net.Inv_deliver s i hinv
      | deliverStale i => simp at ha
    obtain ⟨s1, h1, hinv1⟩ := hstep
    rw [h1] at hrest
    obtain ⟨s2, h2, hinv2⟩ := ih s1 hinv1 hrest
    exact ⟨s2, by simp only [Net.run, h1]; exact h2, hinv2⟩

theorem Net.Inv_le (s : Net) (hinv : s.Inv) (w : GoString) :
    0 ≤ (s.follower.GetWordCount w).val
      ∧ (s.follower.GetWordCount w).val ≤ (s.leader.GetWordCount w).val := by
  obtain ⟨L, nb, F, ds, hl, hf, -, -, -, hF⟩ := hinv
  obtain ⟨h0, hds, hle⟩ := hF w
  have := sumGet_nonneg w ds hds
  rw [hl, hf, GetWordCount_eq_get]
  show 0 ≤ (Table.get F w).val ∧ (Table.get F w).val ≤ (Table.get L w).val
  omega

/-- C9, as amended: from a fresh leader and a new follower, along every run
of ingests (`POST /post`), resyncs (`requestLeaderSync`) and deliveries of
pushed bodies to `/update` in which every ingested text is valid UTF-8, no
`int` count overflows and no body pushed before the follower's last resync
is delivered after it (each other body delivered at most once, in any order,
possibly never), no step panics and in the state reached the follower's
count of every word is at most the leader's (and not negative); and a resync
done in that state makes the follower's count of every word equal to the
leader's. -/
theorem follower_not_ahead (acts : List Action)
    (hadm : Net.admissible acts Net.init = true) :
    ∃ s, Net.run acts Net.init = some s
      ∧ (∀ w, 0 ≤ (s.follower.GetWordCount w).val
          ∧ (s.follower.GetWordCount w).val ≤ (s.leader.GetWordCount w).val)
      ∧ ∃ s1, Net.step s Action.resync = some s1
          ∧ ∀ w, s1.follower.GetWordCount w = s1.leader.GetWordCount w := by
  obtain ⟨s, hrun, hinv⟩ := Net.Inv_run acts Net.init Net.Inv_init hadm
  obtain ⟨s1, h1, -, heq⟩ := Net.Inv_resync s hinv
  exact ⟨s, hrun, Net.Inv_le s hinv, s1, h1, heq⟩

set_option maxRecDepth 100000 in
/-- The run: ingest `"go go"`, resync, ingest `"hello go"`, deliver the one
body in flight. -/
theorem follower_not_ahead_go :
    Net.admissible [Action.ingest (ascii "go go"), Action.resync,
        Action.ingest (ascii "hello go"), Action.deliver 0] Net.init = true
      ∧ ∃ s, Net.run [Action.ingest (ascii "go go"), Action.resync,
          Action.ingest (ascii "hello go"), Action.deliver 0] Net.init = some s
        ∧ (∀ w, 0 ≤ (s.follower.GetWordCount w).val
            ∧ (s.follower.GetWordCount w).val ≤ (s.leader.GetWordCount w).val)
        ∧ ∃ s1, Net.step s Action.resync = some s1
            ∧ ∀ w, s1.follower.GetWordCount w = s1.leader.GetWordCount w :=
  ⟨by decide, follower_not_ahead _ (by decide)⟩

set_option maxRecDepth 100000 in
/-- The defect of the snapshot seen on the wire: the leader ingests the
one-byte text `0xFF`, the pushed body is delivered once, and the follower
counts 1 for the word `U+FFFD`, which the leader never counted, and 0 for
`0xFF`. -/
theorem follower_ahead_invalid_utf8 :
    ∃ s, Net.run [Action.ingest [0xFF], Action.deliver 0] Net.init = some s
      ∧ (s.leader.GetWordCount [0xFF]).val = 1
      ∧ (s.follower.GetWordCount [0xFF]).val = 0
      ∧ (s.leader.GetWordCount [0xEF, 0xBF, 0xBD]).val = 0
      ∧ (s.follower.GetWordCount [0xEF, 0xBF, 0xBD]).val = 1 :=
  ⟨_, rfl, by decide, by decide, by decide, by decide⟩

/-! ## Replication of one delta -/

/-- C3: when a follower's counts equal the leader's, the leader runs
`CountWords` on a text and the follower applies the returned delta once
(`AddWordCount` for each of its entries), the follower's `GetWordCount`
equals the leader's for every word; and when the text is valid UTF-8 the
same holds when the body the leader pushes for the delta goes through the
follower's update handler, which answers 202. -/
theorem replication_exact (L F : Table) (nb : Bool) (text : GoString)
    (hEq : ∀ w, BaseReplica.GetWordCount { wordCount := some F } w
      = BaseLeader.GetWordCount { wordCount := some L, needsBackup := nb } w) :
    ∃ leader1 d follower1,
      BaseLeader.CountWords { wordCount := some L, needsBackup := nb } text = some (leader1, d)
      ∧ applyDelta (some d) { wordCount := some F } = some follower1
      ∧ (∀ w, follower1.GetWordCount w = leader1.GetWordCount w)
      ∧ (ValidString text = true →
          ∃ follower2, updateHandler { wordCount := some F } (Marshal (some d))
              = some (follower2, 202)
            ∧ ∀ w, follower2.GetWordCount w = leader1.GetWordCount w) := by
  obtain ⟨t1, d, hrun, ht, hd, -, hkd⟩ := CountWords_some L nb text
  obtain ⟨f1, hf, hfg, -⟩ := applyDelta_some d F
  have hFL : ∀ w, Table.get F w = Table.get L w := by
    intro w
    have h := hEq w
    rw [GetWordCount_eq_get] at h
    exact h
  have key : ∀ (f : Table), (∀ w, (Table.get f w).val
      = wrapInt64 ((Table.get F w).val + (Table.get d w).val)) →
      ∀ w, BaseReplica.GetWordCount { wordCount := some f } w
        = BaseLeader.GetWordCount { wordCount := some t1, needsBackup := true } w := by
    intro f hg w
    rw [GetWordCount_eq_get]
    apply Subtype.ext
    show (Table.get f w).val = (Table.get t1 w).val
    rw [hg w, ht w, hd w, hFL w, wrapInt64_add_wrap]
  refine ⟨_, d, _, hrun, hf, key f1 hfg, ?_⟩
  intro hvalid
  obtain ⟨f2, hrun2, hg2, -⟩ := updateHandler_Marshal F d
    (fun k hk => Fields_valid text hvalid k ((hkd k).1 hk))
  exact ⟨_, hrun2, key f2 hg2⟩

/-- The phrases of `TestSystem`: a follower in step with the leader after
`"hello world"` stays in step when `"world of go"` is ingested and its delta
applied, also through the pushed body. -/
theorem replication_exact_world_of_go :
    ∃ leader1 d follower1,
      BaseLeader.CountWords
          { wordCount := some (Table.add (Table.add makeMap (ascii "hello") (GoInt.wrap 1))
              (ascii "world") (GoInt.wrap 1)), needsBackup := true }
          (ascii "world of go") = some (leader1, d)
      ∧ applyDelta (some d)
          { wordCount := some (Table.add (Table.add makeMap (ascii "world") (GoInt.wrap 1))
              (ascii "hello") (GoInt.wrap 1)) } = some follower1
      ∧ (∀ w, follower1.GetWordCount w = leader1.GetWordCount w)
      ∧ (ValidString (ascii "world of go") = true →
          ∃ follower2, updateHandler
              { wordCount := some (Table.add (Table.add makeMap (ascii "world") (GoInt.wrap 1))
                  (ascii "hello") (GoInt.wrap 1)) } (Marshal (some d))
              = some (follower2, 202)
            ∧ ∀ w, follower2.GetWordCount w = leader1.GetWordCount w) := by
  apply replication_exact
  intro w
  rw [GetWordCount_eq_get]
  show Table.get _ w = Table.get _ w
  by_cases h1 : w = ascii "world"
  · subst h1; decide
  · by_cases h2 : w = ascii "hello"
    · subst h2; decide
    · rw [Table.get_add_ne _ _ h2, Table.get_add_ne _ _ h1, Table.get_add_ne _ _ h1,
        Table.get_add_ne _ _ h2]

/-! ## The snapshot round trip on valid UTF-8 texts -/

/-- The snapshot round trip after ingesting valid UTF-8 texts on a fresh
leader: a successful `backup` followed by `restore` on a fresh leader
returns no error and yields a table with the same words and the same
counts. -/
theorem snapshot_round_trip_ingested (texts : List GoString)
    (hvalid : ∀ x ∈ texts, ValidString x = true) :
    ∃ db t t1, ingestAll texts (NewLeader none) = some db
      ∧ db.wordCount = some t
      ∧ (BaseLeader.restore (NewLeader none) (db.backup WriteOutcome.ok).2.1).2 = false
      ∧ (NewLeader (db.backup WriteOutcome.ok).2.1).wordCount = some t1
      ∧ ∀ w, t1.lookup w = t.lookup w := by
  obtain ⟨t, nb, hrun, -, hkeys⟩ := ingestAll_some texts makeMap false
  have hv : ∀ k ∈ t.keys, ValidString k = true := by
    intro k hk
    rcases (hkeys k).1 hk with h | ⟨x, hx, hw⟩
    · simp [makeMap] at h
    · exact Fields_valid x (hvalid x hx) k hw
  obtain ⟨t1, hun, -, hlook⟩ := Unmarshal_Marshal t hv
  refine ⟨_, t, t1, by rw [NewLeader_none]; exact hrun, rfl, ?_, ?_, hlook⟩
  · show (Unmarshal (Marshal (some t)) (some makeMap)).2 = false
    rw [hun]
  · show (Unmarshal (Marshal (some t)) (some makeMap)).1 = some t1
    rw [hun]

/-- The round trip after `"hello world hello"`. -/
theorem snapshot_round_trip_hello :
    ∃ db t t1, ingestAll [ascii "hello world hello"] (NewLeader none) = some db
      ∧ db.wordCount = some t
      ∧ (BaseLeader.restore (NewLeader none) (db.backup WriteOutcome.ok).2.1).2 = false
      ∧ (NewLeader (db.backup WriteOutcome.ok).2.1).wordCount = some t1
      ∧ ∀ w, t1.lookup w = t.lookup w :=
  snapshot_round_trip_ingested _ (by decide)

/-! ## Double application of a delta -/

/-- C5: applying the same delta to a (non-nil) follower table twice
double-counts: afterwards the count of every word is `t[w] + 2 * d[w]` in
`int` arithmetic, and for every word with a non-zero entry in the delta the
count after two applications differs from the count after one.  The delta is
any map, in particular the one any request body decodes to without error:
the update handler then answers 202 both times and does these two
applications. -/
theorem delta_twice_double_counts (t : Table) (d : GoMap) :
    ∃ db1 db2, applyDelta d { wordCount := some t } = some db1
      ∧ applyDelta d db1 = some db2
      ∧ (∀ w, (db2.GetWordCount w).val
          = wrapInt64 ((Table.get t w).val + 2 * (GoMap.get d w).val))
      ∧ (∀ w, InInt64 ((Table.get t w).val + 2 * (GoMap.get d w).val) →
          (db2.GetWordCount w).val = (Table.get t w).val + 2 * (GoMap.get d w).val)
      ∧ (∀ w, GoMap.get d w ≠ GoInt.zero → db2.GetWordCount w ≠ db1.GetWordCount w)
      ∧ (∀ body, Decode body (some makeMap) = (d, false) →
          updateHandler { wordCount := some t } body = some (db1, 202)
            ∧ updateHandler db1 body = some (db2, 202)) := by
  obtain ⟨t1, h1, hg1, -⟩ := applyDelta_goMap_some d t
  obtain ⟨t2, h2, hg2, -⟩ := applyDelta_goMap_some d t1
  have hval : ∀ w, (BaseReplica.GetWordCount { wordCount := some t2 } w).val
      = wrapInt64 ((Table.get t w).val + 2 * (GoMap.get d w).val) := by
    intro w
    show (Table.get t2 w).val = _
    rw [hg2 w, hg1 w, wrapInt64_wrap_add]; congr 1; ring
  refine ⟨_, _, h1, h2, hval, ?_, ?_, ?_⟩
  · intro w hr
    rw [hval w]; exact wrapInt64_of_inRange hr
  · intro w hne heq
    have hv : (Table.get t2 w).val = (Table.get t1 w).val := congrArg Subtype.val heq
    rw [hg2 w, hg1 w, wrapInt64_wrap_add] at hv
    have hd0 : (GoMap.get d w).val ≠ 0 := fun h => hne (Subtype.ext h)
    exact wrapInt64_add_ne _ (GoMap.get d w).property hd0 hv
  · intro body hdec
    rw [updateHandler_of_decode _ _ _ hdec, updateHandler_of_decode _ _ _ hdec, h1, h2]
    exact ⟨rfl, rfl⟩

/-- The body `{"test":3}` delivered twice to a follower holding `test: 1`:
202 both times, and the count is 7, not the 4 of a single delivery. -/
theorem delta_twice_test :
    ∃ db1 db2,
      updateHandler { wordCount := some (Table.add makeMap (ascii "test") (GoInt.wrap 1)) }
          (ascii "\x7b\"test\":3\x7d") = some (db1, 202)
      ∧ updateHandler db1 (ascii "\x7b\"test\":3\x7d") = some (db2, 202)
      ∧ (db1.GetWordCount (ascii "test")).val = 4
      ∧ (db2.GetWordCount (ascii "test")).val = 7 := by
  obtain ⟨db1, db2, h1, -, -, hex, -, hbody⟩ :=
    delta_twice_double_counts (Table.add makeMap (ascii "test") (GoInt.wrap 1))
      (some (Table.add makeMap (ascii "test") (GoInt.wrap 3)))
  obtain ⟨hb1, hb2⟩ := hbody (ascii "\x7b\"test\":3\x7d") rfl
  refine ⟨db1, db2, hb1, hb2, ?_, ?_⟩
  · have e : db1 = { wordCount := some (Table.add (Table.add makeMap (ascii "test")
        (GoInt.wrap 1)) (ascii "test") (GoInt.wrap 3)) } := Option.some.inj (h1.symm.trans rfl)
    rw [e]; decide
  · rw [hex (ascii "test") (by decide)]; decide

/-! ## Deltas commute -/

theorem pushAll_Marshal (ds : List Table) (hv : ∀ d ∈ ds, ∀ k ∈ AList.keys d, ValidString k = true)
    (F : Table) :
    ∃ F1, pushAll (ds.map fun d => Marshal (some d)) { wordCount := some F }
        = some { wordCount := some F1 }
      ∧ (∀ w, (Table.get F1 w).val
          = wrapInt64 ((Table.get F w).val + (ds.map fun d => (Table.get d w).val).sum))
      ∧ (∀ w, w ∈ F1.keys ↔ w ∈ F.keys ∨ ∃ d ∈ ds, w ∈ d.keys) := by
  induction ds generalizing F with
  | nil =>
    refine ⟨F, rfl, ?_, ?_⟩ <;> intro w <;> simp [wrapInt64_val]
  | cons d ds ih =>
    obtain ⟨F1, hrun, hg, hk⟩ := updateHandler_Marshal F d (hv d (List.mem_cons_self _ _))
    obtain ⟨F2, hrun2, hg2, hk2⟩ := ih (fun x hx => hv x (List.mem_cons_of_mem _ hx)) F1
    refine ⟨F2, ?_, ?_, ?_⟩
    · simp only [List.map_cons, pushAll, hrun]; exact hrun2
    · intro w
      rw [hg2 w, hg w, wrapInt64_wrap_add, List.map_cons, List.sum_cons, add_assoc]
    · intro w
      rw [hk2 w, hk w]
      simp only [List.mem_cons, exists_eq_or_imp]; tauto

/-- C8: applying a list of deltas to a (non-nil) follower table in any
permutation of the list yields the same final table (the same words with the
same counts); and when the follower starts with the leader's table and the
deltas are those returned by the leader's subsequent ingests, each applied
once in any order, the follower's final table is the leader's final table,
also, when the texts are valid UTF-8, if the deltas reach the follower as the
bodies the leader pushes to the update handler. -/
theorem deltas_commute (t : Table) (ds ds1 : List Table) (hp : ds.Perm ds1)
    (L : Table) (nb : Bool) (texts : List GoString) :
    (∃ t1 t2, applyDeltas ds { wordCount := some t } = some { wordCount := some t1 }
        ∧ applyDeltas ds1 { wordCount := some t } = some { wordCount := some t2 }
        ∧ ∀ w, t1.lookup w = t2.lookup w)
      ∧ (∃ L1 nb1 es, ingestDeltas texts { wordCount := some L, needsBackup := nb }
            = some ({ wordCount := some L1, needsBackup := nb1 }, es)
          ∧ (∀ es1, es.Perm es1 →
              ∃ F1, applyDeltas es1 { wordCount := some L } = some { wordCount := some F1 }
                ∧ ∀ w, F1.lookup w = L1.lookup w)
          ∧ ((∀ x ∈ texts, ValidString x = true) → ∀ es1, es.Perm es1 →
              ∃ F2, pushAll (es1.map fun d => Marshal (some d)) { wordCount := some L }
                  = some { wordCount := some F2 }
                ∧ ∀ w, F2.lookup w = L1.lookup w)) := by
  have keys_perm : ∀ {a b : List Table} (_ : a.Perm b) (K : List GoString) (w : GoString),
      (w ∈ K ∨ ∃ d ∈ a, w ∈ AList.keys d) ↔ (w ∈ K ∨ ∃ d ∈ b, w ∈ AList.keys d) := by
    intro a b hab K w
    constructor
    · rintro (h | ⟨d, hd, hw⟩)
      · exact Or.inl h
      · exact Or.inr ⟨d, hab.mem_iff.1 hd, hw⟩
    · rintro (h | ⟨d, hd, hw⟩)
      · exact Or.inl h
      · exact Or.inr ⟨d, hab.mem_iff.2 hd, hw⟩
  constructor
  · obtain ⟨t1, h1, hg1, hk1⟩ := applyDeltas_some ds t
    obtain ⟨t2, h2, hg2, hk2⟩ := applyDeltas_some ds1 t
    refine ⟨t1, t2, h1, h2, Table.lookup_eq_of_keys_get ?_ ?_⟩
    · intro w
      rw [hk1 w, hk2 w]; exact keys_perm hp _ w
    · intro w
      apply Subtype.ext
      rw [hg1 w, hg2 w, (hp.map _).sum_eq]
  · obtain ⟨L1, nb1, es, hrun, hg, hk, -, hsrc⟩ := ingestDeltas_some texts L nb
    refine ⟨L1, nb1, es, hrun, ?_, ?_⟩
    · intro es1 hp1
      obtain ⟨F1, hf, hfg, hfk⟩ := applyDeltas_some es1 L
      refine ⟨F1, hf, Table.lookup_eq_of_keys_get ?_ ?_⟩
      · intro w
        rw [hfk w, hk w]; exact keys_perm hp1.symm _ w
      · intro w
        apply Subtype.ext
        rw [hfg w, hg w, (hp1.map _).sum_eq]
    · intro hvalid es1 hp1
      have hv1 : ∀ d ∈ es1, ∀ k ∈ AList.keys d, ValidString k = true := by
        intro d hd k hkd
        obtain ⟨x, hx, hxk⟩ := hsrc d (hp1.mem_iff.2 hd)
        exact Fields_valid x (hvalid x hx) k (hxk k hkd)
      obtain ⟨F2, hf, hfg, hfk⟩ := pushAll_Marshal es1 hv1 L
      refine ⟨F2, hf, Table.lookup_eq_of_keys_get ?_ ?_⟩
      · intro w
        rw [hfk w, hk w]; exact keys_perm hp1.symm _ w
      · intro w
        apply Subtype.ext
        rw [hfg w, hg w, (hp1.map _).sum_eq]

/-- Two deltas applied in both orders to a follower holding `go: 1`, and the
deltas of `"go go"` and `"hello go"` applied in any order to a follower that
started with the leader's table. -/
theorem deltas_commute_go :
    (∃ t1 t2,
        applyDeltas [Table.add makeMap (ascii "go") (GoInt.wrap 2),
            Table.add makeMap (ascii "hello") (GoInt.wrap 1)]
          { wordCount := some (Table.add makeMap (ascii "go") (GoInt.wrap 1)) }
          = some { wordCount := some t1 }
        ∧ applyDeltas [Table.add makeMap (ascii "hello") (GoInt.wrap 1),
            Table.add makeMap (ascii "go") (GoInt.wrap 2)]
          { wordCount := some (Table.add makeMap (ascii "go") (GoInt.wrap 1)) }
          = some { wordCount := some t2 }
        ∧ ∀ w, t1.lookup w = t2.lookup w)
      ∧ (∃ L1 nb1 es,
          ingestDeltas [ascii "go go", ascii "hello go"]
            { wordCount := some (Table.add makeMap (ascii "go") (GoInt.wrap 1)),
              needsBackup := false }
            = some ({ wordCount := some L1, needsBackup := nb1 }, es)
          ∧ (∀ es1, es.Perm es1 →
              ∃ F1, applyDeltas es1
                  { wordCount := some (Table.add makeMap (ascii "go") (GoInt.wrap 1)) }
                  = some { wordCount := some F1 }
                ∧ ∀ w, F1.lookup w = L1.lookup w)
          ∧ ((∀ x ∈ [ascii "go go", ascii "hello go"], ValidString x = true) →
              ∀ es1, es.Perm es1 →
              ∃ F2, pushAll (es1.map fun d => Marshal (some d))
                  { wordCount := some (Table.add makeMap (ascii "go") (GoInt.wrap 1)) }
                  = some { wordCount := some F2 }
                ∧ ∀ w, F2.lookup w = L1.lookup w)) :=
  deltas_commute _ _ _ (List.Perm.swap _ _ []) _ _ _

/-! ## The local follower: `Update` replaces the whole table -/

/-- Decoding an object into the nil map allocates a map first, so it gives
what decoding into a fresh empty map gives. -/
theorem Unmarshal_nil_object (data : GoString) (members : List (GoString × JValue))
    (h : parseDocument data = some (JValue.object members)) :
    Unmarshal data none = (some (storeMembers members makeMap false).1,
        (storeMembers members makeMap false).2)
      ∧ Unmarshal data none = Unmarshal data (some makeMap) := by
  unfold Unmarshal
  rw [h]
  exact ⟨rfl, rfl⟩

theorem Update_of_error (db : BaseLocalReplica) (file : SnapshotFile)
    (h : (db.getWordsCount file none).2 = true) : db.Update file = (db, true) := by
  unfold BaseLocalReplica.Update
  rw [if_pos h]

theorem Update_of_ok (db : BaseLocalReplica) (file : SnapshotFile)
    (h : (db.getWordsCount file none).2 = false) :
    db.Update file = ({ wordCount := (db.getWordsCount file none).1 }, false) := by
  unfold BaseLocalReplica.Update
  rw [if_neg (by simp [h])]

/-- C11: `BaseLocalReplica.Update` is a full replace.  For every previous
table and every state of the snapshot file: when the file is read and
`json.Unmarshal` returns no error, `Update` returns no error and the table is
exactly the decoded mapping, so `GetWordCount w` is the file's count for `w`
(0 when `w` is absent) whatever the previous table was: for a file holding
an object it is what the members store into an empty map, for the file `null`
it is the nil map, and for a snapshot the leader wrote of a table with valid
UTF-8 words it is that table.  When the read fails or `json.Unmarshal` returns
an error, `Update` returns an error and the store is unchanged. -/
theorem Update_full_replace (db : BaseLocalReplica) (file : SnapshotFile) :
    (∀ data, file = some data → (Unmarshal data none).2 = false →
        db.Update file = ({ wordCount := (Unmarshal data none).1 }, false)
          ∧ ∀ w, (db.Update file).1.GetWordCount w = GoMap.get (Unmarshal data none).1 w)
      ∧ ((file = none ∨ ∃ data, file = some data ∧ (Unmarshal data none).2 = true) →
          db.Update file = (db, true))
      ∧ (∀ data members, file = some data →
          parseDocument data = some (JValue.object members) →
          (storeMembers members makeMap false).2 = false →
          db.Update file = ({ wordCount := some (storeMembers members makeMap false).1 }, false))
      ∧ (∀ data, file = some data → parseDocument data = some JValue.null →
          db.Update file = ({ wordCount := none }, false)
            ∧ ∀ w, (db.Update file).1.GetWordCount w = GoInt.zero)
      ∧ (∀ t : Table, (∀ k ∈ t.keys, ValidString k = true) →
          file = some (Marshal (some t)) →
          (db.Update file).2 = false
            ∧ ∀ w, (db.Update file).1.GetWordCount w = Table.get t w) := by
  refine ⟨?_, ?_, ?_, ?_, ?_⟩
  · intro data hf hok
    subst hf
    have h := Update_of_ok db (some data) hok
    refine ⟨h, fun w => ?_⟩
    rw [h]; rfl
  · rintro (hf | ⟨data, hf, herr⟩)
    · subst hf; rfl
    · subst hf; exact Update_of_error db (some data) herr
  · intro data members hf hdoc hok
    subst hf
    have hun := (Unmarshal_nil_object data members hdoc).1
    have h2 : (BaseLocalReplica.getWordsCount db (some data) none).2 = false := by
      show (Unmarshal data none).2 = false
      rw [hun]; exact hok
    rw [Update_of_ok db (some data) h2]
    show (({ wordCount := (Unmarshal data none).1 } : BaseLocalReplica), false) = _
    rw [hun]
  · intro data hf hdoc
    subst hf
    have hun : Unmarshal data none = (none, false) := by
      unfold Unmarshal; rw [hdoc]; rfl
    have h2 : (BaseLocalReplica.getWordsCount db (some data) none).2 = false := by
      show (Unmarshal data none).2 = false
      rw [hun]
    have h := Update_of_ok db (some data) h2
    have h3 : db.Update (some data) = ({ wordCount := none }, false) := by
      rw [h]
      show (({ wordCount := (Unmarshal data none).1 } : BaseLocalReplica), false) = _
      rw [hun]
    exact ⟨h3, fun w => by rw [h3]; rfl⟩
  · intro t hvalid hf
    subst hf
    obtain ⟨t1, hun, -, hlook⟩ := Unmarshal_Marshal t hvalid
    have hve : ∀ e ∈ t.entries, ValidString e.1 = true :=
      fun e he => hvalid e.1 (List.mem_keys_of_mem he)
    have hnil := (Unmarshal_nil_object _ _ (parseDocument_Marshal t hve).2).2
    have h2 : (BaseLocalReplica.getWordsCount db (some (Marshal (some t))) none).2 = false := by
      show (Unmarshal (Marshal (some t)) none).2 = false
      rw [hnil, hun]
    have h := Update_of_ok db (some (Marshal (some t))) h2
    refine ⟨by rw [h], fun w => ?_⟩
    rw [h]
    show GoMap.get (Unmarshal (Marshal (some t)) none).1 w = _
    rw [hnil, hun]
    exact Table.get_of_lookup_eq hlook w

set_option maxRecDepth 100000 in
/-- C11 on concrete files, for a local follower that holds `b ↦ 7`: the file
`{"a":3}` replaces the table (`a` is 3, `b` is 0); the file
`{"a":1,"b":"x"}` (a type error), a missing file and a truncated file each
return an error and leave `b ↦ 7` in place. -/
theorem Update_replaces_b_seven :
    (BaseLocalReplica.Update { wordCount := some (Table.add makeMap (ascii "b") (GoInt.wrap 7)) }
        (some (ascii "\x7b\"a\":3\x7d"))).2 = false
      ∧ ((BaseLocalReplica.Update
          { wordCount := some (Table.add makeMap (ascii "b") (GoInt.wrap 7)) }
          (some (ascii "\x7b\"a\":3\x7d"))).1.GetWordCount (ascii "a")).val = 3
      ∧ ((BaseLocalReplica.Update
          { wordCount := some (Table.add makeMap (ascii "b") (GoInt.wrap 7)) }
          (some (ascii "\x7b\"a\":3\x7d"))).1.GetWordCount (ascii "b")).val = 0
      ∧ BaseLocalReplica.Update
          { wordCount := some (Table.add makeMap (ascii "b") (GoInt.wrap 7)) }
          (some (ascii "\x7b\"a\":1,\"b\":\"x\"\x7d"))
        = ({ wordCount := some (Table.add makeMap (ascii "b") (GoInt.wrap 7)) }, true)
      ∧ BaseLocalReplica.Update
          { wordCount := some (Table.add makeMap (ascii "b") (GoInt.wrap 7)) } none
        = ({ wordCount := some (Table.add makeMap (ascii "b") (GoInt.wrap 7)) }, true)
      ∧ BaseLocalReplica.Update
          { wordCount := some (Table.add makeMap (ascii "b") (GoInt.wrap 7)) }
          (some (ascii "\x7b\"a\":3"))
        = ({ wordCount := some (Table.add makeMap (ascii "b") (GoInt.wrap 7)) }, true) := by
  have h1 := (Update_full_replace
    { wordCount := some (Table.add makeMap (ascii "b") (GoInt.wrap 7)) }
    (some (ascii "\x7b\"a\":3\x7d"))).1 _ rfl (by decide)
  have h2 := (Update_full_replace
    { wordCount := some (Table.add makeMap (ascii "b") (GoInt.wrap 7)) }
    (some (ascii "\x7b\"a\":1,\"b\":\"x\"\x7d"))).2.1 (Or.inr ⟨_, rfl, by decide⟩)
  have h3 := (Update_full_replace
    { wordCount := some (Table.add makeMap (ascii "b") (GoInt.wrap 7)) } none).2.1 (Or.inl rfl)
  have h4 := (Update_full_replace
    { wordCount := some (Table.add makeMap (ascii "b") (GoInt.wrap 7)) }
    (some (ascii "\x7b\"a\":3"))).2.1 (Or.inr ⟨_, rfl, by decide⟩)
  refine ⟨by rw [h1.1], ?_, ?_, h2, h3, h4⟩
  · rw [h1.2]; decide
  · rw [h1.2]; decide

/-! ## The dirty flag of the leader -/

/-- C12: `CountWords` sets `needsBackup` whenever it returns (and on a
non-nil table it always returns); a tick of `runBackup` with the flag set
clears it exactly when the write succeeded, the file then being the serialised
table, and leaves it set when the write failed (`json.Marshal` of a
`map[string]int` has no failure); a tick with the flag clear changes neither
the store nor the file; no tick changes the table. -/
theorem needsBackup_protocol (db : BaseLeader) (file : SnapshotFile) (w : WriteOutcome) :
    (∀ text db1 d, db.CountWords text = some (db1, d) → db1.needsBackup = true)
      ∧ (db.wordCount ≠ none → ∀ text, ∃ db1 d, db.CountWords text = some (db1, d)
          ∧ db1.needsBackup = true)
      ∧ (db.needsBackup = true →
          ((db.runBackupTick file w).1.needsBackup = false ↔ w = WriteOutcome.ok))
      ∧ (db.needsBackup = true → w = WriteOutcome.ok →
          (db.runBackupTick file w).2 = some (Marshal db.wordCount))
      ∧ (db.needsBackup = true → ∀ after, w = WriteOutcome.fail after →
          (db.runBackupTick file w).1.needsBackup = true
            ∧ (db.runBackupTick file w).2 = after)
      ∧ (db.needsBackup = false → db.runBackupTick file w = (db, file))
      ∧ (db.runBackupTick file w).1.wordCount = db.wordCount := by
  refine ⟨?_, ?_, ?_, ?_, ?_, ?_, ?_⟩
  · intro text db1 d h
    unfold BaseLeader.CountWords at h
    split at h
    · cases h
    · simp only [Option.some.injEq, Prod.mk.injEq] at h
      rw [← h.1]
  · intro hne text
    obtain ⟨wc, nb⟩ := db
    cases wc with
    | none => exact absurd rfl hne
    | some t =>
      obtain ⟨t1, d, hrun, -⟩ := CountWords_some t nb text
      exact ⟨_, d, hrun, rfl⟩
  · intro hnb
    unfold BaseLeader.runBackupTick
    rw [if_pos hnb]
    cases w with
    | ok => simp [BaseLeader.backup]
    | fail after => simp [BaseLeader.backup, hnb]
  · intro hnb hw
    subst hw
    unfold BaseLeader.runBackupTick
    rw [if_pos hnb]
    rfl
  · intro hnb after hw
    subst hw
    unfold BaseLeader.runBackupTick
    rw [if_pos hnb]
    exact ⟨hnb, rfl⟩
  · intro hnb
    unfold BaseLeader.runBackupTick
    rw [if_neg (by simp [hnb])]
  · unfold BaseLeader.runBackupTick
    split
    · cases w <;> rfl
    · rfl

set_option maxRecDepth 100000 in
/-- C12 on a fresh leader that ingests `"go go"`: the flag is set; a tick
whose write fails keeps it set; the next tick, whose write succeeds, clears it
and writes `{"go":2}`; a further tick leaves the file alone. -/
theorem needsBackup_go_go :
    ∃ db1 d, (NewLeader none).CountWords (ascii "go go") = some (db1, d)
      ∧ db1.needsBackup = true
      ∧ (db1.runBackupTick none (WriteOutcome.fail none)).1.needsBackup = true
      ∧ (db1.runBackupTick none WriteOutcome.ok).1.needsBackup = false
      ∧ (db1.runBackupTick none WriteOutcome.ok).2 = some (ascii "\x7b\"go\":2\x7d")
      ∧ (db1.runBackupTick none WriteOutcome.ok).1.runBackupTick
          (some (ascii "\x7b\"go\":2\x7d")) (WriteOutcome.fail none)
        = ((db1.runBackupTick none WriteOutcome.ok).1, some (ascii "\x7b\"go\":2\x7d")) := by
  have hnb := (needsBackup_protocol (NewLeader none) none WriteOutcome.ok).1 (ascii "go go")
    { wordCount := some (Table.add (Table.add makeMap (ascii "go") (GoInt.wrap 1))
        (ascii "go") (GoInt.wrap 1)), needsBackup := true } _ rfl
  refine ⟨{ wordCount := some (Table.add (Table.add makeMap (ascii "go") (GoInt.wrap 1))
        (ascii "go") (GoInt.wrap 1)), needsBackup := true }, _, rfl, hnb, ?_, ?_, ?_, ?_⟩
  · exact ((needsBackup_protocol _ none (WriteOutcome.fail none)).2.2.2.2.1 hnb none rfl).1
  · exact ((needsBackup_protocol _ none WriteOutcome.ok).2.2.1 hnb).2 rfl
  · rw [(needsBackup_protocol _ none WriteOutcome.ok).2.2.2.1 hnb rfl]
    rfl
  · exact (needsBackup_protocol _
      (some (ascii "\x7b\"go\":2\x7d")) (WriteOutcome.fail none)).2.2.2.2.2.1
      (((needsBackup_protocol _ none WriteOutcome.ok).2.2.1 hnb).2 rfl)

/-! ## Start-up of the leader from the snapshot file -/

/-- The table `NewLeader` starts from: the empty map when the file cannot be
read or is not one JSON value; otherwise what `json.Unmarshal` leaves in the
map, also when it returns an error. -/
theorem NewLeader_cases (data : GoString) :
    NewLeader none = { wordCount := some makeMap, needsBackup := false }
      ∧ (parseDocument data = none →
          NewLeader (some data) = { wordCount := some makeMap, needsBackup := false }
            ∧ (BaseLeader.restore { wordCount := some makeMap, needsBackup := false }
                (some data)).2 = true)
      ∧ (∀ members, parseDocument data = some (JValue.object members) →
          NewLeader (some data)
              = { wordCount := some (storeMembers members makeMap false).1, needsBackup := false }
            ∧ (BaseLeader.restore { wordCount := some makeMap, needsBackup := false }
                (some data)).2 = (storeMembers members makeMap false).2)
      ∧ (parseDocument data = some JValue.null →
          NewLeader (some data) = { wordCount := none, needsBackup := false }
            ∧ (BaseLeader.restore { wordCount := some makeMap, needsBackup := false }
                (some data)).2 = false) := by
  refine ⟨rfl, ?_, ?_, ?_⟩
  · intro h
    have hun : Unmarshal data (some makeMap) = (some makeMap, true) := by
      unfold Unmarshal; rw [h]
    constructor
    · show ({ wordCount := (Unmarshal data (some makeMap)).1, needsBackup := false }
        : BaseLeader) = _
      rw [hun]
    · show (Unmarshal data (some makeMap)).2 = _
      rw [hun]
  · intro members h
    have hun : Unmarshal data (some makeMap)
        = (some (storeMembers members makeMap false).1,
            (storeMembers members makeMap false).2) := by
      unfold Unmarshal; rw [h]; rfl
    constructor
    · show ({ wordCount := (Unmarshal data (some makeMap)).1, needsBackup := false }
        : BaseLeader) = _
      rw [hun]
    · show (Unmarshal data (some makeMap)).2 = _
      rw [hun]
  · intro h
    have hun : Unmarshal data (some makeMap) = (none, false) := by
      unfold Unmarshal; rw [h]; rfl
    constructor
    · show ({ wordCount := (Unmarshal data (some makeMap)).1, needsBackup := false }
        : BaseLeader) = _
      rw [hun]
    · show (Unmarshal data (some makeMap)).2 = _
      rw [hun]

set_option maxRecDepth 100000 in
/-- C13, where the code departs from the claim: on the snapshot file
`{"a":1,"b":"x"}` the call `restore` returns an error (the value of `b` is not
an `int`), yet the leader does not start from the empty table: its table has
the two words `a` and `b`, with counts 1 and 0.  A missing file and a file cut
short (`{"a":1,`) do give the empty table. -/
theorem restore_error_keeps_partial_table :
    (BaseLeader.restore { wordCount := some makeMap, needsBackup := false }
        (some (ascii "\x7b\"a\":1,\"b\":\"x\"\x7d"))).2 = true
      ∧ ((NewLeader (some (ascii "\x7b\"a\":1,\"b\":\"x\"\x7d"))).GetWordCount (ascii "a")).val = 1
      ∧ (NewLeader (some (ascii "\x7b\"a\":1,\"b\":\"x\"\x7d"))).GetWordsCounts.keys
          = [ascii "a", ascii "b"]
      ∧ (NewLeader none).GetWordsCounts.keys = []
      ∧ (BaseLeader.restore { wordCount := some makeMap, needsBackup := false }
          (some (ascii "\x7b\"a\":1,"))).2 = true
      ∧ (NewLeader (some (ascii "\x7b\"a\":1,"))).GetWordsCounts.keys = [] := by
  refine ⟨by decide, by decide, by decide, by decide, by decide, by decide⟩

/-! ## Validation of the ingested text -/

theorem validateInput_iff (text : GoString) :
    validateInput text = true ↔ (text = [] ∨ 65535 < text.length) := by
  unfold validateInput maxTextLength
  by_cases h1 : text = []
  · simp [h1]
  · by_cases h2 : text.length > 65535
    · simp [h1, h2]
    · simp only [if_neg h1, if_neg h2]
      constructor
      · intro h; cases h
      · rintro (h | h)
        · exact absurd h h1
        · exact absurd h h2

/-- The handler of `POST /post` on a leader whose table is not nil: for every
value of the form field `text` (empty when the field is missing), the handler
answers 400, leaving the store unchanged and pushing nothing, exactly when
`text` is empty or longer than 65535 bytes; on every other text, 65535 bytes
long included, it runs `CountWords` (every word of the text gains its number
of occurrences), pushes the delta and answers 202. -/
theorem post_validation (t : Table) (nb : Bool) (text : GoString) :
    ((text = [] ∨ 65535 < text.length) →
        countWordsHandler { wordCount := some t, needsBackup := nb } text
          = some ({ wordCount := some t, needsBackup := nb }, none, 400))
      ∧ (¬ (text = [] ∨ 65535 < text.length) →
          ∃ t1 d, BaseLeader.CountWords { wordCount := some t, needsBackup := nb } text
              = some ({ wordCount := some t1, needsBackup := true }, d)
            ∧ countWordsHandler { wordCount := some t, needsBackup := nb } text
              = some ({ wordCount := some t1, needsBackup := true }, replicate d, 202)
            ∧ ∀ w, (Table.get t1 w).val
                = wrapInt64 ((Table.get t w).val + (Fields text).count w))
      ∧ ((∃ db1 push, countWordsHandler { wordCount := some t, needsBackup := nb } text
              = some (db1, push, 400))
          ↔ (text = [] ∨ 65535 < text.length))
      ∧ (text.length = 65535 →
          ∃ db1 push, countWordsHandler { wordCount := some t, needsBackup := nb } text
            = some (db1, push, 202)) := by
  have hinv : (text = [] ∨ 65535 < text.length) →
      countWordsHandler { wordCount := some t, needsBackup := nb } text
        = some ({ wordCount := some t, needsBackup := nb }, none, 400) := by
    intro h
    unfold countWordsHandler
    rw [if_pos ((validateInput_iff text).2 h)]
  have hok : ¬ (text = [] ∨ 65535 < text.length) →
      ∃ t1 d, BaseLeader.CountWords { wordCount := some t, needsBackup := nb } text
          = some ({ wordCount := some t1, needsBackup := true }, d)
        ∧ countWordsHandler { wordCount := some t, needsBackup := nb } text
          = some ({ wordCount := some t1, needsBackup := true }, replicate d, 202)
        ∧ ∀ w, (Table.get t1 w).val
            = wrapInt64 ((Table.get t w).val + (Fields text).count w) := by
    intro h
    obtain ⟨t1, d, hrun, hget, -⟩ := CountWords_some t nb text
    refine ⟨t1, d, hrun, ?_, hget⟩
    unfold countWordsHandler
    rw [if_neg (fun hv => h ((validateInput_iff text).1 hv)), hrun]
  refine ⟨hinv, hok, ⟨?_, fun h => ⟨_, _, hinv h⟩⟩, ?_⟩
  · rintro ⟨db1, push, h⟩
    by_contra hn
    obtain ⟨t1, d, -, h2, -⟩ := hok hn
    rw [h2] at h
    simp at h
  · intro hlen
    have hn : ¬ (text = [] ∨ 65535 < text.length) := by
      rintro (h | h)
      · rw [h] at hlen; simp at hlen
      · omega
    obtain ⟨t1, d, -, h2, -⟩ := hok hn
    exact ⟨_, _, h2⟩

/-- The validation on concrete texts: the empty text is refused with 400 on a fresh
leader, and a text of 65536 bytes too; a text of exactly 65535 bytes `a`
is ingested with 202. -/
theorem post_validation_boundary :
    countWordsHandler { wordCount := some makeMap, needsBackup := false } []
        = some ({ wordCount := some makeMap, needsBackup := false }, none, 400)
      ∧ countWordsHandler { wordCount := some makeMap, needsBackup := false }
          (List.replicate 65536 0x61)
        = some ({ wordCount := some makeMap, needsBackup := false }, none, 400)
      ∧ ∃ db1 push, countWordsHandler { wordCount := some makeMap, needsBackup := false }
          (List.replicate 65535 0x61) = some (db1, push, 202) :=
  ⟨(post_validation makeMap false []).1 (Or.inl rfl),
    (post_validation makeMap false (List.replicate 65536 0x61)).1
      (Or.inr (by rw [List.length_replicate]; decide)),
    (post_validation makeMap false (List.replicate 65535 0x61)).2.2.2
      (List.length_replicate _ _)⟩

/-! ## The read endpoint `/wordcount` and the routes of the three roles -/

/-- The body `json.Marshal` writes for a map with the single entry
`word ↦ c`. -/
theorem Marshal_single (word : GoString) (c : GoInt) :
    Marshal (some (AList.insert word c makeMap))
      = [0x7B] ++ appendString word ++ [0x3A] ++ appendInt c ++ [0x7D] := by
  simp [Marshal, makeMap, marshalMembers, List.insertionSort]

/-- For a word that is valid UTF-8 the body for `word ↦ c` is a JSON object
that decodes to exactly that entry. -/
theorem Unmarshal_single (word : GoString) (c : GoInt) (hvalid : ValidString word = true) :
    ∃ t1, Unmarshal ([0x7B] ++ appendString word ++ [0x3A] ++ appendInt c ++ [0x7D])
          (some makeMap) = (some t1, false)
      ∧ t1.lookup word = some c ∧ ∀ w, w ≠ word → t1.lookup w = none := by
  obtain ⟨t1, hun, -, hlook⟩ := Unmarshal_Marshal (AList.insert word c makeMap)
    (by intro k hk; simp [makeMap] at hk; rw [hk]; exact hvalid)
  rw [Marshal_single] at hun
  refine ⟨t1, hun, ?_, ?_⟩
  · rw [hlook word, AList.lookup_insert]
  · intro w hw
    rw [hlook w, AList.lookup_insert_ne hw]
    simp [makeMap]

/-- C15, the claim as stated fails on the leader: `LeaderServer.RunServer`
registers `/health`, `/post` and `/sync` only, so `GET /wordcount` without a
`word` parameter is answered by the not-found handler of the mux with status
404, not 400. -/
theorem leader_wordcount_not_found :
    LeaderServer.ServeHTTP (NewLeader none) ⟨ascii "/wordcount", [], [], []⟩
        = some (NewLeader none, none, 404, ascii "404 page not found\n")
      ∧ ¬ (∀ (db : BaseLeader) (r : Request), r.path = ascii "/wordcount" → r.word = [] →
          ∃ db1 push body, LeaderServer.ServeHTTP db r = some (db1, push, 400, body)) := by
  refine ⟨rfl, fun h => ?_⟩
  obtain ⟨db1, push, body, h1⟩ := h (NewLeader none) ⟨ascii "/wordcount", [], [], []⟩ rfl rfl
  have h2 : LeaderServer.ServeHTTP (NewLeader none) ⟨ascii "/wordcount", [], [], []⟩
      = some (NewLeader none, none, 404, ascii "404 page not found\n") := rfl
  rw [h2] at h1
  simp at h1

/-- C15 as amended: on a request for the path `/wordcount`, the networked
follower and the local follower answer 400 with an empty body when the `word`
parameter is missing or empty, and otherwise 200 with the body
`{"W":count}` that `json.Marshal` writes for the one-entry map from the word to
its count in the store (for a word that is valid UTF-8 this body decodes to
exactly that entry); the store is unchanged either way.  The leader registers
no such route and answers 404 whatever the parameter. -/
theorem wordcount_status (r : Request) (hp : r.path = ascii "/wordcount") :
    (∀ L : BaseLeader,
        LeaderServer.ServeHTTP L r = some (L, none, 404, ascii "404 page not found\n"))
      ∧ (r.word = [] →
          (∀ F : BaseReplica, ReplicaServer.ServeHTTP F r = some (F, 400, []))
            ∧ ∀ (D : BaseLocalReplica) (file : SnapshotFile),
                LocalReplica.ServeHTTP D file r = (D, 400, []))
      ∧ (r.word ≠ [] →
          (∀ F : BaseReplica, ReplicaServer.ServeHTTP F r
              = some (F, 200, [0x7B] ++ appendString r.word ++ [0x3A]
                  ++ appendInt (F.GetWordCount r.word) ++ [0x7D]))
            ∧ ∀ (D : BaseLocalReplica) (file : SnapshotFile),
                LocalReplica.ServeHTTP D file r
                  = (D, 200, [0x7B] ++ appendString r.word ++ [0x3A]
                      ++ appendInt (D.GetWordCount r.word) ++ [0x7D]))
      ∧ (ValidString r.word = true → ∀ c : GoInt,
          ∃ t1, Unmarshal ([0x7B] ++ appendString r.word ++ [0x3A] ++ appendInt c ++ [0x7D])
                (some makeMap) = (some t1, false)
            ∧ t1.lookup r.word = some c ∧ ∀ w, w ≠ r.word → t1.lookup w = none) := by
  obtain ⟨path, word, text, body⟩ := r
  simp only at hp
  subst hp
  have hL : ServeMux.handler LeaderServer.routes (ascii "/wordcount") = none := rfl
  have hF : ServeMux.handler ReplicaServer.routes (ascii "/wordcount") = some Handler.get := rfl
  have hD : ServeMux.handler LocalReplica.routes (ascii "/wordcount") = some Handler.get := rfl
  refine ⟨?_, ?_, ?_, ?_⟩
  · intro L
    unfold LeaderServer.ServeHTTP
    simp only [hL]
    rfl
  · intro hw
    simp only at hw
    subst hw
    constructor
    · intro F
      unfold ReplicaServer.ServeHTTP
      simp only [hF]
      rfl
    · intro D file
      unfold LocalReplica.ServeHTTP
      simp only [hD]
      rfl
  · intro hw
    simp only at hw
    constructor
    · intro F
      unfold ReplicaServer.ServeHTTP
      simp only [hF, ReplicaServer.getHandler, if_neg hw, Marshal_single]
    · intro D file
      unfold LocalReplica.ServeHTTP
      simp only [hD, LocalReplica.getHandler, if_neg hw, Marshal_single]
  · intro hv c
    exact Unmarshal_single word c hv

set_option maxRecDepth 100000 in
/-- C15 as amended, on the word `go`: a networked follower holding
`go ↦ 2` answers `GET /wordcount?word=go` with 200 and `{"go":2}`, a fresh
local follower with 200 and `{"go":0}`, and the leader with 404. -/
theorem wordcount_go :
    ReplicaServer.ServeHTTP { wordCount := some (Table.add makeMap (ascii "go") (GoInt.wrap 2)) }
        ⟨ascii "/wordcount", ascii "go", [], []⟩
        = some ({ wordCount := some (Table.add makeMap (ascii "go") (GoInt.wrap 2)) }, 200,
            ascii "\x7b\"go\":2\x7d")
      ∧ LocalReplica.ServeHTTP NewLocalReplica none ⟨ascii "/wordcount", ascii "go", [], []⟩
        = (NewLocalReplica, 200, ascii "\x7b\"go\":0\x7d")
      ∧ LeaderServer.ServeHTTP { wordCount := some makeMap, needsBackup := false }
          ⟨ascii "/wordcount", ascii "go", [], []⟩
        = some ({ wordCount := some makeMap, needsBackup := false }, none, 404,
            ascii "404 page not found\n") :=
  ⟨((wordcount_status ⟨ascii "/wordcount", ascii "go", [], []⟩ rfl).2.2.1 (by decide)).1 _,
    ((wordcount_status ⟨ascii "/wordcount", ascii "go", [], []⟩ rfl).2.2.1 (by decide)).2 _ _,
    (wordcount_status ⟨ascii "/wordcount", ascii "go", [], []⟩ rfl).1 _⟩

/-! ## The update endpoint of the local follower -/

set_option maxRecDepth 100000 in
/-- C16, where the code departs from the claim: with the snapshot file
`{"a":3}` the call `Update` succeeds and the handler of the local follower's
`/update` writes no header, so the response has status 200, not 202.  On
every store and file the status is 500 when `Update` returns an error and 200
otherwise, never 202. -/
theorem local_update_answers_200 :
    (BaseLocalReplica.Update NewLocalReplica (some (ascii "\x7b\"a\":3\x7d"))).2 = false
      ∧ (LocalReplica.updateHandler NewLocalReplica (some (ascii "\x7b\"a\":3\x7d"))).2 = 200
      ∧ (LocalReplica.ServeHTTP NewLocalReplica (some (ascii "\x7b\"a\":3\x7d"))
          ⟨ascii "/update", [], [], []⟩).2 = (200, [])
      ∧ (∀ (db : BaseLocalReplica) (file : SnapshotFile),
          (LocalReplica.updateHandler db file).2 = if (db.Update file).2 then 500 else 200)
      ∧ (∀ (db : BaseLocalReplica) (file : SnapshotFile),
          (LocalReplica.updateHandler db file).2 ≠ 202) := by
  have hgen : ∀ (db : BaseLocalReplica) (file : SnapshotFile),
      (LocalReplica.updateHandler db file).2 = if (db.Update file).2 then 500 else 200 := by
    intro db file
    unfold LocalReplica.updateHandler
    split <;> rfl
  refine ⟨by decide, by decide, by decide, hgen, ?_⟩
  intro db file
  rw [hgen]
  split <;> decide

/-! ## Writes to a nil table -/

/-- A JSON value that starts with an opening brace is an object. -/
theorem parseValue_brace (n depth : Nat) (rest : GoString) (v : JValue) (r : GoString)
    (h : parseValue n depth ((0x7B : Byte) :: rest) = some (v, r)) :
    ∃ members, v = JValue.object members := by
  cases n with
  | zero => simp [parseValue] at h
  | succ n =>
    rw [parseValue, if_pos (show ((0x7B : Byte).val = 0x7B) from rfl)] at h
    split at h
    · cases h
    · split at h
      · cases h
      · split at h
        · simp only [Option.some.injEq, Prod.mk.injEq] at h
          exact ⟨[], h.1.symm⟩
        · cases hp : parseMembers n (depth + 1) (_ :: _) with
          | none => rw [hp] at h; cases h
          | some p =>
            rw [hp] at h
            simp only [Option.map_some', Option.some.injEq, Prod.mk.injEq] at h
            exact ⟨p.1, h.1.symm⟩

/-- A body that starts with an opening brace never decodes to the nil map. -/
theorem Decode_brace_ne_nil (rest : GoString) :
    (Decode ((0x7B : Byte) :: rest) (some makeMap)).1 ≠ none := by
  unfold Decode readValue
  rw [skipSpace_cons _ _ (by decide)]
  cases hp : parseValue (2 * ((0x7B : Byte) :: rest).length + 2) 0 ((0x7B : Byte) :: rest) with
  | none => simp
  | some p =>
    obtain ⟨v, r⟩ := p
    obtain ⟨members, hv⟩ := parseValue_brace _ _ _ _ _ hp
    subst hv
    simp [decodeMap]

/-- The full resync against this leader never leaves the follower with a nil
table: the body of `/sync` is the serialisation of a map that is not nil. -/
theorem requestLeaderSync_ne_nil (prev : BaseReplica) (hprev : prev.wordCount ≠ none)
    (L : BaseLeader) :
    (requestLeaderSync prev (some (syncReplicaHandler L))).1.wordCount ≠ none := by
  unfold requestLeaderSync syncReplicaHandler
  simp only [ne_eq, not_true_eq_false, if_false]
  split
  · exact hprev
  · exact Decode_brace_ne_nil _

/-- The leader starts with a nil table exactly when the snapshot file is the
JSON document `null`. -/
theorem NewLeader_nil_iff (data : GoString) :
    (NewLeader (some data)).wordCount = none ↔ parseDocument data = some JValue.null := by
  show (Unmarshal data (some makeMap)).1 = none ↔ _
  unfold Unmarshal
  cases h : parseDocument data with
  | none => simp
  | some v => cases v <;> simp [decodeMap]

set_option maxRecDepth 100000 in
/-- C17, where the code departs from the claim: the snapshot file `null`
deserialises without error and leaves the leader's table nil, so `CountWords`
on the text `a` panics on the write to a nil map (and so does the handler of
`POST /post`); only a text without words gets through.  On the follower a
`/sync` body `null` is decoded without error and `SetWordsCounts` installs the
nil map, after which `AddWordCount` panics; the leader of this repository
never sends that body, its `/sync` always carries an object.  `null` is the
only snapshot content that leaves the leader's table nil. -/
theorem null_snapshot_panics :
    (BaseLeader.restore { wordCount := some makeMap, needsBackup := false }
        (some (ascii "null"))).2 = false
      ∧ (NewLeader (some (ascii "null"))).wordCount = none
      ∧ (NewLeader (some (ascii "null"))).CountWords (ascii "a") = none
      ∧ countWordsHandler (NewLeader (some (ascii "null"))) (ascii "a") = none
      ∧ (NewLeader (some (ascii "null"))).CountWords (ascii " ")
          = some ({ wordCount := none, needsBackup := true }, makeMap)
      ∧ requestLeaderSync NewReplica (some (200, ascii "null")) = ({ wordCount := none }, false)
      ∧ BaseReplica.AddWordCount (requestLeaderSync NewReplica (some (200, ascii "null"))).1
          (ascii "a") (GoInt.wrap 1) = none
      ∧ updateHandler (requestLeaderSync NewReplica (some (200, ascii "null"))).1
          (ascii "\x7b\"a\":1\x7d") = none
      ∧ (∀ (L : BaseLeader) (w : GoString) (c : GoInt),
          BaseReplica.AddWordCount (requestLeaderSync NewReplica (some (syncReplicaHandler L))).1
            w c ≠ none)
      ∧ (∀ data : GoString, (NewLeader (some data)).wordCount = none
          ↔ parseDocument data = some JValue.null) := by
  refine ⟨by decide, rfl, rfl, rfl, rfl, rfl, rfl, rfl, ?_, NewLeader_nil_iff⟩
  intro L w c
  have h := requestLeaderSync_ne_nil NewReplica (by simp [NewReplica]) L
  generalize (requestLeaderSync NewReplica (some (syncReplicaHandler L))).1 = F at h
  obtain ⟨wc⟩ := F
  cases wc with
  | none => exact absurd rfl h
  | some t => simp [BaseReplica.AddWordCount, GoMap.add]

/-! ## `POST /post` on every store of the leader -/

/-- On a nil table `CountWords` panics as soon as the text has a word. -/
theorem CountWords_nil (nb : Bool) (text : GoString) (hw : Fields text ≠ []) :
    BaseLeader.CountWords { wordCount := none, needsBackup := nb } text = none := by
  unfold BaseLeader.CountWords
  cases hf : Fields text with
  | nil => exact absurd hf hw
  | cons w ws => simp [countLoop, GoMap.add]

/-- On a nil table a text without words goes through `CountWords`, with the
empty delta. -/
theorem CountWords_nil_blank (nb : Bool) (text : GoString) (hw : Fields text = []) :
    BaseLeader.CountWords { wordCount := none, needsBackup := nb } text
      = some ({ wordCount := none, needsBackup := true }, makeMap) := by
  unfold BaseLeader.CountWords
  rw [hw]
  rfl

set_option maxRecDepth 100000 in
/-- C14, where the code departs from the claim: a leader started on the
snapshot file `null` has a nil table, and `POST /post` with the text `a`
(which `validateInput` accepts) panics in `CountWords` instead of ingesting the
text and answering 202.  On every store, nil table or not, an empty text or
one longer than 65535 bytes is answered 400 with the store unchanged and
nothing pushed, and 400 is answered for no other text; on every store whose
table is not nil every other text, 65535 bytes long included, is ingested and
answered 202; on a nil table such a text panics when it has a word and is
answered 202 when it has none. -/
theorem post_panics_on_nil_table :
    validateInput (ascii "a") = false
      ∧ (NewLeader (some (ascii "null"))).wordCount = none
      ∧ countWordsHandler (NewLeader (some (ascii "null"))) (ascii "a") = none
      ∧ LeaderServer.ServeHTTP (NewLeader (some (ascii "null")))
          ⟨ascii "/post", [], ascii "a", []⟩ = none
      ∧ (∀ (db : BaseLeader) (text : GoString), (text = [] ∨ 65535 < text.length) →
          countWordsHandler db text = some (db, none, 400))
      ∧ (∀ (db : BaseLeader) (text : GoString),
          (∃ db1 push, countWordsHandler db text = some (db1, push, 400))
            ↔ (text = [] ∨ 65535 < text.length))
      ∧ (∀ (t : Table) (nb : Bool) (text : GoString), ¬ (text = [] ∨ 65535 < text.length) →
          ∃ t1 d, BaseLeader.CountWords { wordCount := some t, needsBackup := nb } text
              = some ({ wordCount := some t1, needsBackup := true }, d)
            ∧ countWordsHandler { wordCount := some t, needsBackup := nb } text
              = some ({ wordCount := some t1, needsBackup := true }, replicate d, 202)
            ∧ ∀ w, (Table.get t1 w).val
                = wrapInt64 ((Table.get t w).val + (Fields text).count w))
      ∧ (∀ (nb : Bool) (text : GoString), ¬ (text = [] ∨ 65535 < text.length) →
          Fields text ≠ [] →
          countWordsHandler { wordCount := none, needsBackup := nb } text = none)
      ∧ (∀ (nb : Bool) (text : GoString), ¬ (text = [] ∨ 65535 < text.length) →
          Fields text = [] →
          countWordsHandler { wordCount := none, needsBackup := nb } text
            = some ({ wordCount := none, needsBackup := true }, none, 202)) := by
  have hinv : ∀ (db : BaseLeader) (text : GoString), (text = [] ∨ 65535 < text.length) →
      countWordsHandler db text = some (db, none, 400) := by
    intro db text h
    unfold countWordsHandler
    rw [if_pos ((validateInput_iff text).2 h)]
  have hok : ∀ (t : Table) (nb : Bool) (text : GoString),
      ¬ (text = [] ∨ 65535 < text.length) →
      ∃ t1 d, BaseLeader.CountWords { wordCount := some t, needsBackup := nb } text
          = some ({ wordCount := some t1, needsBackup := true }, d)
        ∧ countWordsHandler { wordCount := some t, needsBackup := nb } text
          = some ({ wordCount := some t1, needsBackup := true }, replicate d, 202)
        ∧ ∀ w, (Table.get t1 w).val
            = wrapInt64 ((Table.get t w).val + (Fields text).count w) := by
    intro t nb text h
    obtain ⟨t1, d, hrun, hget, -⟩ := CountWords_some t nb text
    refine ⟨t1, d, hrun, ?_, hget⟩
    unfold countWordsHandler
    rw [if_neg (fun hv => h ((validateInput_iff text).1 hv)), hrun]
  have hnil : ∀ (nb : Bool) (text : GoString), ¬ (text = [] ∨ 65535 < text.length) →
      Fields text ≠ [] →
      countWordsHandler { wordCount := none, needsBackup := nb } text = none := by
    intro nb text h hw
    unfold countWordsHandler
    rw [if_neg (fun hv => h ((validateInput_iff text).1 hv)), CountWords_nil nb text hw]
  have hblank : ∀ (nb : Bool) (text : GoString), ¬ (text = [] ∨ 65535 < text.length) →
      Fields text = [] →
      countWordsHandler { wordCount := none, needsBackup := nb } text
        = some ({ wordCount := none, needsBackup := true }, none, 202) := by
    intro nb text h hw
    unfold countWordsHandler
    rw [if_neg (fun hv => h ((validateInput_iff text).1 hv)), CountWords_nil_blank nb text hw]
    rfl
  refine ⟨by decide, rfl, rfl, rfl, hinv, ?_, hok, hnil, hblank⟩
  intro db text
  refine ⟨?_, fun h => ⟨_, _, hinv db text h⟩⟩
  rintro ⟨db1, push, h⟩
  by_contra hn
  obtain ⟨wc, nb⟩ := db
  cases wc with
  | some t =>
    obtain ⟨t1, d, -, h2, -⟩ := hok t nb text hn
    rw [h2] at h
    simp at h
  | none =>
    by_cases hw : Fields text = []
    · rw [hblank nb text hn hw] at h
      simp at h
    · rw [hnil nb text hn hw] at h
      cases h

end Memdb
